import Mathlib

/-!
# sfzCore math kernel: vectors and quaternions

A shallow embedding of `sfz/math/Vector.inl`, `sfz/math/MathSupport.inl`,
`sfz/math/Quaternion.hpp`, `sfz/math/Quaternion.inl` and of the method `log` of
`sfz/util/StandardLogger.cpp`.

* The element type `T` of the C++ templates is a type with a `Scalar` instance:
  the arithmetic operators, `T(0)`, `T(-1)`, `operator==` and `T(sqrt(x))`.
* `Int32` is `int32_t`: an integer in `[-2^31, 2^31)` with wrap-around arithmetic.
* `F32` is `float`: an IEEE 754 binary32 bit pattern; `+ - * /` and `sqrt` are
  correctly rounded (round to nearest, ties to even), evaluated one operation at
  a time (no contraction into fused multiply-add). Every NaN result of these
  operations is the one quiet NaN `0x7FC00000`; the bit operations of `abs` and
  `sgn` keep the payload of their input.
* In-place operators (`+=` ...) take the left operand and return its new value.
* A function with an `#ifdef SFZ_CUDA_DEVICE_CODE` takes the flag as a Boolean:
  `true` is the scalar build, `false` the host build with SSE intrinsics, whose
  128-bit registers are four 32-bit lanes.
* A function that may call itself takes a fuel bound on the depth of the calls
  and returns `none` when the bound is reached.
* The quaternion functions that `Quaternion.hpp` declares and no source file
  defines (`identity`, `conjugate`, `operator*`) are modelled from the spec.
* A `const char*` of the logger is `nullptr`, a position in the string `file`,
  or the value of `nullptr + 1`.
* Accuracy statements read a finite float as the rational number it stands for
  (`F32.toRat`, `F32.mag`).
-/

namespace sfz

/-! ## Element types -/

/-- Operations the templates of `Vector.inl` use on their element type `T`. -/
class Scalar (T : Type) extends Add T, Sub T, Mul T, Div T where
  /-- The value `T(0)`. -/
  zero : T
  /-- The value `T(-1)`. -/
  negOne : T
  /-- The comparison `a == b` of two elements. -/
  eq : T → T → Bool
  /-- The value `T(sqrt(x))`, with `using std::sqrt`. -/
  sqrt : T → T

/-- The comparison `a != b` of two elements. -/
def Scalar.ne {T : Type} [Scalar T] (a b : T) : Bool := !(Scalar.eq a b)

/-- Bit-by-bit square root: with `acc = 0`, the largest `r < 2^k` such that
`r * r ≤ n`. -/
def isqrtAux : Nat → Nat → Nat → Nat
  | 0, _, acc => acc
  | k + 1, n, acc =>
    let c := acc + 2 ^ k
    isqrtAux k n (if c * c ≤ n then c else acc)

/-! ### `int32_t` -/

/-- A value of `int32_t`. -/
structure Int32 where
  toInt : Int
  lo : -2147483648 ≤ toInt
  hi : toInt < 2147483648
deriving DecidableEq

namespace Int32

/-- Reduction of an integer to the `int32_t` with the same low 32 bits. -/
def wrap (i : Int) : Int32 :=
  ⟨(i + 2147483648) % 4294967296 - 2147483648, by omega, by omega⟩

/-- The conversion `int32_t(std::sqrt(double(a)))`: the square root of a
non-negative value rounded towards zero. For a negative value the square root is
NaN and the conversion yields the "integer indefinite" value `INT32_MIN` (x86). -/
def sqrt (a : Int32) : Int32 :=
  if 0 ≤ a.toInt then wrap (isqrtAux 16 a.toInt.toNat 0) else wrap (-2147483648)

/-- The `int32_t` operators, with two's complement wrap-around on overflow.
Division truncates towards zero; the quotient by zero, which C++ leaves
undefined, is taken as 0. -/
instance : Scalar Int32 where
  add a b := wrap (a.toInt + b.toInt)
  sub a b := wrap (a.toInt - b.toInt)
  mul a b := wrap (a.toInt * b.toInt)
  div a b := wrap (Int.tdiv a.toInt b.toInt)
  zero := wrap 0
  negOne := wrap (-1)
  eq a b := decide (a.toInt = b.toInt)
  sqrt := sqrt

end Int32

/-! ### `float` -/

/-- A value of `float`, as its IEEE 754 binary32 bit pattern. -/
structure F32 where
  bits : Nat
  isLt : bits < 0x100000000
deriving DecidableEq

namespace F32

/-- The float with the given bit pattern (low 32 bits). -/
def ofBits (n : Nat) : F32 := ⟨n % 0x100000000, Nat.mod_lt _ (by decide)⟩

/-- The sign bit (bit 31). -/
def sign (a : F32) : Bool := decide (0x80000000 ≤ a.bits)

/-- The biased exponent field (bits 23..30). -/
def expField (a : F32) : Nat := a.bits / 0x800000 % 256

/-- The fraction field (bits 0..22). -/
def fracField (a : F32) : Nat := a.bits % 0x800000

/-- A NaN: exponent field all ones, fraction not zero. -/
def isNaN (a : F32) : Bool := a.expField == 255 && a.fracField != 0

/-- An infinity: exponent field all ones, fraction zero. -/
def isInf (a : F32) : Bool := a.expField == 255 && a.fracField == 0

/-- A zero, `+0.0f` or `-0.0f`. -/
def isZero (a : F32) : Bool := a.expField == 0 && a.fracField == 0

/-- Bit 31 as a number. -/
def signBit (s : Bool) : Nat := if s then 0x80000000 else 0

/-- The zero `+0.0f` (`s = false`) or `-0.0f` (`s = true`). -/
def zero (s : Bool) : F32 := ofBits (signBit s)

/-- The infinity of sign `s`. -/
def inf (s : Bool) : F32 := ofBits (signBit s + 0x7F800000)

/-- The quiet NaN every invalid operation returns. -/
def nan : F32 := ofBits 0x7FC00000

/-- Magnitude of a finite float in units of `2^-149`: a float with exponent
field `E` and fraction `M` is `M * 2^-149` when `E = 0` (zero, subnormal) and
`(2^23 + M) * 2^(E - 150)` otherwise. -/
def fix (a : F32) : Nat :=
  if a.expField = 0 then a.fracField else (0x800000 + a.fracField) * 2 ^ (a.expField - 1)

/-- Signed value of a finite float in units of `2^-149`. -/
def sval (a : F32) : Int := if a.sign then -(a.fix : Int) else (a.fix : Int)

/-- The quotient `m / 2^k` rounded to the nearest integer, ties to even. -/
def roundNE (m k : Nat) : Nat :=
  let q := m / 2 ^ k
  let r := m % 2 ^ k
  if 2 ^ k < 2 * r then q + 1
  else if 2 ^ k = 2 * r then (if q % 2 = 1 then q + 1 else q)
  else q

/-- Halving loop of `ilog2`, at most `f` steps. -/
def ilog2Aux : Nat → Nat → Nat
  | 0, _ => 0
  | f + 1, n => if n < 2 then 0 else ilog2Aux f (n / 2) + 1

/-- Position of the highest set bit of `n` (0 for `n = 0`). -/
def ilog2 (n : Nat) : Nat := ilog2Aux n n

/-- Exponent and fraction fields (bits 0..30) of the float nearest to
`m * 2^e`, ties to even, for `m ≠ 0`. With `q` the exponent of the last kept bit
and `m1` the rounded significand, the fields are `(q + 149) * 2^23 + m1`: this
also covers subnormal results (`q = -149`, `m1 < 2^23`) and a carry out of
rounding (`m1 = 2^24`). A result of `0x7F800000` or more stands for overflow. -/
def roundEnc (m : Nat) (e : Int) : Nat :=
  let q : Int := max ((ilog2 m : Int) + e - 23) (-149)
  let m1 : Nat := if q ≤ e then m * 2 ^ (e - q).toNat else roundNE m (q - e).toNat
  (q + 149).toNat * 0x800000 + m1

/-- The float nearest to `(-1)^s * m * 2^e`, ties to even, overflowing to
infinity. -/
def round (s : Bool) (m : Nat) (e : Int) : F32 :=
  if m = 0 then zero s
  else if 0x7F800000 ≤ roundEnc m e then inf s
  else ofBits (signBit s + roundEnc m e)

/-- Unary minus: the sign bit is flipped. -/
def neg (a : F32) : F32 :=
  ofBits (if a.sign then a.bits - 0x80000000 else a.bits + 0x80000000)

/-- Addition `a + b`. -/
def add (a b : F32) : F32 :=
  if a.isNaN || b.isNaN then nan
  else if a.isInf then (if b.isInf && (a.sign != b.sign) then nan else a)
  else if b.isInf then b
  else
    let s := a.sval + b.sval
    if s = 0 then zero (a.sign && b.sign)
    else round (decide (s < 0)) s.natAbs (-149)

/-- Subtraction `a - b`. -/
def sub (a b : F32) : F32 := add a (neg b)

/-- Multiplication `a * b`. -/
def mul (a b : F32) : F32 :=
  if a.isNaN || b.isNaN then nan
  else if a.isInf || b.isInf then
    (if a.isZero || b.isZero then nan else inf (a.sign != b.sign))
  else round (a.sign != b.sign) (a.fix * b.fix) (-298)

/-- Division `a / b`: the quotient is computed with 512 extra bits and a sticky
bit for the remainder, then rounded. -/
def div (a b : F32) : F32 :=
  if a.isNaN || b.isNaN then nan
  else if a.isInf then (if b.isInf then nan else inf (a.sign != b.sign))
  else if b.isInf then zero (a.sign != b.sign)
  else if b.isZero then (if a.isZero then nan else inf (a.sign != b.sign))
  else
    let n := a.fix * 2 ^ 512
    let q := n / b.fix
    let sticky := if n % b.fix = 0 then 0 else 1
    round (a.sign != b.sign) (2 * q + sticky) (-513)

/-- Floor of the square root of `n`. -/
def isqrt (n : Nat) : Nat := isqrtAux (ilog2 n / 2 + 1) n 0

/-- Square root `std::sqrt(a)`: the root of `fix a * 2^-149` is taken on the
integer `fix a * 2^129` (scale `2^-278`) with a sticky bit, then rounded. -/
def sqrt (a : F32) : F32 :=
  if a.isNaN then nan
  else if a.isZero then a
  else if a.sign then nan
  else if a.isInf then a
  else
    let n := a.fix * 2 ^ 129
    let r := isqrt n
    let sticky := if r * r = n then 0 else 1
    round false (2 * r + sticky) (-140)

/-- Comparison `a == b`: false when either side is NaN, and `+0.0f == -0.0f`. -/
def eq (a b : F32) : Bool :=
  !a.isNaN && !b.isNaN && (a.bits == b.bits || (a.isZero && b.isZero))

/-- The float literal of an integer, such as `3.0f` or `-1.0f`. -/
def ofInt (i : Int) : F32 := round (decide (i < 0)) i.natAbs 0

/-- Two floats stand for the same value: both are NaN, or they compare equal. -/
def sameValue (a b : F32) : Bool := (a.isNaN && b.isNaN) || F32.eq a b

/-- Neither NaN nor an infinity. -/
def isFinite (a : F32) : Bool := a.expField != 255

/-- The sum `a + b` of two finite floats is finite and free of rounding error. -/
def addExact (a b : F32) : Bool :=
  a.isFinite && b.isFinite && (add a b).isFinite
    && decide ((add a b).sval = a.sval + b.sval)

/-- The `float` operators. -/
instance : Scalar F32 where
  add := add
  sub := sub
  mul := mul
  div := div
  zero := zero false
  negOne := ofInt (-1)
  eq := eq
  sqrt := sqrt

end F32

/-! ## `Vector<T,2>`, `Vector<T,3>`, `Vector<T,4>` -/

variable {T : Type}

/-- The specialisation `Vector<T,2>`. -/
structure Vector2 (T : Type) where
  x : T
  y : T
deriving DecidableEq

/-- The specialisation `Vector<T,3>`. -/
structure Vector3 (T : Type) where
  x : T
  y : T
  z : T
deriving DecidableEq

/-- The specialisation `Vector<T,4>`. -/
structure Vector4 (T : Type) where
  x : T
  y : T
  z : T
  w : T
deriving DecidableEq

namespace Vector2

/-- Constructor `Vector(T value)`. -/
def ofValue (value : T) : Vector2 T := ⟨value, value⟩

/-- Index operator `operator[]`: `elementsPtr()[index]` with `elementsPtr() = &x`. -/
def get (v : Vector2 T) (index : Fin 2) : T :=
  match index with
  | 0 => v.x
  | 1 => v.y

variable [Scalar T]

/-- Function `dot(Vector<T,2>, Vector<T,2>)`. -/
def dot (left right : Vector2 T) : T :=
  left.x * right.x + left.y * right.y

/-- Function `length`. -/
def length (vector : Vector2 T) : T := Scalar.sqrt (dot vector vector)

/-- Operator `+=` of two vectors. -/
def opAddAssign (left right : Vector2 T) : Vector2 T :=
  let left := { left with x := left.x + right.x }
  let left := { left with y := left.y + right.y }
  left

/-- Operator `-=` of two vectors. -/
def opSubAssign (left right : Vector2 T) : Vector2 T :=
  let left := { left with x := left.x - right.x }
  let left := { left with y := left.y - right.y }
  left

/-- Operator `*=` by a scalar. -/
def opMulAssign (left : Vector2 T) (right : T) : Vector2 T :=
  let left := { left with x := left.x * right }
  let left := { left with y := left.y * right }
  left

/-- Operator `/=` by a scalar. -/
def opDivAssign (left : Vector2 T) (right : T) : Vector2 T :=
  let left := { left with x := left.x / right }
  let left := { left with y := left.y / right }
  left

/-- Binary operator `+`. -/
def opAdd (left right : Vector2 T) : Vector2 T :=
  let temp := left
  opAddAssign temp right

/-- Binary operator `-`. -/
def opSub (left right : Vector2 T) : Vector2 T :=
  let temp := left
  opSubAssign temp right

/-- Unary operator `-`. -/
def opNeg (vector : Vector2 T) : Vector2 T :=
  let temp := vector
  opMulAssign temp Scalar.negOne

/-- Operator `/` by a scalar. -/
def opDiv (left : Vector2 T) (right : T) : Vector2 T :=
  let temp := left
  opDivAssign temp right

/-- Operator `==`. -/
def opEq (left right : Vector2 T) : Bool :=
  Scalar.eq left.x right.x && Scalar.eq left.y right.y

/-- Operator `!=`. -/
def opNe (left right : Vector2 T) : Bool := !(opEq left right)

/-- Function `safeNormalize`. -/
def safeNormalize (vector : Vector2 T) : Vector2 T :=
  let lengthTmp := length vector
  if Scalar.eq lengthTmp Scalar.zero then ofValue Scalar.zero
  else opDiv vector lengthTmp

end Vector2

namespace Vector3

/-- Constructor `Vector(T value)`. -/
def ofValue (value : T) : Vector3 T := ⟨value, value, value⟩

/-- Index operator `operator[]`: `elementsPtr()[index]` with `elementsPtr() = &x`. -/
def get (v : Vector3 T) (index : Fin 3) : T :=
  match index with
  | 0 => v.x
  | 1 => v.y
  | 2 => v.z

variable [Scalar T]

/-- Function `dot(Vector<T,3>, Vector<T,3>)`. -/
def dot (left right : Vector3 T) : T :=
  left.x * right.x + left.y * right.y + left.z * right.z

/-- Function `cross`. -/
def cross (left right : Vector3 T) : Vector3 T :=
  Vector3.mk (left.y * right.z - left.z * right.y)
             (left.z * right.x - left.x * right.z)
             (left.x * right.y - left.y * right.x)

/-- Function `length`. -/
def length (vector : Vector3 T) : T := Scalar.sqrt (dot vector vector)

/-- Operator `+=` of two vectors. -/
def opAddAssign (left right : Vector3 T) : Vector3 T :=
  let left := { left with x := left.x + right.x }
  let left := { left with y := left.y + right.y }
  let left := { left with z := left.z + right.z }
  left

/-- Operator `-=` of two vectors. -/
def opSubAssign (left right : Vector3 T) : Vector3 T :=
  let left := { left with x := left.x - right.x }
  let left := { left with y := left.y - right.y }
  let left := { left with z := left.z - right.z }
  left

/-- Operator `*=` by a scalar. -/
def opMulAssign (left : Vector3 T) (right : T) : Vector3 T :=
  let left := { left with x := left.x * right }
  let left := { left with y := left.y * right }
  let left := { left with z := left.z * right }
  left

/-- Operator `/=` by a scalar. -/
def opDivAssign (left : Vector3 T) (right : T) : Vector3 T :=
  let left := { left with x := left.x / right }
  let left := { left with y := left.y / right }
  let left := { left with z := left.z / right }
  left

/-- Binary operator `+`. -/
def opAdd (left right : Vector3 T) : Vector3 T :=
  let temp := left
  opAddAssign temp right

/-- Binary operator `-`. -/
def opSub (left right : Vector3 T) : Vector3 T :=
  let temp := left
  opSubAssign temp right

/-- Unary operator `-`. -/
def opNeg (vector : Vector3 T) : Vector3 T :=
  let temp := vector
  opMulAssign temp Scalar.negOne

/-- Operator `/` by a scalar. -/
def opDiv (left : Vector3 T) (right : T) : Vector3 T :=
  let temp := left
  opDivAssign temp right

/-- Operator `==`. -/
def opEq (left right : Vector3 T) : Bool :=
  Scalar.eq left.x right.x && Scalar.eq left.y right.y && Scalar.eq left.z right.z

/-- Operator `!=`. -/
def opNe (left right : Vector3 T) : Bool := !(opEq left right)

/-- Function `safeNormalize`. -/
def safeNormalize (vector : Vector3 T) : Vector3 T :=
  let lengthTmp := length vector
  if Scalar.eq lengthTmp Scalar.zero then ofValue Scalar.zero
  else opDiv vector lengthTmp

end Vector3

namespace Vector4

/-- Constructor `Vector(T value)`. -/
def ofValue (value : T) : Vector4 T := ⟨value, value, value, value⟩

/-- Constructor `Vector(Vector<T,3> xyz, T w)`. -/
def ofXyzW (xyz : Vector3 T) (w : T) : Vector4 T := ⟨xyz.x, xyz.y, xyz.z, w⟩

/-- Index operator `operator[]`: `elementsPtr()[index]` with `elementsPtr() = &x`. -/
def get (v : Vector4 T) (index : Fin 4) : T :=
  match index with
  | 0 => v.x
  | 1 => v.y
  | 2 => v.z
  | 3 => v.w

variable [Scalar T]

/-- Function `dot(Vector<T,4>, Vector<T,4>)`. -/
def dot (left right : Vector4 T) : T :=
  left.x * right.x + left.y * right.y + left.z * right.z + left.w * right.w

/-- Function `length`. -/
def length (vector : Vector4 T) : T := Scalar.sqrt (dot vector vector)

/-- Operator `+=` of two vectors. -/
def opAddAssign (left right : Vector4 T) : Vector4 T :=
  let left := { left with x := left.x + right.x }
  let left := { left with y := left.y + right.y }
  let left := { left with z := left.z + right.z }
  let left := { left with w := left.w + right.w }
  left

/-- Operator `-=` of two vectors. -/
def opSubAssign (left right : Vector4 T) : Vector4 T :=
  let left := { left with x := left.x - right.x }
  let left := { left with y := left.y - right.y }
  let left := { left with z := left.z - right.z }
  let left := { left with w := left.w - right.w }
  left

/-- Operator `*=` by a scalar. -/
def opMulAssign (left : Vector4 T) (right : T) : Vector4 T :=
  let left := { left with x := left.x * right }
  let left := { left with y := left.y * right }
  let left := { left with z := left.z * right }
  let left := { left with w := left.w * right }
  left

/-- Operator `/=` by a scalar. -/
def opDivAssign (left : Vector4 T) (right : T) : Vector4 T :=
  let left := { left with x := left.x / right }
  let left := { left with y := left.y / right }
  let left := { left with z := left.z / right }
  let left := { left with w := left.w / right }
  left

/-- Binary operator `+`. -/
def opAdd (left right : Vector4 T) : Vector4 T :=
  let temp := left
  opAddAssign temp right

/-- Binary operator `-`. -/
def opSub (left right : Vector4 T) : Vector4 T :=
  let temp := left
  opSubAssign temp right

/-- Unary operator `-`. -/
def opNeg (vector : Vector4 T) : Vector4 T :=
  let temp := vector
  opMulAssign temp Scalar.negOne

/-- Operator `/` by a scalar. -/
def opDiv (left : Vector4 T) (right : T) : Vector4 T :=
  let temp := left
  opDivAssign temp right

/-- Operator `==`. -/
def opEq (left right : Vector4 T) : Bool :=
  Scalar.eq left.x right.x && Scalar.eq left.y right.y && Scalar.eq left.z right.z
    && Scalar.eq left.w right.w

/-- Operator `!=`. -/
def opNe (left right : Vector4 T) : Bool := !(opEq left right)

/-- Function `safeNormalize`. -/
def safeNormalize (vector : Vector4 T) : Vector4 T :=
  let lengthTmp := length vector
  if Scalar.eq lengthTmp Scalar.zero then ofValue Scalar.zero
  else opDiv vector lengthTmp

end Vector4

/-! ## Generic `Vector<T,N>` -/

/-- The generic `Vector<T,N>`: the array `T elements[N]`. -/
structure Vector (T : Type) (N : Nat) where
  elements : Fin N → T

namespace Vector

variable {N : Nat}

/-- Assignment `elements[i] = value`. -/
def set (v : Vector T N) (i : Fin N) (value : T) : Vector T N :=
  ⟨Function.update v.elements i value⟩

variable [Scalar T]

/-- Function `dot(Vector<T,N>, Vector<T,N>)`: the loop over `i = 0 .. N-1`. -/
def dot (left right : Vector T N) : T :=
  (List.finRange N).foldl
    (fun product i => product + left.elements i * right.elements i) Scalar.zero

/-- Operator `+=` of two vectors: the loop over `i = 0 .. N-1`. -/
def opAddAssign (left right : Vector T N) : Vector T N :=
  (List.finRange N).foldl
    (fun left i => left.set i (left.elements i + right.elements i)) left

/-- Operator `-=` of two vectors: the loop over `i = 0 .. N-1`. -/
def opSubAssign (left right : Vector T N) : Vector T N :=
  (List.finRange N).foldl
    (fun left i => left.set i (left.elements i - right.elements i)) left

/-- Binary operator `+`. -/
def opAdd (left right : Vector T N) : Vector T N :=
  let temp := left
  opAddAssign temp right

/-- Binary operator `-`. -/
def opSub (left right : Vector T N) : Vector T N :=
  let temp := left
  opSubAssign temp right

/-- The loop of `operator==` from index list `is` on: the first differing
element returns false. -/
def opEqLoop (left right : Vector T N) : List (Fin N) → Bool
  | [] => true
  | i :: is =>
    if Scalar.ne (left.elements i) (right.elements i) then false
    else opEqLoop left right is

/-- Operator `==`. -/
def opEq (left right : Vector T N) : Bool := opEqLoop left right (List.finRange N)

/-- Operator `!=`. -/
def opNe (left right : Vector T N) : Bool := !(opEq left right)

end Vector

/-- The elements of a `Vector<T,2>` as the array `elementsPtr()` points to. -/
def Vector2.toVector (v : Vector2 T) : Vector T 2 := ⟨v.get⟩

/-- The elements of a `Vector<T,3>` as the array `elementsPtr()` points to. -/
def Vector3.toVector (v : Vector3 T) : Vector T 3 := ⟨v.get⟩

/-- The elements of a `Vector<T,4>` as the array `elementsPtr()` points to. -/
def Vector4.toVector (v : Vector4 T) : Vector T 4 := ⟨v.get⟩

/-! ## Quaternion -/

/-- The struct `Quaternion`: a union of `float x, y, z, w`, of `vec3 v` and of
`vec4 vector` over the same 16 bytes, kept here as the `vec4`. -/
structure Quaternion where
  vector : Vector4 F32
deriving DecidableEq

namespace Quaternion

/-- Member `x` of the union. -/
def x (q : Quaternion) : F32 := q.vector.x

/-- Member `y` of the union. -/
def y (q : Quaternion) : F32 := q.vector.y

/-- Member `z` of the union. -/
def z (q : Quaternion) : F32 := q.vector.z

/-- Member `w` of the union. -/
def w (q : Quaternion) : F32 := q.vector.w

/-- Member `v` of the union: the `vec3` over `x, y, z`. -/
def v (q : Quaternion) : Vector3 F32 := ⟨q.vector.x, q.vector.y, q.vector.z⟩

/-- Constructor `Quaternion(float x, float y, float z, float w)`. -/
def ofXYZW (x y z w : F32) : Quaternion := ⟨⟨x, y, z, w⟩⟩

/-- Modelled from the spec: the member `wAlias` that the constructor
`Quaternion(vec3 v, float w)` initialises is not declared in `Quaternion.hpp`.
The spec has this constructor take the imaginary part and the scalar real part
of the storage `[x, y, z, w]`, so `wAlias` is the float that follows `v`: the
storage of `w`. This is the quaternion with `v` and `wAlias` initialised. -/
def ofVW (v : Vector3 F32) (w : F32) : Quaternion := ⟨Vector4.ofXyzW v w⟩

/-- Operator `==`. -/
def opEq (lhs rhs : Quaternion) : Bool :=
  Scalar.eq lhs.x rhs.x && Scalar.eq lhs.y rhs.y && Scalar.eq lhs.z rhs.z
    && Scalar.eq lhs.w rhs.w

/-- Operator `!=`. -/
def opNe (lhs rhs : Quaternion) : Bool := !(opEq lhs rhs)

/-- Operator `+=`. -/
def opAddAssign (left right : Quaternion) : Quaternion :=
  { left with vector := Vector4.opAddAssign left.vector right.vector }

/-- Operator `-=`. -/
def opSubAssign (left right : Quaternion) : Quaternion :=
  { left with vector := Vector4.opSubAssign left.vector right.vector }

/-- Binary operator `+`. -/
def opAdd (left right : Quaternion) : Quaternion :=
  let tmp := left
  opAddAssign tmp right

/-- Binary operator `-`. -/
def opSub (left right : Quaternion) : Quaternion :=
  let tmp := left
  opSubAssign tmp right

end Quaternion

/-! ## Comparisons `<`, `<=` and decimal literals -/

/-- Element types that also have the comparisons `<=` and `<`. -/
class OrdScalar (T : Type) extends Scalar T where
  /-- The comparison `a <= b`. -/
  le : T → T → Bool
  /-- The comparison `a < b`. -/
  lt : T → T → Bool

/-- The comparison `a >= b`. -/
def OrdScalar.ge {T : Type} [OrdScalar T] (a b : T) : Bool := OrdScalar.le b a

/-- The `int32_t` comparisons. -/
instance : OrdScalar Int32 where
  le a b := decide (a.toInt ≤ b.toInt)
  lt a b := decide (a.toInt < b.toInt)

namespace F32

/-- Value of a non-NaN float in units of `2^-149`, the infinities ranked as
`±2^128` (that is `±2^277` units), beyond every finite float. -/
def ext (a : F32) : Int :=
  if a.isInf then (if a.sign then -(2 ^ 277 : Nat) else (2 ^ 277 : Nat)) else a.sval

/-- Comparison `a <= b`: false when either side is NaN. -/
def le (a b : F32) : Bool := !a.isNaN && !b.isNaN && decide (a.ext ≤ b.ext)

/-- Comparison `a < b`: false when either side is NaN. -/
def lt (a b : F32) : Bool := !a.isNaN && !b.isNaN && decide (a.ext < b.ext)

/-- The float nearest to `(-1)^s * n / d`: the quotient is computed with 512
extra bits and a sticky bit for the remainder, then rounded. -/
def ofRatio (s : Bool) (n d : Nat) : F32 :=
  let m := n * 2 ^ 512
  let q := m / d
  let sticky := if m % d = 0 then 0 else 1
  round s (2 * q + sticky) (-513)

/-- The float literal with decimal digits `m` and `k` digits after the point,
such as `1.0001f = ofDecimal 10001 4`. -/
def ofDecimal (m : Int) (k : Nat) : F32 := ofRatio (decide (m < 0)) m.natAbs (10 ^ k)

/-- The `float` comparisons. -/
instance : OrdScalar F32 where
  le := le
  lt := lt

end F32

/-! ## `squaredLength`, `normalize` and the generic vector loops they use -/

namespace Vector2

variable [Scalar T]

/-- Function `squaredLength`. -/
def squaredLength (vector : Vector2 T) : T := dot vector vector

/-- Function `normalize`; `none` when the debug assertion `lengthTmp != 0`
fails. -/
def normalize (vector : Vector2 T) : Option (Vector2 T) :=
  let lengthTmp := length vector
  if Scalar.ne lengthTmp Scalar.zero then some (opDiv vector lengthTmp) else none

end Vector2

namespace Vector3

variable [Scalar T]

/-- Function `squaredLength`. -/
def squaredLength (vector : Vector3 T) : T := dot vector vector

/-- Function `normalize`; `none` when the debug assertion `lengthTmp != 0`
fails. -/
def normalize (vector : Vector3 T) : Option (Vector3 T) :=
  let lengthTmp := length vector
  if Scalar.ne lengthTmp Scalar.zero then some (opDiv vector lengthTmp) else none

end Vector3

namespace Vector4

variable [Scalar T]

/-- Function `squaredLength`. -/
def squaredLength (vector : Vector4 T) : T := dot vector vector

/-- Function `normalize`; `none` when the debug assertion `lengthTmp != 0`
fails. -/
def normalize (vector : Vector4 T) : Option (Vector4 T) :=
  let lengthTmp := length vector
  if Scalar.ne lengthTmp Scalar.zero then some (opDiv vector lengthTmp) else none

end Vector4

namespace Vector

variable {N : Nat} [Scalar T]

/-- Function `length`. -/
def length (vector : Vector T N) : T := Scalar.sqrt (dot vector vector)

/-- Function `squaredLength`. -/
def squaredLength (vector : Vector T N) : T := dot vector vector

/-- Operator `/=` by a scalar: the loop over `i = 0 .. N-1`. -/
def opDivAssign (left : Vector T N) (right : T) : Vector T N :=
  (List.finRange N).foldl (fun left i => left.set i (left.elements i / right)) left

/-- Operator `/` by a scalar. -/
def opDiv (left : Vector T N) (right : T) : Vector T N :=
  let temp := left
  opDivAssign temp right

/-- Function `normalize`; `none` when the debug assertion `lengthTmp != 0`
fails. -/
def normalize (vector : Vector T N) : Option (Vector T N) :=
  let lengthTmp := length vector
  if Scalar.ne lengthTmp Scalar.zero then some (opDiv vector lengthTmp) else none

end Vector

/-! ## `MathSupport.inl`: approxEqual, abs, sgn -/

/-- Function `approxEqual(T lhs, T rhs, EpsT epsilon)` with `EpsT = T`. -/
def approxEqual [OrdScalar T] (lhs rhs epsilon : T) : Bool :=
  OrdScalar.le lhs (rhs + epsilon) && OrdScalar.ge lhs (rhs - epsilon)

/-- The loop of the vector `approxEqual` from index list `is` on: the first
component that fails the scalar test returns false. -/
def Vector.approxEqualLoop {N : Nat} [OrdScalar T] (lhs rhs : Vector T N) (epsilon : T) :
    List (Fin N) → Bool
  | [] => true
  | i :: is =>
    if !(sfz.approxEqual (lhs.elements i) (rhs.elements i) epsilon) then false
    else approxEqualLoop lhs rhs epsilon is

/-- Function `approxEqual(Vector<T,N>, Vector<T,N>, T epsilon)`. -/
def Vector.approxEqual {N : Nat} [OrdScalar T] (lhs rhs : Vector T N) (epsilon : T) : Bool :=
  Vector.approxEqualLoop lhs rhs epsilon (List.finRange N)

/-- The vector `approxEqual` at `N = 2`, reading `lhs[i]` through `operator[]`. -/
def Vector2.approxEqual [OrdScalar T] (lhs rhs : Vector2 T) (epsilon : T) : Bool :=
  Vector.approxEqual lhs.toVector rhs.toVector epsilon

/-- The vector `approxEqual` at `N = 3`, reading `lhs[i]` through `operator[]`. -/
def Vector3.approxEqual [OrdScalar T] (lhs rhs : Vector3 T) (epsilon : T) : Bool :=
  Vector.approxEqual lhs.toVector rhs.toVector epsilon

/-- The vector `approxEqual` at `N = 4`, reading `lhs[i]` through `operator[]`. -/
def Vector4.approxEqual [OrdScalar T] (lhs rhs : Vector4 T) (epsilon : T) : Bool :=
  Vector.approxEqual lhs.toVector rhs.toVector epsilon

/-- The library function `fabsf`: the sign bit is cleared, also on a NaN. -/
def fabsf (val : F32) : F32 := F32.ofBits (val.bits % 0x80000000)

/-- The library function `std::abs(float)`: the same as `fabsf`. -/
def std_abs_float (val : F32) : F32 := fabsf val

/-- The library function `std::abs(int)`; on `INT32_MIN`, where C++ leaves it
undefined, the two's complement negation returns `INT32_MIN`. -/
def std_abs (val : Int32) : Int32 := Int32.wrap (if val.toInt < 0 then -val.toInt else val.toInt)

/-- Function `abs(float)`. -/
def abs_float (SFZ_CUDA_DEVICE_CODE : Bool) (val : F32) : F32 :=
  if SFZ_CUDA_DEVICE_CODE then fabsf val else std_abs_float val

/-- Function `abs(int32_t)`, run with at most `fuel` nested calls (`none`: more
are needed). Under `SFZ_CUDA_DEVICE_CODE` the body is `return abs(val);`: inside
`namespace sfz` the unqualified name `abs` finds the overloads `sfz::abs`, which
hide the global `abs`, and for an `int32_t` argument selects this very function. -/
def abs_int32 (SFZ_CUDA_DEVICE_CODE : Bool) : Nat → Int32 → Option Int32
  | 0, _ => none
  | fuel + 1, val =>
    if SFZ_CUDA_DEVICE_CODE then abs_int32 SFZ_CUDA_DEVICE_CODE fuel val
    else some (std_abs val)

/-- Function `abs(vec2)`. -/
def abs_vec2 (SFZ_CUDA_DEVICE_CODE : Bool) (val : Vector2 F32) : Vector2 F32 :=
  let val := { val with x := abs_float SFZ_CUDA_DEVICE_CODE val.x }
  let val := { val with y := abs_float SFZ_CUDA_DEVICE_CODE val.y }
  val

/-- Function `abs(vec3)`. -/
def abs_vec3 (SFZ_CUDA_DEVICE_CODE : Bool) (val : Vector3 F32) : Vector3 F32 :=
  let val := { val with x := abs_float SFZ_CUDA_DEVICE_CODE val.x }
  let val := { val with y := abs_float SFZ_CUDA_DEVICE_CODE val.y }
  let val := { val with z := abs_float SFZ_CUDA_DEVICE_CODE val.z }
  val

/-- The type `__m128`: a 128-bit register as four 32-bit lanes, lane 0 at the
lowest address. -/
structure __m128 where
  lane0 : Nat
  lane1 : Nat
  lane2 : Nat
  lane3 : Nat
deriving DecidableEq

/-- The type `__m128i`: the same register, read as four 32-bit integers. -/
abbrev __m128i := __m128

/-- Intrinsic `_mm_set1_ps`: the float in all four lanes. -/
def _mm_set1_ps (a : F32) : __m128 := ⟨a.bits, a.bits, a.bits, a.bits⟩

/-- Intrinsic `_mm_load_ps` on `val.elementsPtr()`. -/
def _mm_load_ps (val : Vector4 F32) : __m128 := ⟨val.x.bits, val.y.bits, val.z.bits, val.w.bits⟩

/-- Intrinsic `_mm_store_ps` to `val.elementsPtr()`. -/
def _mm_store_ps (a : __m128) : Vector4 F32 :=
  ⟨F32.ofBits a.lane0, F32.ofBits a.lane1, F32.ofBits a.lane2, F32.ofBits a.lane3⟩

/-- Intrinsic `_mm_and_ps`: bitwise AND. -/
def _mm_and_ps (a b : __m128) : __m128 :=
  ⟨a.lane0 &&& b.lane0, a.lane1 &&& b.lane1, a.lane2 &&& b.lane2, a.lane3 &&& b.lane3⟩

/-- Intrinsic `_mm_andnot_ps`: bitwise `(~a) & b`. -/
def _mm_andnot_ps (a b : __m128) : __m128 :=
  ⟨(a.lane0 ^^^ 0xFFFFFFFF) &&& b.lane0, (a.lane1 ^^^ 0xFFFFFFFF) &&& b.lane1,
   (a.lane2 ^^^ 0xFFFFFFFF) &&& b.lane2, (a.lane3 ^^^ 0xFFFFFFFF) &&& b.lane3⟩

/-- Intrinsic `_mm_or_ps`: bitwise OR. -/
def _mm_or_ps (a b : __m128) : __m128 :=
  ⟨a.lane0 ||| b.lane0, a.lane1 ||| b.lane1, a.lane2 ||| b.lane2, a.lane3 ||| b.lane3⟩

/-- The 32 bits of an `int32_t`, in two's complement. -/
def Int32.toBits (a : Int32) : Nat := (a.toInt % 4294967296).toNat

/-- The `int32_t` with the given 32 bits. -/
def Int32.ofBits (n : Nat) : Int32 := Int32.wrap n

/-- Intrinsic `_mm_load_si128` on `val.elementsPtr()`. -/
def _mm_load_si128 (val : Vector4 Int32) : __m128i :=
  ⟨val.x.toBits, val.y.toBits, val.z.toBits, val.w.toBits⟩

/-- Intrinsic `_mm_store_si128` to `val.elementsPtr()`. -/
def _mm_store_si128 (a : __m128i) : Vector4 Int32 :=
  ⟨Int32.ofBits a.lane0, Int32.ofBits a.lane1, Int32.ofBits a.lane2, Int32.ofBits a.lane3⟩

/-- One lane of `pabsd`: a lane with bit 31 set is replaced by its two's
complement negation, so `0x80000000` stays. -/
def pabsdLane (l : Nat) : Nat := if 0x80000000 ≤ l then (0x100000000 - l) % 0x100000000 else l

/-- Intrinsic `_mm_abs_epi32`: the absolute value of each signed 32-bit lane. -/
def _mm_abs_epi32 (a : __m128i) : __m128i :=
  ⟨pabsdLane a.lane0, pabsdLane a.lane1, pabsdLane a.lane2, pabsdLane a.lane3⟩

/-- Function `abs(vec4)`. -/
def abs_vec4 (SFZ_CUDA_DEVICE_CODE : Bool) (val : Vector4 F32) : Vector4 F32 :=
  if SFZ_CUDA_DEVICE_CODE then
    let val := { val with x := abs_float SFZ_CUDA_DEVICE_CODE val.x }
    let val := { val with y := abs_float SFZ_CUDA_DEVICE_CODE val.y }
    let val := { val with z := abs_float SFZ_CUDA_DEVICE_CODE val.z }
    let val := { val with w := abs_float SFZ_CUDA_DEVICE_CODE val.w }
    val
  else
    let SIGN_BIT_MASK := _mm_set1_ps (F32.neg (F32.zero false))
    let tmpReg := _mm_load_ps val
    let tmpReg := _mm_andnot_ps SIGN_BIT_MASK tmpReg
    _mm_store_ps tmpReg

/-- Function `abs(vec2i)`, with the fuel of `abs_int32`. -/
def abs_vec2i (SFZ_CUDA_DEVICE_CODE : Bool) (fuel : Nat) (val : Vector2 Int32) :
    Option (Vector2 Int32) := do
  let val := { val with x := ← abs_int32 SFZ_CUDA_DEVICE_CODE fuel val.x }
  let val := { val with y := ← abs_int32 SFZ_CUDA_DEVICE_CODE fuel val.y }
  return val

/-- Function `abs(vec3i)`, with the fuel of `abs_int32`. -/
def abs_vec3i (SFZ_CUDA_DEVICE_CODE : Bool) (fuel : Nat) (val : Vector3 Int32) :
    Option (Vector3 Int32) := do
  let val := { val with x := ← abs_int32 SFZ_CUDA_DEVICE_CODE fuel val.x }
  let val := { val with y := ← abs_int32 SFZ_CUDA_DEVICE_CODE fuel val.y }
  let val := { val with z := ← abs_int32 SFZ_CUDA_DEVICE_CODE fuel val.z }
  return val

/-- Function `abs(vec4i)`, with the fuel of `abs_int32`. -/
def abs_vec4i (SFZ_CUDA_DEVICE_CODE : Bool) (fuel : Nat) (val : Vector4 Int32) :
    Option (Vector4 Int32) :=
  if SFZ_CUDA_DEVICE_CODE then do
    let val := { val with x := ← abs_int32 SFZ_CUDA_DEVICE_CODE fuel val.x }
    let val := { val with y := ← abs_int32 SFZ_CUDA_DEVICE_CODE fuel val.y }
    let val := { val with z := ← abs_int32 SFZ_CUDA_DEVICE_CODE fuel val.z }
    let val := { val with w := ← abs_int32 SFZ_CUDA_DEVICE_CODE fuel val.w }
    return val
  else
    let tmpReg := _mm_load_si128 val
    let tmpReg := _mm_abs_epi32 tmpReg
    some (_mm_store_si128 tmpReg)

/-- Function `sgn(float)`: the union `FloatBitsUnion` reads a float as its bits. -/
def sgn_float (val : F32) : F32 :=
  let SIGN_BIT_MASK : Nat := (F32.neg (F32.zero false)).bits
  let FLOAT_ONE : Nat := (F32.ofInt 1).bits
  let tmp := val.bits
  let tmp := tmp &&& SIGN_BIT_MASK
  let tmp := tmp ||| FLOAT_ONE
  F32.ofBits tmp

/-- Function `sgn(int32_t)`: `(0 < val) - (val < 0)`, each comparison 0 or 1. -/
def sgn_int32 (val : Int32) : Int32 :=
  Int32.wrap ((if 0 < val.toInt then 1 else 0) - (if val.toInt < 0 then 1 else 0))

/-- Function `sgn(vec2)`. -/
def sgn_vec2 (val : Vector2 F32) : Vector2 F32 :=
  let val := { val with x := sgn_float val.x }
  let val := { val with y := sgn_float val.y }
  val

/-- Function `sgn(vec3)`. -/
def sgn_vec3 (val : Vector3 F32) : Vector3 F32 :=
  let val := { val with x := sgn_float val.x }
  let val := { val with y := sgn_float val.y }
  let val := { val with z := sgn_float val.z }
  val

/-- Function `sgn(vec4)`. -/
def sgn_vec4 (SFZ_CUDA_DEVICE_CODE : Bool) (val : Vector4 F32) : Vector4 F32 :=
  if SFZ_CUDA_DEVICE_CODE then
    let val := { val with x := sgn_float val.x }
    let val := { val with y := sgn_float val.y }
    let val := { val with z := sgn_float val.z }
    let val := { val with w := sgn_float val.w }
    val
  else
    let SIGN_BIT_MASK := _mm_set1_ps (F32.neg (F32.zero false))
    let FLOAT_ONE := _mm_set1_ps (F32.ofInt 1)
    let tmpReg := _mm_load_ps val
    let tmpReg := _mm_or_ps FLOAT_ONE (_mm_and_ps SIGN_BIT_MASK tmpReg)
    _mm_store_ps tmpReg

/-- Function `sgn(vec2i)`. -/
def sgn_vec2i (val : Vector2 Int32) : Vector2 Int32 :=
  let val := { val with x := sgn_int32 val.x }
  let val := { val with y := sgn_int32 val.y }
  val

/-- Function `sgn(vec3i)`. -/
def sgn_vec3i (val : Vector3 Int32) : Vector3 Int32 :=
  let val := { val with x := sgn_int32 val.x }
  let val := { val with y := sgn_int32 val.y }
  let val := { val with z := sgn_int32 val.z }
  val

/-- Function `sgn(vec4i)`. -/
def sgn_vec4i (val : Vector4 Int32) : Vector4 Int32 :=
  let val := { val with x := sgn_int32 val.x }
  let val := { val with y := sgn_int32 val.y }
  let val := { val with z := sgn_int32 val.z }
  let val := { val with w := sgn_int32 val.w }
  val

/-! ## Further constructors, operators and `elementSum` of `Vector.inl` -/

namespace Vector2

variable [Scalar T]

/-- Function `elementSum(Vector<T,2>)`. -/
def elementSum (vector : Vector2 T) : T := vector.x + vector.y

/-- Operator `/=` of two vectors. -/
def opDivAssignVec (left right : Vector2 T) : Vector2 T :=
  let left := { left with x := left.x / right.x }
  let left := { left with y := left.y / right.y }
  left

/-- Operator `/` of a scalar by a vector. -/
def opDivScalarVec (left : T) (right : Vector2 T) : Vector2 T :=
  let temp := ofValue left
  opDivAssignVec temp right

end Vector2

namespace Vector3

/-- Constructor `Vector(Vector<T,2> xy, T z)`. -/
def ofXyZ (xy : Vector2 T) (z : T) : Vector3 T := ⟨xy.x, xy.y, z⟩

/-- Constructor `Vector(T x, Vector<T,2> yz)`. -/
def ofXYz (x : T) (yz : Vector2 T) : Vector3 T := ⟨x, yz.x, yz.y⟩

variable [Scalar T]

/-- Function `elementSum(Vector<T,3>)`. -/
def elementSum (vector : Vector3 T) : T := vector.x + vector.y + vector.z

/-- Operator `/=` of two vectors. -/
def opDivAssignVec (left right : Vector3 T) : Vector3 T :=
  let left := { left with x := left.x / right.x }
  let left := { left with y := left.y / right.y }
  let left := { left with z := left.z / right.z }
  left

/-- Operator `/` of a scalar by a vector. -/
def opDivScalarVec (left : T) (right : Vector3 T) : Vector3 T :=
  let temp := ofValue left
  opDivAssignVec temp right

end Vector3

namespace Vector4

/-- Constructor `Vector(T x, Vector<T,3> yzw)`. -/
def ofXYzw (x : T) (yzw : Vector3 T) : Vector4 T := ⟨x, yzw.x, yzw.y, yzw.z⟩

/-- Constructor `Vector(Vector<T,2> xy, Vector<T,2> zw)`. -/
def ofXyZw (xy zw : Vector2 T) : Vector4 T := ⟨xy.x, xy.y, zw.x, zw.y⟩

/-- Constructor `Vector(Vector<T,2> xy, T z, T w)`. -/
def ofXyZW (xy : Vector2 T) (z w : T) : Vector4 T := ⟨xy.x, xy.y, z, w⟩

/-- Constructor `Vector(T x, Vector<T,2> yz, T w)`. -/
def ofXYzW (x : T) (yz : Vector2 T) (w : T) : Vector4 T := ⟨x, yz.x, yz.y, w⟩

/-- Constructor `Vector(T x, T y, Vector<T,2> zw)`. -/
def ofXYZw (x y : T) (zw : Vector2 T) : Vector4 T := ⟨x, y, zw.x, zw.y⟩

variable [Scalar T]

/-- Function `elementSum(Vector<T,4>)`. -/
def elementSum (vector : Vector4 T) : T := vector.x + vector.y + vector.z + vector.w

/-- Operator `/=` of two vectors. -/
def opDivAssignVec (left right : Vector4 T) : Vector4 T :=
  let left := { left with x := left.x / right.x }
  let left := { left with y := left.y / right.y }
  let left := { left with z := left.z / right.z }
  let left := { left with w := left.w / right.w }
  left

/-- Operator `/` of a scalar by a vector. -/
def opDivScalarVec (left : T) (right : Vector4 T) : Vector4 T :=
  let temp := ofValue left
  opDivAssignVec temp right

end Vector4

/-- Function `elementSum(Vector<T,N>)`: the loop over `i = 0 .. N-1`. -/
def Vector.elementSum {N : Nat} [Scalar T] (vector : Vector T N) : T :=
  (List.finRange N).foldl (fun result i => result + vector.elements i) Scalar.zero

/-! ## Quaternion functions declared in `Quaternion.hpp` -/

namespace Quaternion

/-- Modelled from the spec: `Quaternion::identity()` is declared in
`Quaternion.hpp` and defined nowhere in the sources; the spec and the comment at
its declaration have it return `(0,0,0,1)`. -/
def identity : Quaternion := ofXYZW (F32.ofInt 0) (F32.ofInt 0) (F32.ofInt 0) (F32.ofInt 1)

/-- Modelled from the spec: `conjugate` is declared in `Quaternion.hpp` and
defined nowhere in the sources; the spec has `conjugate(q) = (-x,-y,-z, w)`, the
comment at its declaration `[-v, w]`. -/
def conjugate (q : Quaternion) : Quaternion :=
  ofXYZW (F32.neg q.x) (F32.neg q.y) (F32.neg q.z) q.w

/-- Modelled from the spec: `operator*` of two quaternions is declared in
`Quaternion.hpp` and defined nowhere in the sources; the spec has it the
Hamilton product. This is the product of `i*x + j*y + k*z + w` expanded with the
rules of the comment in `Quaternion.hpp` (`i² = j² = k² = -1`, `j*k = i`,
`k*i = j`, `i*j = k`), each component summed left to right. -/
def opMul (left right : Quaternion) : Quaternion :=
  ofXYZW
    (left.w * right.x + left.x * right.w + left.y * right.z - left.z * right.y)
    (left.w * right.y - left.x * right.z + left.y * right.w + left.z * right.x)
    (left.w * right.z + left.x * right.y - left.y * right.x + left.z * right.w)
    (left.w * right.w - left.x * right.x - left.y * right.y - left.z * right.z)

end Quaternion

/-! ## `MathSupport.inl`: clamp -/

/-- The library function `std::min(a, b)`: `(b < a) ? b : a`. -/
def std_min [OrdScalar T] (a b : T) : T := if OrdScalar.lt b a then b else a

/-- The library function `std::max(a, b)`: `(a < b) ? b : a`. -/
def std_max [OrdScalar T] (a b : T) : T := if OrdScalar.lt a b then b else a

/-- Function `clamp`. -/
def clamp [OrdScalar T] (value minValue maxValue : T) : T :=
  std_max minValue (std_min value maxValue)

/-- The comparisons `<` and `<=` of `T` are those of a total order. -/
structure TotalOrder (T : Type) [OrdScalar T] : Prop where
  lt_irrefl : ∀ a : T, OrdScalar.lt a a = false
  lt_trans : ∀ a b c : T, OrdScalar.lt a b = true → OrdScalar.lt b c = true →
    OrdScalar.lt a c = true
  lt_total : ∀ a b : T, OrdScalar.lt a b = true ∨ a = b ∨ OrdScalar.lt b a = true
  le_iff : ∀ a b : T, OrdScalar.le a b = true ↔ OrdScalar.lt b a = false

/-! ## `StandardLogger.cpp` -/

/-- A `const char*` in `StandardLogger::log`: `nullptr`, a pointer `file + offset`
into the string `file`, or the value of `nullptr + 1`, which C++ leaves undefined
and which on the usual targets is the address 1: not null and not in `file`. -/
inductive CharPtr where
  | null
  | intoFile (offset : Nat)
  | nullPlusOne
deriving DecidableEq

/-- The scan of `strrchr`: `last` is the latest position of `c` before `i`. -/
def strrchrAux (c : Char) : List Char → Nat → Option Nat → Option Nat
  | [], _, last => last
  | d :: ds, i, last => strrchrAux c ds (i + 1) (if d = c then some i else last)

/-- The library function `std::strrchr(file, c)` for `c` other than the
terminator: a pointer to the last `c` in `file`, `nullptr` when there is none. -/
def strrchr (file : List Char) (c : Char) : CharPtr :=
  match strrchrAux c file 0 none with
  | some i => CharPtr.intoFile i
  | none => CharPtr.null

/-- Pointer arithmetic `p + 1`. -/
def CharPtr.succ : CharPtr → CharPtr
  | CharPtr.null => CharPtr.nullPlusOne
  | CharPtr.intoFile i => CharPtr.intoFile (i + 1)
  | CharPtr.nullPlusOne => CharPtr.nullPlusOne

/-- The local `strippedFile` of `StandardLogger::log` when it is printed. -/
def strippedFile (_WIN32 : Bool) (file : List Char) : CharPtr :=
  let strippedFile := CharPtr.succ (strrchr file (if _WIN32 then '\\' else '/'))
  if strippedFile = CharPtr.null then CharPtr.intoFile 0 else strippedFile

/-- The characters `printf` prints for `%s` with a pointer: the rest of `file`
from a pointer into it; `none` for a pointer that is not into `file` (a read of
memory the program does not own). -/
def readCString (file : List Char) : CharPtr → Option (List Char)
  | CharPtr.intoFile i => if i ≤ file.length then some (file.drop i) else none
  | _ => none

/-- The enum `LogLevel`. -/
inductive LogLevel where
  | INFO_NOISY
  | INFO
  | WARNING
  | ERROR
deriving DecidableEq

/-- The function `toString(LogLevel)`, an index into `LOG_LEVEL_STRINGS`. -/
def LogLevel.toString : LogLevel → String
  | LogLevel.INFO_NOISY => "INFO_NOISY"
  | LogLevel.INFO => "INFO"
  | LogLevel.WARNING => "WARNING"
  | LogLevel.ERROR => "ERROR"

/-- The first `printf` of `StandardLogger::log`, format
`"[%s] -- [%s] -- [%s:%i]: "`: `none` when the file name cannot be read. -/
def logHeader (_WIN32 : Bool) (file : List Char) (line : Int) (level : LogLevel)
    (tag : List Char) : Option (List Char) :=
  match readCString file (strippedFile _WIN32 file) with
  | some name =>
    some ("[".toList ++ level.toString.toList ++ "] -- [".toList ++ tag ++ "] -- [".toList
      ++ name ++ ":".toList ++ (Int.repr line).toList ++ "]: ".toList)
  | none => none

/-! ## Values of floats as rationals -/

namespace F32

/-- The value of a finite float, as a rational number. -/
def toRat (a : F32) : ℚ := (a.sval : ℚ) / 2 ^ 149

/-- The magnitude of a finite float, as a rational number. -/
def mag (a : F32) : ℚ := (a.fix : ℚ) / 2 ^ 149

/-- The float is finite and within `1e-5` of 1.0. -/
def nearOne (a : F32) : Prop := a.isFinite = true ∧ |a.toRat - 1| ≤ 1 / 100000

/-- The square `a * a` is computed without rounding error. -/
def exactSquare (a : F32) : Prop := (mul a a).mag = a.mag * a.mag

end F32

/-- The factor `1 / (1 - 2^-24)`: a bound on the ratio, either way, between a
value in the normal range and the float it is rounded to. -/
def rho : ℚ := 16777216 / 16777215

/-- Two non-negative numbers are within a factor `rho ^ k` of each other, as are
an exact value and what `k` roundings in a row make of it. -/
def Within (k : Nat) (a X : ℚ) : Prop := 0 ≤ a ∧ 0 ≤ X ∧ X ≤ a * rho ^ k ∧ a ≤ X * rho ^ k

/-- As `Within`, with an absolute slack `A` besides the factor `rho ^ k`: what
roundings make of an exact value when some results fall below the normal range,
where a rounding moves a value by up to half a unit of `2^-149`. -/
def Near (k : Nat) (A a X : ℚ) : Prop :=
  0 ≤ a ∧ 0 ≤ X ∧ a ≤ (X + A) * rho ^ k ∧ X ≤ a * rho ^ k + A

/-! ## Lemmas on `float` arithmetic -/

namespace F32

theorem ilog2Aux_eq (L : Nat) : ∀ f n : Nat, n ≤ f → 2 ^ L ≤ n → n < 2 ^ (L + 1) →
    ilog2Aux f n = L := by
  induction L with
  | zero =>
    intro f n hf h1 h2
    have hn : n = 1 := by simp at h1 h2; omega
    subst hn
    cases f with
    | zero => omega
    | succ f => simp [ilog2Aux]
  | succ L ih =>
    intro f n hf h1 h2
    have h2n : 2 ≤ n := by
      have : 2 ^ 1 ≤ 2 ^ (L + 1) := Nat.pow_le_pow_right (by decide) (by omega)
      simp at this; omega
    cases f with
    | zero => omega
    | succ f =>
      have hlt : ¬ n < 2 := by omega
      simp only [ilog2Aux, hlt, if_false]
      rw [ih f (n / 2) (by omega)]
      · rw [Nat.le_div_iff_mul_le (by decide)]
        rw [pow_succ] at h1; exact h1
      · rw [Nat.div_lt_iff_lt_mul (by decide)]
        rw [pow_succ] at h2; exact h2

/-- The highest set bit of `n` is at position `L` when `2^L ≤ n < 2^(L+1)`. -/
theorem ilog2_eq {n L : Nat} (h1 : 2 ^ L ≤ n) (h2 : n < 2 ^ (L + 1)) : ilog2 n = L :=
  ilog2Aux_eq L n n (le_refl n) h1 h2

theorem ilog2_eq_log (n : Nat) (hn : n ≠ 0) : ilog2 n = Nat.log 2 n :=
  ilog2_eq (Nat.pow_log_le_self 2 hn) (Nat.lt_pow_succ_log_self (by decide) n)

theorem ilog2_mul_pow (x k : Nat) (hx : x ≠ 0) : ilog2 (x * 2 ^ k) = ilog2 x + k := by
  have h1 : 2 ^ ilog2 x ≤ x := by
    rw [ilog2_eq_log x hx]; exact Nat.pow_log_le_self 2 hx
  have h2 : x < 2 ^ (ilog2 x + 1) := by
    rw [ilog2_eq_log x hx]; exact Nat.lt_pow_succ_log_self (by decide) x
  apply ilog2_eq
  · rw [pow_add]; exact Nat.mul_le_mul_right _ h1
  · rw [show ilog2 x + k + 1 = (ilog2 x + 1) + k by omega, pow_add]
    exact Nat.mul_lt_mul_of_pos_right h2 (Nat.two_pow_pos _)

theorem ilog2_lt {x n : Nat} (hx : x ≠ 0) (h : x < 2 ^ n) : ilog2 x < n := by
  rw [ilog2_eq_log x hx]
  exact Nat.log_lt_of_lt_pow hx h

theorem roundNE_mul_pow (x k : Nat) : roundNE (x * 2 ^ k) k = x := by
  have hp : 0 < 2 ^ k := Nat.two_pow_pos _
  simp only [roundNE, Nat.mul_mod_left, Nat.mul_div_cancel _ hp]
  simp

/-- A value `x * 2^q` whose significand `x` fits the float format at exponent
`q` is rounded to itself: the float with bit pattern `(q + 149) * 2^23 + x`. -/
theorem round_exact (s : Bool) (x k : Nat) (e : Int) (hx0 : x ≠ 0) (hx : x < 0x1000000)
    (hq : -149 ≤ e + k) (hnorm : 0x800000 ≤ x ∨ e + k = -149)
    (hfin : (e + k + 149).toNat * 0x800000 + x < 0x7F800000) :
    round s (x * 2 ^ k) e = ofBits (signBit s + ((e + k + 149).toNat * 0x800000 + x)) := by
  have hp : 0 < 2 ^ k := Nat.two_pow_pos _
  have hm : x * 2 ^ k ≠ 0 := Nat.mul_ne_zero hx0 (by omega)
  have hlog := ilog2_mul_pow x k hx0
  have hq' : max ((ilog2 (x * 2 ^ k) : Int) + e - 23) (-149) = e + k := by
    rw [hlog]
    rcases hnorm with h | h
    · have : ilog2 x = 23 := ilog2_eq (by simpa using h) (by simpa using hx)
      rw [this]; push_cast; omega
    · have : ilog2 x < 24 := ilog2_lt hx0 (by simpa using hx)
      have h23 : ilog2 x < 23 ∨ ilog2 x = 23 := by omega
      push_cast; omega
  simp only [round, roundEnc, hm, if_false, hq']
  have hm1 : (if e + (k : Int) ≤ e then x * 2 ^ k * 2 ^ (e - (e + k)).toNat
      else roundNE (x * 2 ^ k) (e + k - e).toNat) = x := by
    split
    · next h =>
      have hk : k = 0 := by omega
      subst hk
      simp
    · next h =>
      have : (e + (k : Int) - e).toNat = k := by omega
      rw [this, roundNE_mul_pow]
  rw [hm1]
  have : ¬ (0x7F800000 ≤ (e + k + 149).toNat * 0x800000 + x) := by omega
  simp only [this, if_false]

theorem ext_bits {a b : F32} (h : a.bits = b.bits) : a = b := by
  cases a; cases b; simp_all

theorem ofBits_bits (n : Nat) (h : n < 0x100000000) : (ofBits n).bits = n :=
  Nat.mod_eq_of_lt h

theorem fracField_lt (a : F32) : a.fracField < 0x800000 := Nat.mod_lt _ (by decide)

theorem expField_lt (a : F32) : a.expField < 256 := Nat.mod_lt _ (by decide)

theorem bits_eq (a : F32) :
    a.bits = signBit a.sign + a.expField * 0x800000 + a.fracField := by
  have h := a.isLt
  unfold signBit sign expField fracField
  by_cases hs : 0x80000000 ≤ a.bits
  · simp only [hs, decide_True, if_true]; omega
  · simp only [hs, decide_False]; simp only [Bool.false_eq_true, if_false]; omega

theorem fix_eq_zero_iff (a : F32) : a.fix = 0 ↔ a.isZero = true := by
  unfold fix isZero
  by_cases hE : a.expField = 0
  · simp [hE]
  · have : 0 < 2 ^ (a.expField - 1) := Nat.two_pow_pos _
    simp [hE]

theorem natAbs_sval (a : F32) : a.sval.natAbs = a.fix := by
  unfold sval; split <;> simp

theorem sval_neg_iff (a : F32) : a.sval < 0 ↔ (a.sign = true ∧ a.fix ≠ 0) := by
  unfold sval
  by_cases h : a.sign = true
  · simp [h]; omega
  · simp [h]

theorem sval_eq_zero_iff (a : F32) : a.sval = 0 ↔ a.fix = 0 := by
  unfold sval; split <;> simp

/-- Rounding the value of a finite float, scaled by a power of two that the
exponent takes back, returns that float (with the sign asked for). -/
theorem round_fix (a : F32) (hfin : a.expField ≠ 255) (s : Bool) (j : Nat) :
    round s (a.fix * 2 ^ j) (-149 - j)
      = ofBits (signBit s + a.expField * 0x800000 + a.fracField) := by
  have hM := a.fracField_lt
  have hE := a.expField_lt
  by_cases hE0 : a.expField = 0
  · by_cases hM0 : a.fracField = 0
    · simp [fix, hE0, hM0, round, zero]
    · have h := round_exact s a.fracField j (-149 - j) hM0 (by omega) (by omega)
        (Or.inr (by omega)) (by omega)
      have ht : ((-149 - (j : Int)) + (j : Int) + 149).toNat = 0 := by omega
      rw [ht] at h
      simp only [fix, hE0, if_true]
      rw [h]; congr 1; omega
  · have h := round_exact s (0x800000 + a.fracField) (a.expField - 1 + j) (-149 - j)
      (by omega) (by omega) (by omega) (Or.inl (by omega)) (by omega)
    have ht : ((-149 - (j : Int)) + ((a.expField - 1 + j : Nat) : Int) + 149).toNat
        = a.expField - 1 := by omega
    rw [ht] at h
    simp only [fix, hE0, if_false]
    rw [mul_assoc, ← pow_add, h]; congr 1; omega

theorem round_fix_self (a : F32) (hfin : a.expField ≠ 255) :
    round a.sign a.fix (-149) = a := by
  have h := round_fix a hfin a.sign 0
  simp only [pow_zero, mul_one, Nat.cast_zero, sub_zero] at h
  rw [h]
  apply ext_bits
  rw [ofBits_bits _ (by rw [← bits_eq]; exact a.isLt), ← bits_eq]

theorem expField_ne_of {a : F32} (hN : a.isNaN = false) (hI : a.isInf = false) :
    a.expField ≠ 255 := by
  intro h
  simp [isNaN, isInf, h] at hN hI
  exact hI hN

theorem isNaN_false_of {a : F32} (h : a.expField ≠ 255) : a.isNaN = false := by
  simp [isNaN, h]

theorem isInf_false_of {a : F32} (h : a.expField ≠ 255) : a.isInf = false := by
  simp [isInf, h]

theorem bits_zero (s : Bool) : (zero s).bits = signBit s := by
  cases s <;> rfl

theorem expField_zero (s : Bool) : (zero s).expField = 0 := by
  cases s <;> rfl

theorem fracField_zero (s : Bool) : (zero s).fracField = 0 := by
  cases s <;> rfl

theorem sign_zero (s : Bool) : (zero s).sign = s := by
  cases s <;> rfl

theorem isZero_zero (s : Bool) : (zero s).isZero = true := by
  cases s <;> rfl

theorem isNaN_zero (s : Bool) : (zero s).isNaN = false := by
  cases s <;> rfl

theorem isInf_zero (s : Bool) : (zero s).isInf = false := by
  cases s <;> rfl

theorem isNaN_nan : nan.isNaN = true := by rfl

theorem isNaN_inf (s : Bool) : (inf s).isNaN = false := by
  cases s <;> rfl

theorem isInf_inf (s : Bool) : (inf s).isInf = true := by
  cases s <;> rfl

theorem eq_self (a : F32) (h : a.isNaN = false) : F32.eq a a = true := by
  simp [F32.eq, h]

theorem sameValue_refl (a : F32) : sameValue a a = true := by
  unfold sameValue
  by_cases h : a.isNaN = true
  · simp [h]
  · simp only [Bool.not_eq_true] at h
    simp [eq_self a h]

theorem sameValue_symm {a b : F32} (h : sameValue a b = true) : sameValue b a = true := by
  unfold sameValue F32.eq at *
  simp only [Bool.or_eq_true, Bool.and_eq_true, Bool.not_eq_true', beq_iff_eq] at *
  rcases h with h | ⟨⟨h1, h2⟩, h3⟩
  · exact Or.inl ⟨h.2, h.1⟩
  · refine Or.inr ⟨⟨h2, h1⟩, ?_⟩
    rcases h3 with h3 | h3
    · exact Or.inl h3.symm
    · exact Or.inr ⟨h3.2, h3.1⟩

theorem sameValue_trans {a b c : F32} (h1 : sameValue a b = true) (h2 : sameValue b c = true) :
    sameValue a c = true := by
  unfold sameValue F32.eq at *
  simp only [Bool.or_eq_true, Bool.and_eq_true, Bool.not_eq_true', beq_iff_eq] at *
  rcases h1 with h1 | ⟨⟨ha, hb⟩, h1⟩
  · rcases h2 with h2 | ⟨⟨hb, hc⟩, h2⟩
    · exact Or.inl ⟨h1.1, h2.2⟩
    · rw [h1.2] at hb; exact absurd hb (by decide)
  · rcases h2 with h2 | ⟨⟨_, hc⟩, h2⟩
    · rw [h2.1] at hb; exact absurd hb (by decide)
    · refine Or.inr ⟨⟨ha, hc⟩, ?_⟩
      rcases h1 with h1 | h1
      · rcases h2 with h2 | h2
        · exact Or.inl (h1.trans h2)
        · refine Or.inr ⟨?_, h2.2⟩
          have := h2.1
          simp only [isZero, expField, fracField] at *
          rw [h1]; exact this
      · rcases h2 with h2 | h2
        · refine Or.inr ⟨h1.1, ?_⟩
          have := h1.2
          simp only [isZero, expField, fracField] at *
          rw [← h2]; exact this
        · exact Or.inr ⟨h1.1, h2.2⟩

theorem eq_of_sameValue {a b : F32} (h : sameValue a b = true) (ha : a.isNaN = false) :
    F32.eq a b = true := by
  unfold sameValue at h
  simp [ha] at h
  exact h

theorem isZero_finite {a : F32} (h : a.isZero = true) : a.expField ≠ 255 := by
  simp [isZero] at h
  omega

theorem sval_of_isZero {a : F32} (h : a.isZero = true) : a.sval = 0 :=
  (sval_eq_zero_iff a).2 ((fix_eq_zero_iff a).2 h)

/-- Addition of two finite floats. -/
theorem add_finite (a b : F32) (ha : a.expField ≠ 255) (hb : b.expField ≠ 255) :
    add a b = if a.sval + b.sval = 0 then zero (a.sign && b.sign)
      else round (decide (a.sval + b.sval < 0)) (a.sval + b.sval).natAbs (-149) := by
  simp [add, isNaN, isInf, ha, hb]

theorem round_sval (a : F32) (hfin : a.expField ≠ 255) (h0 : a.sval ≠ 0) :
    round (decide (a.sval < 0)) a.sval.natAbs (-149) = a := by
  have hfix : a.fix ≠ 0 := fun h => h0 ((sval_eq_zero_iff a).2 h)
  have hs : decide (a.sval < 0) = a.sign := by
    by_cases h : a.sign = true
    · simp [h, sval_neg_iff, hfix]
    · simp only [Bool.not_eq_true] at h
      simp [h, sval_neg_iff]
  rw [hs, natAbs_sval, round_fix_self a hfin]

/-- Adding `+0.0f` on the left keeps the value. -/
theorem zero_add (p : F32) : sameValue (add (zero false) p) p = true := by
  by_cases hN : p.isNaN = true
  · simp [add, hN, sameValue, isNaN_nan]
  · simp only [Bool.not_eq_true] at hN
    by_cases hI : p.isInf = true
    · simp [add, hN, hI, isNaN_zero, isInf_zero, sameValue_refl]
    · simp only [Bool.not_eq_true] at hI
      have hfin := expField_ne_of hN hI
      rw [add_finite _ _ (by rw [expField_zero]; decide) hfin]
      have hz : (zero false).sval = 0 := sval_of_isZero (isZero_zero false)
      rw [hz, Int.zero_add]
      by_cases h0 : p.sval = 0
      · have hpz : p.isZero = true := (fix_eq_zero_iff p).1 ((sval_eq_zero_iff p).1 h0)
        simp [h0, sameValue, F32.eq, hN, isNaN_zero, isZero_zero, hpz]
      · simp only [h0, if_false]
        rw [round_sval p hfin h0]
        exact sameValue_refl p

/-- Addition respects "same value" in its left operand. -/
theorem add_congr_left {x y : F32} (q : F32) (h : sameValue x y = true) :
    sameValue (add x q) (add y q) = true := by
  by_cases hxN : x.isNaN = true
  · have hyN : y.isNaN = true := by
      simp [sameValue, F32.eq, hxN] at h; exact h
    simp [add, hxN, hyN, sameValue_refl]
  · simp only [Bool.not_eq_true] at hxN
    have he := eq_of_sameValue h hxN
    simp only [F32.eq, Bool.and_eq_true, Bool.not_eq_true', Bool.or_eq_true, beq_iff_eq] at he
    obtain ⟨⟨-, hyN⟩, he⟩ := he
    rcases he with he | ⟨hxz, hyz⟩
    · rw [ext_bits he]; exact sameValue_refl _
    · have hxf := isZero_finite hxz
      have hyf := isZero_finite hyz
      by_cases hqN : q.isNaN = true
      · simp [add, hqN, sameValue_refl]
      · simp only [Bool.not_eq_true] at hqN
        by_cases hqI : q.isInf = true
        · simp [add, hxN, hyN, hqN, hqI, isInf_false_of hxf, isInf_false_of hyf,
            sameValue_refl]
        · simp only [Bool.not_eq_true] at hqI
          have hqf := expField_ne_of hqN hqI
          rw [add_finite _ _ hxf hqf, add_finite _ _ hyf hqf, sval_of_isZero hxz,
            sval_of_isZero hyz]
          by_cases h0 : (0 : Int) + q.sval = 0
          · simp [h0, sameValue, F32.eq, isNaN_zero, isZero_zero]
          · simp only [h0, if_false]
            exact sameValue_refl _

theorem sign_eq_true_iff (a : F32) : a.sign = true ↔ 0x80000000 ≤ a.bits := by
  simp [sign]

theorem sign_eq_false_iff (a : F32) : a.sign = false ↔ a.bits < 0x80000000 := by
  simp [sign]

theorem bits_neg_of_neg (a : F32) (hs : a.sign = true) :
    (neg a).bits = a.bits - 0x80000000 := by
  have h := a.isLt
  simp only [neg, hs, if_true]
  exact ofBits_bits _ (by omega)

theorem bits_neg_of_pos (a : F32) (hs : a.sign = false) :
    (neg a).bits = a.bits + 0x80000000 := by
  have h := (sign_eq_false_iff a).1 hs
  simp only [neg, hs, Bool.false_eq_true, if_false]
  exact ofBits_bits _ (by omega)

theorem sign_neg (a : F32) : (neg a).sign = !a.sign := by
  have h := a.isLt
  cases hs : a.sign
  · have hb := bits_neg_of_pos a hs
    have h1 := (sign_eq_false_iff a).1 hs
    simp only [Bool.not_false]
    rw [sign_eq_true_iff, hb]; omega
  · have hb := bits_neg_of_neg a hs
    have h1 := (sign_eq_true_iff a).1 hs
    simp only [Bool.not_true]
    rw [sign_eq_false_iff, hb]; omega

theorem expField_neg (a : F32) : (neg a).expField = a.expField := by
  have h := a.isLt
  cases hs : a.sign
  · have hb := bits_neg_of_pos a hs
    have h1 := (sign_eq_false_iff a).1 hs
    simp only [expField, hb]; omega
  · have hb := bits_neg_of_neg a hs
    have h1 := (sign_eq_true_iff a).1 hs
    simp only [expField, hb]; omega

theorem fracField_neg (a : F32) : (neg a).fracField = a.fracField := by
  have h := a.isLt
  cases hs : a.sign
  · have hb := bits_neg_of_pos a hs
    have h1 := (sign_eq_false_iff a).1 hs
    simp only [fracField, hb]; omega
  · have hb := bits_neg_of_neg a hs
    have h1 := (sign_eq_true_iff a).1 hs
    simp only [fracField, hb]; omega

theorem isNaN_neg (a : F32) : (neg a).isNaN = a.isNaN := by
  simp [isNaN, expField_neg, fracField_neg]

theorem isInf_neg (a : F32) : (neg a).isInf = a.isInf := by
  simp [isInf, expField_neg, fracField_neg]

theorem isZero_neg (a : F32) : (neg a).isZero = a.isZero := by
  simp [isZero, expField_neg, fracField_neg]

theorem fix_neg (a : F32) : (neg a).fix = a.fix := by
  simp [fix, expField_neg, fracField_neg]

theorem sval_neg (a : F32) : (neg a).sval = -a.sval := by
  unfold sval
  rw [sign_neg, fix_neg]
  cases a.sign <;> simp

/-- A float is determined by its sign and its two fields. -/
theorem ext_fields {a b : F32} (hs : a.sign = b.sign) (he : a.expField = b.expField)
    (hf : a.fracField = b.fracField) : a = b := by
  apply ext_bits
  rw [bits_eq a, bits_eq b, hs, he, hf]

theorem neg_neg (a : F32) : neg (neg a) = a := by
  apply ext_fields
  · rw [sign_neg, sign_neg, Bool.not_not]
  · rw [expField_neg, expField_neg]
  · rw [fracField_neg, fracField_neg]

theorem sign_ofBits_signBit (s : Bool) (n : Nat) (h : n < 0x80000000) :
    (ofBits (signBit s + n)).sign = s := by
  cases s
  · rw [sign_eq_false_iff, ofBits_bits _ (by simp [signBit]; omega)]
    simp [signBit]; omega
  · rw [sign_eq_true_iff, ofBits_bits _ (by simp [signBit]; omega)]
    simp [signBit]

theorem expField_ofBits_signBit (s : Bool) (n : Nat) (h : n < 0x80000000) :
    (ofBits (signBit s + n)).expField = n / 0x800000 := by
  cases s
  · simp only [expField]
    rw [ofBits_bits _ (by simp [signBit]; omega)]
    simp only [signBit, Bool.false_eq_true, if_false]; omega
  · simp only [expField]
    rw [ofBits_bits _ (by simp [signBit]; omega)]
    simp only [signBit, if_true]; omega

theorem fracField_ofBits_signBit (s : Bool) (n : Nat) (h : n < 0x80000000) :
    (ofBits (signBit s + n)).fracField = n % 0x800000 := by
  cases s
  · simp only [fracField]
    rw [ofBits_bits _ (by simp [signBit]; omega)]
    simp only [signBit, Bool.false_eq_true, if_false]; omega
  · simp only [fracField]
    rw [ofBits_bits _ (by simp [signBit]; omega)]
    simp only [signBit, if_true]; omega

theorem neg_ofBits_signBit (s : Bool) (n : Nat) (h : n < 0x80000000) :
    neg (ofBits (signBit s + n)) = ofBits (signBit (!s) + n) := by
  apply ext_fields
  · rw [sign_neg, sign_ofBits_signBit s n h, sign_ofBits_signBit (!s) n h]
  · rw [expField_neg, expField_ofBits_signBit s n h, expField_ofBits_signBit (!s) n h]
  · rw [fracField_neg, fracField_ofBits_signBit s n h, fracField_ofBits_signBit (!s) n h]

theorem neg_zero (s : Bool) : neg (zero s) = zero (!s) := by
  cases s <;> rfl

theorem neg_inf (s : Bool) : neg (inf s) = inf (!s) := by
  cases s <;> rfl

/-- Rounding commutes with negation. -/
theorem neg_round (s : Bool) (m : Nat) (e : Int) : neg (round s m e) = round (!s) m e := by
  unfold round
  by_cases hm : m = 0
  · simp [hm, neg_zero]
  · simp only [hm, if_false]
    by_cases ho : 0x7F800000 ≤ roundEnc m e
    · simp only [ho, if_true]; exact neg_inf s
    · simp only [ho, if_false]
      exact neg_ofBits_signBit s _ (by omega)

theorem eq_of_isInf {a b : F32} (ha : a.isInf = true) (hb : b.isInf = true)
    (hs : a.sign = b.sign) : a = b := by
  simp only [isInf, Bool.and_eq_true, beq_iff_eq] at ha hb
  exact ext_fields hs (ha.1.trans hb.1.symm) (ha.2.trans hb.2.symm)

theorem isNaN_false_of_isInf {a : F32} (ha : a.isInf = true) : a.isNaN = false := by
  simp only [isInf, Bool.and_eq_true, beq_iff_eq] at ha
  simp [isNaN, ha.2]

/-- Float addition is commutative. -/
theorem add_comm (a b : F32) : add a b = add b a := by
  by_cases hN : (a.isNaN || b.isNaN) = true
  · have hN' : (b.isNaN || a.isNaN) = true := by rw [Bool.or_comm]; exact hN
    simp only [add, hN, hN', if_true]
  · have hN' : ¬ (b.isNaN || a.isNaN) = true := by rw [Bool.or_comm]; exact hN
    simp only [add, hN, hN', if_false]
    cases haI : a.isInf <;> cases hbI : b.isInf
    · simp only [Bool.false_eq_true, if_false]
      rw [Int.add_comm, Bool.and_comm]
    · simp
    · simp
    · by_cases hs : a.sign = b.sign
      · have := eq_of_isInf haI hbI hs
        subst this
        simp
      · have hs' : ¬ b.sign = a.sign := fun h => hs h.symm
        simp [hs, hs']

theorem bne_comm (x y : Bool) : (x != y) = (y != x) := by
  cases x <;> cases y <;> rfl

/-- Float multiplication is commutative. -/
theorem mul_comm (a b : F32) : mul a b = mul b a := by
  unfold mul
  rw [Bool.or_comm a.isNaN, Bool.or_comm a.isInf, Bool.or_comm a.isZero, bne_comm a.sign,
    Nat.mul_comm a.fix]

theorem bne_not_not (x y : Bool) : ((!x) != (!y)) = (x != y) := by
  cases x <;> cases y <;> rfl

/-- Negation distributes over addition, up to the sign of a zero result. -/
theorem neg_add (x y : F32) : sameValue (neg (add x y)) (add (neg x) (neg y)) = true := by
  by_cases hN : (x.isNaN || y.isNaN) = true
  · simp only [add, isNaN_neg, hN, if_true]
    simp [sameValue, isNaN_neg, isNaN_nan]
  · simp only [add, isNaN_neg, isInf_neg, sign_neg, sval_neg, bne_not_not, hN, if_false]
    cases hxI : x.isInf
    · cases hyI : y.isInf
      · simp only [Bool.false_eq_true, if_false]
        by_cases h0 : x.sval + y.sval = 0
        · have h0' : -x.sval + -y.sval = 0 := by omega
          simp only [h0, h0', if_true, neg_zero]
          simp [sameValue, F32.eq, isNaN_zero, isZero_zero]
        · have h0' : ¬ (-x.sval + -y.sval = 0) := by omega
          simp only [h0, h0', if_false, neg_round]
          have h1 : (!decide (x.sval + y.sval < 0)) = decide (-x.sval + -y.sval < 0) := by
            by_cases hlt : x.sval + y.sval < 0
            · have : ¬ (-x.sval + -y.sval < 0) := by omega
              simp [hlt, this]
            · have : -x.sval + -y.sval < 0 := by omega
              simp [hlt, this]
          have h2 : (-x.sval + -y.sval).natAbs = (x.sval + y.sval).natAbs := by omega
          rw [h1, h2]
          exact sameValue_refl _
      · simp only [Bool.false_eq_true, if_false, if_true]
        exact sameValue_refl _
    · simp only [if_true]
      by_cases hc : (y.isInf && (x.sign != y.sign)) = true
      · simp only [hc, if_true]
        simp [sameValue, isNaN_neg, isNaN_nan]
      · simp only [hc, if_false]
        exact sameValue_refl _

theorem fix_negOne : (ofInt (-1)).fix = 2 ^ 149 := by decide!

/-- Multiplication by `-1.0f` flips the sign. -/
theorem mul_negOne (r : F32) (hN : r.isNaN = false) : mul r (ofInt (-1)) = neg r := by
  have h1 : (ofInt (-1)).isNaN = false := by decide!
  have h2 : (ofInt (-1)).isInf = false := by decide!
  have h3 : (ofInt (-1)).isZero = false := by decide!
  have h4 : (ofInt (-1)).sign = true := by decide!
  have hbne : (r.sign != true) = !r.sign := by cases r.sign <;> rfl
  simp only [mul, hN, h1, h2, h3, h4, hbne, Bool.or_false, Bool.false_eq_true, if_false]
  cases hI : r.isInf
  · simp only [Bool.false_eq_true, if_false]
    have hfin := expField_ne_of hN hI
    rw [fix_negOne]
    have h := round_fix r hfin (!r.sign) 149
    simp only [Nat.cast_ofNat] at h
    have he : (-149 : Int) - 149 = -298 := by decide
    rw [he] at h
    rw [h]
    have hr := round_fix_self r hfin
    have h' := round_fix r hfin r.sign 0
    simp only [pow_zero, mul_one, Nat.cast_zero, sub_zero] at h'
    rw [hr] at h'
    conv_rhs => rw [h']
    rw [Nat.add_assoc, Nat.add_assoc, neg_ofBits_signBit]
    have := r.fracField_lt
    have := r.expField_lt
    omega
  · simp only [if_true]
    have hz : r.isZero = false := by
      simp only [isInf, Bool.and_eq_true, beq_iff_eq] at hI
      simp [isZero, hI.1]
    simp only [hz, Bool.false_eq_true, if_false]
    have hr : r = inf r.sign := by
      apply eq_of_isInf hI (isInf_inf _)
      cases r.sign <;> rfl
    conv_rhs => rw [hr]
    rw [neg_inf]

/-- When the sum `a + b` of two finite floats is finite and exact, subtracting
`b` again gives back `a`. -/
theorem add_sub_cancel (a b : F32) (ha : a.expField ≠ 255) (hb : b.expField ≠ 255)
    (hs : (add a b).expField ≠ 255) (hx : (add a b).sval = a.sval + b.sval) :
    F32.eq (sub (add a b) b) a = true := by
  have hnb : (neg b).expField ≠ 255 := by rw [expField_neg]; exact hb
  unfold sub
  rw [add_finite _ _ hs hnb, hx, sval_neg]
  have hsum : a.sval + b.sval + -b.sval = a.sval := by omega
  rw [hsum]
  by_cases h0 : a.sval = 0
  · have haz : a.isZero = true := (fix_eq_zero_iff a).1 ((sval_eq_zero_iff a).1 h0)
    simp [h0, F32.eq, isNaN_zero, isZero_zero, haz, isNaN_false_of ha]
  · simp only [h0, if_false]
    rw [round_sval a ha h0]
    exact eq_self a (isNaN_false_of ha)

theorem add_def (a b : F32) : a + b = add a b := rfl

theorem sub_def (a b : F32) : a - b = sub a b := rfl

theorem mul_def (a b : F32) : a * b = mul a b := rfl

theorem scalar_zero : (Scalar.zero : F32) = zero false := rfl

theorem scalar_negOne : (Scalar.negOne : F32) = ofInt (-1) := rfl

theorem scalar_eq (a b : F32) : Scalar.eq a b = F32.eq a b := rfl

/-- The difference `q - p` and the product `(p - q) * -1.0f` have the same value. -/
theorem sub_sameValue_neg_sub (p q : F32) :
    sameValue (sub q p) (mul (sub p q) (ofInt (-1))) = true := by
  have h1 : sameValue (neg (sub p q)) (sub q p) = true := by
    have h := neg_add p (neg q)
    rw [neg_neg, add_comm (neg p) q] at h
    exact h
  by_cases hN : (sub p q).isNaN = true
  · have hl : (sub q p).isNaN = true := by
      have := h1
      simp only [sameValue, F32.eq, isNaN_neg, hN] at this
      simpa using this
    have hr : (mul (sub p q) (ofInt (-1))).isNaN = true := by
      simp [mul, hN, isNaN_nan]
    simp [sameValue, hl, hr]
  · simp only [Bool.not_eq_true] at hN
    rw [mul_negOne _ hN]
    exact sameValue_symm h1

end F32

/-! ## Lemmas on `int32_t` arithmetic -/

namespace Int32

theorem ext_toInt {a b : Int32} (h : a.toInt = b.toInt) : a = b := by
  cases a; cases b; simp_all

theorem cast_wrap (i : Int) :
    (((wrap i).toInt : Int) : ZMod 4294967296) = (i : ZMod 4294967296) := by
  rw [ZMod.intCast_eq_intCast_iff_dvd_sub]
  show ((4294967296 : ℕ) : ℤ) ∣ i - ((i + 2147483648) % 4294967296 - 2147483648)
  norm_num
  omega

/-- Two `int32_t` values with the same residue modulo `2^32` are equal. -/
theorem eq_of_cast_eq {a b : Int32}
    (h : ((a.toInt : Int) : ZMod 4294967296) = ((b.toInt : Int) : ZMod 4294967296)) :
    a = b := by
  apply ext_toInt
  rw [ZMod.intCast_eq_intCast_iff_dvd_sub] at h
  have h1 := a.lo
  have h2 := a.hi
  have h3 := b.lo
  have h4 := b.hi
  norm_num at h
  omega

theorem cast_add (a b : Int32) :
    (((a + b).toInt : Int) : ZMod 4294967296)
      = (a.toInt : ZMod 4294967296) + (b.toInt : ZMod 4294967296) := by
  show (((wrap (a.toInt + b.toInt)).toInt : Int) : ZMod 4294967296) = _
  rw [cast_wrap]; push_cast; rfl

theorem cast_sub (a b : Int32) :
    (((a - b).toInt : Int) : ZMod 4294967296)
      = (a.toInt : ZMod 4294967296) - (b.toInt : ZMod 4294967296) := by
  show (((wrap (a.toInt - b.toInt)).toInt : Int) : ZMod 4294967296) = _
  rw [cast_wrap]; push_cast; rfl

theorem cast_mul (a b : Int32) :
    (((a * b).toInt : Int) : ZMod 4294967296)
      = (a.toInt : ZMod 4294967296) * (b.toInt : ZMod 4294967296) := by
  show (((wrap (a.toInt * b.toInt)).toInt : Int) : ZMod 4294967296) = _
  rw [cast_wrap]; push_cast; rfl

theorem cast_zero : ((((Scalar.zero : Int32)).toInt : Int) : ZMod 4294967296) = 0 := by
  show (((wrap 0).toInt : Int) : ZMod 4294967296) = _
  rw [cast_wrap]; simp

theorem cast_negOne : ((((Scalar.negOne : Int32)).toInt : Int) : ZMod 4294967296) = -1 := by
  show (((wrap (-1)).toInt : Int) : ZMod 4294967296) = _
  rw [cast_wrap]; simp

theorem scalar_eq_iff (a b : Int32) : Scalar.eq a b = true ↔ a = b := by
  show decide (a.toInt = b.toInt) = true ↔ a = b
  simp only [decide_eq_true_eq]
  exact ⟨ext_toInt, fun h => by rw [h]⟩

theorem zero_add_int (a : Int32) : Scalar.zero + a = a := by
  apply eq_of_cast_eq
  simp only [cast_add, cast_zero]
  ring

theorem add_sub_cancel_int (a b : Int32) : a + b - b = a := by
  apply eq_of_cast_eq
  simp only [cast_add, cast_sub]
  ring

theorem sub_eq_neg_sub (p q r s : Int32) :
    p * q - r * s = (s * r - q * p) * Scalar.negOne := by
  apply eq_of_cast_eq
  simp only [cast_sub, cast_mul, cast_negOne]
  ring

end Int32

/-! ## Lemmas on the loops of the generic `Vector<T,N>` -/

namespace Vector

variable {N : Nat}

/-- A loop that assigns `elements[i] = g i elements[i]` for each index of a
duplicate-free list changes exactly the listed elements. -/
theorem foldl_set_elements (g : Fin N → T → T) :
    ∀ (is : List (Fin N)) (v : Vector T N) (j : Fin N), is.Nodup →
      (is.foldl (fun acc i => acc.set i (g i (acc.elements i))) v).elements j
        = if j ∈ is then g j (v.elements j) else v.elements j := by
  intro is
  induction is with
  | nil => intro v j _; simp
  | cons i is ih =>
    intro v j hnd
    rw [List.nodup_cons] at hnd
    rw [List.foldl_cons, ih _ j hnd.2]
    by_cases hji : j = i
    · subst hji
      simp [hnd.1, set]
    · simp [hji, set, Function.update_noteq hji]

theorem opAddAssign_elements [Scalar T] (left right : Vector T N) (j : Fin N) :
    (opAddAssign left right).elements j = left.elements j + right.elements j := by
  unfold opAddAssign
  rw [foldl_set_elements (fun i x => x + right.elements i) _ _ j (List.nodup_finRange N)]
  simp

theorem opSubAssign_elements [Scalar T] (left right : Vector T N) (j : Fin N) :
    (opSubAssign left right).elements j = left.elements j - right.elements j := by
  unfold opSubAssign
  rw [foldl_set_elements (fun i x => x - right.elements i) _ _ j (List.nodup_finRange N)]
  simp

theorem opEqLoop_iff [Scalar T] (left right : Vector T N) (is : List (Fin N)) :
    opEqLoop left right is = true
      ↔ ∀ i ∈ is, Scalar.eq (left.elements i) (right.elements i) = true := by
  induction is with
  | nil => simp [opEqLoop]
  | cons i is ih =>
    simp only [opEqLoop, Scalar.ne, List.mem_cons, forall_eq_or_imp]
    by_cases h : Scalar.eq (left.elements i) (right.elements i) = true
    · simp [h, ih]
    · simp [h]

/-- Operator `==` holds exactly when all elements compare equal. -/
theorem opEq_iff [Scalar T] (left right : Vector T N) :
    opEq left right = true
      ↔ ∀ i : Fin N, Scalar.eq (left.elements i) (right.elements i) = true := by
  unfold opEq
  rw [opEqLoop_iff]
  simp

theorem dot_two [Scalar T] (a b : Vector T 2) :
    dot a b = Scalar.zero + a.elements 0 * b.elements 0 + a.elements 1 * b.elements 1 := rfl

theorem dot_three [Scalar T] (a b : Vector T 3) :
    dot a b = Scalar.zero + a.elements 0 * b.elements 0 + a.elements 1 * b.elements 1
      + a.elements 2 * b.elements 2 := rfl

theorem dot_four [Scalar T] (a b : Vector T 4) :
    dot a b = Scalar.zero + a.elements 0 * b.elements 0 + a.elements 1 * b.elements 1
      + a.elements 2 * b.elements 2 + a.elements 3 * b.elements 3 := rfl

end Vector

/-! ## Quaternion construction, comparison, sum and difference -/

/-- The comparison `==` of floats spelled out. -/
theorem F32.eq_iff (a b : F32) :
    F32.eq a b = true ↔
      a.isNaN = false ∧ b.isNaN = false ∧ (a = b ∨ (a.isZero = true ∧ b.isZero = true)) := by
  have hbits : a.bits = b.bits ↔ a = b := by
    constructor
    · intro h
      cases a; cases b; simp_all
    · intro h
      rw [h]
  simp [F32.eq, hbits, and_assoc]

/-- C1: for all quaternions `q1 + q2` (and `q1 += q2`) is the componentwise
float sum of the operands, and
`Quaternion(1,2,3,4) + Quaternion(-1,3,1,6) == Quaternion(0,5,4,10)`. -/
theorem quaternion_add_componentwise :
    (∀ q1 q2 : Quaternion,
      (q1.opAdd q2).x = q1.x + q2.x ∧ (q1.opAdd q2).y = q1.y + q2.y ∧
      (q1.opAdd q2).z = q1.z + q2.z ∧ (q1.opAdd q2).w = q1.w + q2.w ∧
      q1.opAddAssign q2 = q1.opAdd q2) ∧
    Quaternion.opEq
      (Quaternion.opAdd
        (Quaternion.ofXYZW (F32.ofInt 1) (F32.ofInt 2) (F32.ofInt 3) (F32.ofInt 4))
        (Quaternion.ofXYZW (F32.ofInt (-1)) (F32.ofInt 3) (F32.ofInt 1) (F32.ofInt 6)))
      (Quaternion.ofXYZW (F32.ofInt 0) (F32.ofInt 5) (F32.ofInt 4) (F32.ofInt 10)) = true := by
  refine ⟨fun q1 q2 => ⟨rfl, rfl, rfl, rfl, rfl⟩, ?_⟩
  decide!

/-- C2: for all quaternions `q1 - q2` (and `q1 -= q2`) is the componentwise
float difference of the operands, and
`Quaternion(1,2,3,4) - Quaternion(-1,3,1,6) == Quaternion(2,-1,2,-2)`. -/
theorem quaternion_sub_componentwise :
    (∀ q1 q2 : Quaternion,
      (q1.opSub q2).x = q1.x - q2.x ∧ (q1.opSub q2).y = q1.y - q2.y ∧
      (q1.opSub q2).z = q1.z - q2.z ∧ (q1.opSub q2).w = q1.w - q2.w ∧
      q1.opSubAssign q2 = q1.opSub q2) ∧
    Quaternion.opEq
      (Quaternion.opSub
        (Quaternion.ofXYZW (F32.ofInt 1) (F32.ofInt 2) (F32.ofInt 3) (F32.ofInt 4))
        (Quaternion.ofXYZW (F32.ofInt (-1)) (F32.ofInt 3) (F32.ofInt 1) (F32.ofInt 6)))
      (Quaternion.ofXYZW (F32.ofInt 2) (F32.ofInt (-1)) (F32.ofInt 2) (F32.ofInt (-2)))
        = true := by
  refine ⟨fun q1 q2 => ⟨rfl, rfl, rfl, rfl, rfl⟩, ?_⟩
  decide!

/-- C3: `a == b` holds exactly when the four components compare equal pairwise
with the float `==` (neither side NaN, and the same float or two zeros), `a != b`
is its negation, quaternions built from the same four non-NaN floats compare
equal, and the comparisons of the test hold: `q1 == Quaternion(1,2,3,4)`,
`q2 == Quaternion(-1,3,1,6)`, `q1 != q2`. -/
theorem quaternion_eq_componentwise :
    (∀ a b : Quaternion,
      a.opEq b = true ↔
        (F32.eq a.x b.x = true ∧ F32.eq a.y b.y = true ∧
          F32.eq a.z b.z = true ∧ F32.eq a.w b.w = true)) ∧
    (∀ x y : F32,
      F32.eq x y = true ↔
        x.isNaN = false ∧ y.isNaN = false ∧ (x = y ∨ (x.isZero = true ∧ y.isZero = true))) ∧
    (∀ a b : Quaternion, a.opNe b = !(a.opEq b)) ∧
    (∀ x y z w : F32,
      x.isNaN = false → y.isNaN = false → z.isNaN = false → w.isNaN = false →
        (Quaternion.ofXYZW x y z w).opEq (Quaternion.ofXYZW x y z w) = true) ∧
    Quaternion.opEq
      (Quaternion.ofXYZW (F32.ofInt 1) (F32.ofInt 2) (F32.ofInt 3) (F32.ofInt 4))
      (Quaternion.ofXYZW (F32.ofInt 1) (F32.ofInt 2) (F32.ofInt 3) (F32.ofInt 4)) = true ∧
    Quaternion.opEq
      (Quaternion.ofXYZW (F32.ofInt (-1)) (F32.ofInt 3) (F32.ofInt 1) (F32.ofInt 6))
      (Quaternion.ofXYZW (F32.ofInt (-1)) (F32.ofInt 3) (F32.ofInt 1) (F32.ofInt 6)) = true ∧
    Quaternion.opNe
      (Quaternion.ofXYZW (F32.ofInt 1) (F32.ofInt 2) (F32.ofInt 3) (F32.ofInt 4))
      (Quaternion.ofXYZW (F32.ofInt (-1)) (F32.ofInt 3) (F32.ofInt 1) (F32.ofInt 6)) = true := by
  refine ⟨?_, F32.eq_iff, fun a b => rfl, ?_, by decide!, by decide!, by decide!⟩
  · intro a b
    simp [Quaternion.opEq, Scalar.eq, and_assoc]
  · intro x y z w hx hy hz hw
    simp [Quaternion.opEq, Scalar.eq, Quaternion.ofXYZW, Quaternion.x, Quaternion.y,
      Quaternion.z, Quaternion.w, F32.eq_self, hx, hy, hz, hw]

/-- C4: `Quaternion(a, b, c, d)` stores its arguments in order: the members
`x, y, z, w` (elements 0 to 3 of the underlying `vec4`) read back `a, b, c, d`,
and for `Quaternion(1,2,3,4)` the four `==` checks of the constructor test hold. -/
theorem quaternion_ctor_components :
    (∀ a b c d : F32,
      (Quaternion.ofXYZW a b c d).x = a ∧ (Quaternion.ofXYZW a b c d).y = b ∧
      (Quaternion.ofXYZW a b c d).z = c ∧ (Quaternion.ofXYZW a b c d).w = d ∧
      (Quaternion.ofXYZW a b c d).vector.get 0 = a ∧
      (Quaternion.ofXYZW a b c d).vector.get 1 = b ∧
      (Quaternion.ofXYZW a b c d).vector.get 2 = c ∧
      (Quaternion.ofXYZW a b c d).vector.get 3 = d) ∧
    F32.eq (Quaternion.ofXYZW (F32.ofInt 1) (F32.ofInt 2) (F32.ofInt 3) (F32.ofInt 4)).x
      (F32.ofInt 1) = true ∧
    F32.eq (Quaternion.ofXYZW (F32.ofInt 1) (F32.ofInt 2) (F32.ofInt 3) (F32.ofInt 4)).y
      (F32.ofInt 2) = true ∧
    F32.eq (Quaternion.ofXYZW (F32.ofInt 1) (F32.ofInt 2) (F32.ofInt 3) (F32.ofInt 4)).z
      (F32.ofInt 3) = true ∧
    F32.eq (Quaternion.ofXYZW (F32.ofInt 1) (F32.ofInt 2) (F32.ofInt 3) (F32.ofInt 4)).w
      (F32.ofInt 4) = true := by
  refine ⟨fun a b c d => ⟨rfl, rfl, rfl, rfl, rfl, rfl, rfl, rfl⟩, ?_, ?_, ?_, ?_⟩ <;> decide!

/-- C5: `Quaternion(v, w)` is `Quaternion(v.x, v.y, v.z, w)`: its imaginary part
is `v` and its real component is `w`. -/
theorem quaternion_ctor_vec3_scalar :
    ∀ (v : Vector3 F32) (w : F32),
      Quaternion.ofVW v w = Quaternion.ofXYZW v.x v.y v.z w ∧
      (Quaternion.ofVW v w).v = v ∧ (Quaternion.ofVW v w).w = w :=
  fun _ _ => ⟨rfl, rfl, rfl⟩

/-! ## Dot product, cross product, sum and difference, safeNormalize -/

theorem F32.isZero_iff (a : F32) :
    a.isZero = true ↔ a = F32.zero false ∨ a = F32.zero true := by
  constructor
  · intro h
    simp only [F32.isZero, Bool.and_eq_true, beq_iff_eq] at h
    cases hs : a.sign
    · exact Or.inl (F32.ext_fields (by rw [hs, F32.sign_zero]) (by rw [h.1, F32.expField_zero])
        (by rw [h.2, F32.fracField_zero]))
    · exact Or.inr (F32.ext_fields (by rw [hs, F32.sign_zero]) (by rw [h.1, F32.expField_zero])
        (by rw [h.2, F32.fracField_zero]))
  · rintro (h | h) <;> rw [h] <;> rfl

/-- When `T(0)` is a left identity of `+`, the unrolled dot products are the
loop dot product. -/
theorem dot_eq_loop_of_zero_add {T : Type} [Scalar T]
    (h0 : ∀ x : T, Scalar.zero + x = x) :
    (∀ a b : Vector2 T, Vector2.dot a b = Vector.dot a.toVector b.toVector) ∧
    (∀ a b : Vector3 T, Vector3.dot a b = Vector.dot a.toVector b.toVector) ∧
    (∀ a b : Vector4 T, Vector4.dot a b = Vector.dot a.toVector b.toVector) := by
  refine ⟨fun a b => ?_, fun a b => ?_, fun a b => ?_⟩
  · rw [Vector.dot_two]
    show _ = Scalar.zero + a.x * b.x + a.y * b.y
    rw [h0]; rfl
  · rw [Vector.dot_three]
    show _ = Scalar.zero + a.x * b.x + a.y * b.y + a.z * b.z
    rw [h0]; rfl
  · rw [Vector.dot_four]
    show _ = Scalar.zero + a.x * b.x + a.y * b.y + a.z * b.z + a.w * b.w
    rw [h0]; rfl

/-- C6: for N = 2, 3, 4 the unrolled `dot` returns the value of the generic loop
`dot` (accumulator started at `T(0)`): the very same `int32_t` for integer
vectors, and for float vectors the same value (both NaN, or equal under `==`;
the loop turns a `-0.0f` result into `+0.0f`). -/
theorem dot_unrolled_eq_loop :
    (∀ a b : Vector2 Int32, Vector2.dot a b = Vector.dot a.toVector b.toVector) ∧
    (∀ a b : Vector3 Int32, Vector3.dot a b = Vector.dot a.toVector b.toVector) ∧
    (∀ a b : Vector4 Int32, Vector4.dot a b = Vector.dot a.toVector b.toVector) ∧
    (∀ a b : Vector2 F32,
      F32.sameValue (Vector2.dot a b) (Vector.dot a.toVector b.toVector) = true) ∧
    (∀ a b : Vector3 F32,
      F32.sameValue (Vector3.dot a b) (Vector.dot a.toVector b.toVector) = true) ∧
    (∀ a b : Vector4 F32,
      F32.sameValue (Vector4.dot a b) (Vector.dot a.toVector b.toVector) = true) := by
  obtain ⟨h2, h3, h4⟩ := dot_eq_loop_of_zero_add Int32.zero_add_int
  refine ⟨h2, h3, h4, fun a b => ?_, fun a b => ?_, fun a b => ?_⟩
  · rw [Vector.dot_two]
    apply F32.sameValue_symm
    exact F32.add_congr_left _ (F32.zero_add _)
  · rw [Vector.dot_three]
    apply F32.sameValue_symm
    exact F32.add_congr_left _ (F32.add_congr_left _ (F32.zero_add _))
  · rw [Vector.dot_four]
    apply F32.sameValue_symm
    exact F32.add_congr_left _ (F32.add_congr_left _ (F32.add_congr_left _ (F32.zero_add _)))

/-- The one difference between the two float dot products: with
`a = (-0.0f, -0.0f)` and `b = (1, 1)` the unrolled form returns `-0.0f`
(`0x80000000`) and the loop, which starts from `+0.0f`, returns `+0.0f`. -/
theorem dot_negative_zero_example :
    (Vector2.dot (Vector2.mk (F32.zero true) (F32.zero true))
      (Vector2.mk (F32.ofInt 1) (F32.ofInt 1))).bits = 0x80000000 ∧
    (Vector.dot (Vector2.toVector (Vector2.mk (F32.zero true) (F32.zero true)))
      (Vector2.toVector (Vector2.mk (F32.ofInt 1) (F32.ofInt 1)))).bits = 0 := by
  decide!

/-- C7: `cross(a,b)` is `(a.y*b.z - a.z*b.y, a.z*b.x - a.x*b.z, a.x*b.y - a.y*b.x)`
for every element type, and `cross((1,0,0),(0,1,0)) == (0,0,1)` for `float` and
`int32_t` vectors. -/
theorem cross_formula :
    (∀ (T : Type) [Scalar T] (a b : Vector3 T),
      Vector3.cross a b
        = ⟨a.y * b.z - a.z * b.y, a.z * b.x - a.x * b.z, a.x * b.y - a.y * b.x⟩) ∧
    Vector3.opEq
      (Vector3.cross (Vector3.mk (F32.ofInt 1) (F32.ofInt 0) (F32.ofInt 0))
        (Vector3.mk (F32.ofInt 0) (F32.ofInt 1) (F32.ofInt 0)))
      (Vector3.mk (F32.ofInt 0) (F32.ofInt 0) (F32.ofInt 1)) = true ∧
    Vector3.opEq
      (Vector3.cross (Vector3.mk (Int32.wrap 1) (Int32.wrap 0) (Int32.wrap 0))
        (Vector3.mk (Int32.wrap 0) (Int32.wrap 1) (Int32.wrap 0)))
      (Vector3.mk (Int32.wrap 0) (Int32.wrap 0) (Int32.wrap 1)) = true := by
  refine ⟨fun T _ a b => rfl, by decide!, by decide!⟩

/-- C8, as stated, fails for floats: with `FLT_MAX = 0x7F7FFFFF`,
`a = (FLT_MAX, FLT_MAX, 0)` and `b = (FLT_MAX, FLT_MAX, 1)`, the products
overflow, the z component of both cross products is `inf - inf = NaN`, and
`cross(a,b) == -cross(b,a)` is false. -/
theorem cross_anticomm_counterexample :
    Vector3.opEq
      (Vector3.cross
        (Vector3.mk (F32.ofBits 0x7F7FFFFF) (F32.ofBits 0x7F7FFFFF) (F32.ofInt 0))
        (Vector3.mk (F32.ofBits 0x7F7FFFFF) (F32.ofBits 0x7F7FFFFF) (F32.ofInt 1)))
      (Vector3.opNeg (Vector3.cross
        (Vector3.mk (F32.ofBits 0x7F7FFFFF) (F32.ofBits 0x7F7FFFFF) (F32.ofInt 1))
        (Vector3.mk (F32.ofBits 0x7F7FFFFF) (F32.ofBits 0x7F7FFFFF) (F32.ofInt 0))))
      = false := by
  decide!

/-- C8, amended: `cross(a,b) == -cross(b,a)` for all `int32_t` vectors; for float
vectors each component of `cross(a,b)` has the same value as that of
`-cross(b,a)` (both NaN, or equal), so `cross(a,b) == -cross(b,a)` whenever no
component of `cross(a,b)` is NaN. -/
theorem cross_anticomm :
    (∀ a b : Vector3 Int32,
      Vector3.opEq (Vector3.cross a b) (Vector3.opNeg (Vector3.cross b a)) = true) ∧
    (∀ a b : Vector3 F32,
      F32.sameValue (Vector3.cross a b).x (Vector3.opNeg (Vector3.cross b a)).x = true ∧
      F32.sameValue (Vector3.cross a b).y (Vector3.opNeg (Vector3.cross b a)).y = true ∧
      F32.sameValue (Vector3.cross a b).z (Vector3.opNeg (Vector3.cross b a)).z = true) ∧
    (∀ a b : Vector3 F32,
      (Vector3.cross a b).x.isNaN = false → (Vector3.cross a b).y.isNaN = false →
      (Vector3.cross a b).z.isNaN = false →
        Vector3.opEq (Vector3.cross a b) (Vector3.opNeg (Vector3.cross b a)) = true) := by
  have hf : ∀ a b : Vector3 F32,
      F32.sameValue (Vector3.cross a b).x (Vector3.opNeg (Vector3.cross b a)).x = true ∧
      F32.sameValue (Vector3.cross a b).y (Vector3.opNeg (Vector3.cross b a)).y = true ∧
      F32.sameValue (Vector3.cross a b).z (Vector3.opNeg (Vector3.cross b a)).z = true := by
    intro a b
    refine ⟨?_, ?_, ?_⟩
    · show F32.sameValue (F32.sub (F32.mul a.y b.z) (F32.mul a.z b.y))
        (F32.mul (F32.sub (F32.mul b.y a.z) (F32.mul b.z a.y)) (F32.ofInt (-1))) = true
      rw [F32.mul_comm b.y a.z, F32.mul_comm b.z a.y]
      exact F32.sub_sameValue_neg_sub _ _
    · show F32.sameValue (F32.sub (F32.mul a.z b.x) (F32.mul a.x b.z))
        (F32.mul (F32.sub (F32.mul b.z a.x) (F32.mul b.x a.z)) (F32.ofInt (-1))) = true
      rw [F32.mul_comm b.z a.x, F32.mul_comm b.x a.z]
      exact F32.sub_sameValue_neg_sub _ _
    · show F32.sameValue (F32.sub (F32.mul a.x b.y) (F32.mul a.y b.x))
        (F32.mul (F32.sub (F32.mul b.x a.y) (F32.mul b.y a.x)) (F32.ofInt (-1))) = true
      rw [F32.mul_comm b.x a.y, F32.mul_comm b.y a.x]
      exact F32.sub_sameValue_neg_sub _ _
  refine ⟨fun a b => ?_, hf, fun a b hx hy hz => ?_⟩
  · simp only [Vector3.opEq, Bool.and_eq_true, Int32.scalar_eq_iff]
    exact ⟨⟨Int32.sub_eq_neg_sub _ _ _ _, Int32.sub_eq_neg_sub _ _ _ _⟩,
      Int32.sub_eq_neg_sub _ _ _ _⟩
  · obtain ⟨h1, h2, h3⟩ := hf a b
    simp only [Vector3.opEq, Bool.and_eq_true, F32.scalar_eq]
    exact ⟨⟨F32.eq_of_sameValue h1 hx, F32.eq_of_sameValue h2 hy⟩, F32.eq_of_sameValue h3 hz⟩

/-- The float part of `cross_anticomm` at `a = (1,0,0)`, `b = (0,1,0)`. -/
theorem cross_anticomm_witness :
    Vector3.opEq
      (Vector3.cross (Vector3.mk (F32.ofInt 1) (F32.ofInt 0) (F32.ofInt 0))
        (Vector3.mk (F32.ofInt 0) (F32.ofInt 1) (F32.ofInt 0)))
      (Vector3.opNeg (Vector3.cross (Vector3.mk (F32.ofInt 0) (F32.ofInt 1) (F32.ofInt 0))
        (Vector3.mk (F32.ofInt 1) (F32.ofInt 0) (F32.ofInt 0)))) = true :=
  cross_anticomm.2.2 _ _ (by decide!) (by decide!) (by decide!)

theorem F32.cancel_of_addExact {a b : F32} (h : F32.addExact a b = true) :
    Scalar.eq (a + b - b) a = true := by
  simp only [F32.addExact, F32.isFinite, Bool.and_eq_true, bne_iff_ne, ne_eq,
    decide_eq_true_eq] at h
  obtain ⟨⟨⟨ha, hb⟩, hs⟩, hx⟩ := h
  exact F32.add_sub_cancel a b ha hb hs hx

theorem Int32.cancel (a b : Int32) : Scalar.eq (a + b - b) a = true :=
  (Int32.scalar_eq_iff _ _).2 (Int32.add_sub_cancel_int a b)

/-- C9, as stated, fails for floats: with `a = (1, 1)` and `b = (2^24, 2^24)` the
sum `1 + 2^24` rounds to `2^24`, so `(a + b) - b` is `(0, 0)` and
`(a + b) - b == a` is false. -/
theorem add_sub_cancel_counterexample :
    Vector2.opEq
      (Vector2.opSub
        (Vector2.opAdd (Vector2.mk (F32.ofInt 1) (F32.ofInt 1))
          (Vector2.mk (F32.ofInt 16777216) (F32.ofInt 16777216)))
        (Vector2.mk (F32.ofInt 16777216) (F32.ofInt 16777216)))
      (Vector2.mk (F32.ofInt 1) (F32.ofInt 1)) = false := by
  decide!

/-- C9, amended: `(a + b) - b == a` for all `int32_t` vectors, 2/3/4-wide and
generic; for float vectors it holds whenever every component sum `a[i] + b[i]`
is finite and free of rounding error. -/
theorem add_sub_cancel_vectors :
    (∀ a b : Vector2 Int32, Vector2.opEq (Vector2.opSub (Vector2.opAdd a b) b) a = true) ∧
    (∀ a b : Vector3 Int32, Vector3.opEq (Vector3.opSub (Vector3.opAdd a b) b) a = true) ∧
    (∀ a b : Vector4 Int32, Vector4.opEq (Vector4.opSub (Vector4.opAdd a b) b) a = true) ∧
    (∀ (N : Nat) (a b : Vector Int32 N),
      Vector.opEq (Vector.opSub (Vector.opAdd a b) b) a = true) ∧
    (∀ a b : Vector2 F32, F32.addExact a.x b.x = true → F32.addExact a.y b.y = true →
      Vector2.opEq (Vector2.opSub (Vector2.opAdd a b) b) a = true) ∧
    (∀ a b : Vector3 F32, F32.addExact a.x b.x = true → F32.addExact a.y b.y = true →
      F32.addExact a.z b.z = true →
      Vector3.opEq (Vector3.opSub (Vector3.opAdd a b) b) a = true) ∧
    (∀ a b : Vector4 F32, F32.addExact a.x b.x = true → F32.addExact a.y b.y = true →
      F32.addExact a.z b.z = true → F32.addExact a.w b.w = true →
      Vector4.opEq (Vector4.opSub (Vector4.opAdd a b) b) a = true) ∧
    (∀ (N : Nat) (a b : Vector F32 N),
      (∀ i : Fin N, F32.addExact (a.elements i) (b.elements i) = true) →
      Vector.opEq (Vector.opSub (Vector.opAdd a b) b) a = true) := by
  refine ⟨fun a b => ?_, fun a b => ?_, fun a b => ?_, fun N a b => ?_,
    fun a b hx hy => ?_, fun a b hx hy hz => ?_, fun a b hx hy hz hw => ?_,
    fun N a b h => ?_⟩
  · simp only [Vector2.opEq, Bool.and_eq_true]
    exact ⟨Int32.cancel _ _, Int32.cancel _ _⟩
  · simp only [Vector3.opEq, Bool.and_eq_true]
    exact ⟨⟨Int32.cancel _ _, Int32.cancel _ _⟩, Int32.cancel _ _⟩
  · simp only [Vector4.opEq, Bool.and_eq_true]
    exact ⟨⟨⟨Int32.cancel _ _, Int32.cancel _ _⟩, Int32.cancel _ _⟩, Int32.cancel _ _⟩
  · rw [Vector.opEq_iff]
    intro i
    simp only [Vector.opSub, Vector.opAdd, Vector.opSubAssign_elements,
      Vector.opAddAssign_elements]
    exact Int32.cancel _ _
  · simp only [Vector2.opEq, Bool.and_eq_true]
    exact ⟨F32.cancel_of_addExact hx, F32.cancel_of_addExact hy⟩
  · simp only [Vector3.opEq, Bool.and_eq_true]
    exact ⟨⟨F32.cancel_of_addExact hx, F32.cancel_of_addExact hy⟩, F32.cancel_of_addExact hz⟩
  · simp only [Vector4.opEq, Bool.and_eq_true]
    exact ⟨⟨⟨F32.cancel_of_addExact hx, F32.cancel_of_addExact hy⟩,
      F32.cancel_of_addExact hz⟩, F32.cancel_of_addExact hw⟩
  · rw [Vector.opEq_iff]
    intro i
    simp only [Vector.opSub, Vector.opAdd, Vector.opSubAssign_elements,
      Vector.opAddAssign_elements]
    exact F32.cancel_of_addExact (h i)

/-- The float part of `add_sub_cancel_vectors` at `a = (1, 2, 3)`,
`b = (-1, 3, 1)`, whose component sums are exact. -/
theorem add_sub_cancel_witness :
    Vector3.opEq
      (Vector3.opSub
        (Vector3.opAdd (Vector3.mk (F32.ofInt 1) (F32.ofInt 2) (F32.ofInt 3))
          (Vector3.mk (F32.ofInt (-1)) (F32.ofInt 3) (F32.ofInt 1)))
        (Vector3.mk (F32.ofInt (-1)) (F32.ofInt 3) (F32.ofInt 1)))
      (Vector3.mk (F32.ofInt 1) (F32.ofInt 2) (F32.ofInt 3)) = true :=
  add_sub_cancel_vectors.2.2.2.2.2.1 _ _ (by decide!) (by decide!) (by decide!)

/-- C10: for N = 2, 3, 4, on `float` and on `int32_t`, the length of the
all-zero vector is computed as `T(0)`, the test `lengthTmp == T(0)` succeeds and
`safeNormalize` returns the all-zero vector from its first `return`, before the
division; for floats this holds for every mix of `+0.0f` and `-0.0f`
components. -/
theorem safeNormalize_zero :
    (Vector2.length (Vector2.ofValue (Scalar.zero : Int32)) = Scalar.zero ∧
      Scalar.eq (Vector2.length (Vector2.ofValue (Scalar.zero : Int32))) Scalar.zero = true ∧
      Vector2.safeNormalize (Vector2.ofValue (Scalar.zero : Int32))
        = Vector2.ofValue Scalar.zero) ∧
    (Vector3.length (Vector3.ofValue (Scalar.zero : Int32)) = Scalar.zero ∧
      Scalar.eq (Vector3.length (Vector3.ofValue (Scalar.zero : Int32))) Scalar.zero = true ∧
      Vector3.safeNormalize (Vector3.ofValue (Scalar.zero : Int32))
        = Vector3.ofValue Scalar.zero) ∧
    (Vector4.length (Vector4.ofValue (Scalar.zero : Int32)) = Scalar.zero ∧
      Scalar.eq (Vector4.length (Vector4.ofValue (Scalar.zero : Int32))) Scalar.zero = true ∧
      Vector4.safeNormalize (Vector4.ofValue (Scalar.zero : Int32))
        = Vector4.ofValue Scalar.zero) ∧
    (∀ v : Vector2 F32, v.x.isZero = true → v.y.isZero = true →
      Vector2.length v = Scalar.zero ∧
      Scalar.eq (Vector2.length v) Scalar.zero = true ∧
      Vector2.safeNormalize v = Vector2.ofValue Scalar.zero) ∧
    (∀ v : Vector3 F32, v.x.isZero = true → v.y.isZero = true → v.z.isZero = true →
      Vector3.length v = Scalar.zero ∧
      Scalar.eq (Vector3.length v) Scalar.zero = true ∧
      Vector3.safeNormalize v = Vector3.ofValue Scalar.zero) ∧
    (∀ v : Vector4 F32, v.x.isZero = true → v.y.isZero = true → v.z.isZero = true →
      v.w.isZero = true →
      Vector4.length v = Scalar.zero ∧
      Scalar.eq (Vector4.length v) Scalar.zero = true ∧
      Vector4.safeNormalize v = Vector4.ofValue Scalar.zero) := by
  refine ⟨by decide, by decide, by decide, ?_, ?_, ?_⟩
  · rintro ⟨x, y⟩ hx hy
    rcases (F32.isZero_iff x).1 hx with rfl | rfl <;>
      rcases (F32.isZero_iff y).1 hy with rfl | rfl <;> decide!
  · rintro ⟨x, y, z⟩ hx hy hz
    rcases (F32.isZero_iff x).1 hx with rfl | rfl <;>
      rcases (F32.isZero_iff y).1 hy with rfl | rfl <;>
      rcases (F32.isZero_iff z).1 hz with rfl | rfl <;> decide!
  · rintro ⟨x, y, z, w⟩ hx hy hz hw
    rcases (F32.isZero_iff x).1 hx with rfl | rfl <;>
      rcases (F32.isZero_iff y).1 hy with rfl | rfl <;>
      rcases (F32.isZero_iff z).1 hz with rfl | rfl <;>
      rcases (F32.isZero_iff w).1 hw with rfl | rfl <;> decide!

/-- The float part of `safeNormalize_zero` at the vector `(0.0f, 0.0f, 0.0f)`. -/
theorem safeNormalize_zero_witness :
    Vector3.safeNormalize (Vector3.ofValue (Scalar.zero : F32))
      = Vector3.ofValue Scalar.zero :=
  (safeNormalize_zero.2.2.2.2.1 (Vector3.ofValue Scalar.zero) rfl rfl rfl).2.2

/-! ## normalize, safeNormalize, squaredLength and vector comparison -/

theorem F32.isZero_false_of_ne_zero {l : F32} (h : Scalar.eq l (Scalar.zero : F32) = false) :
    l.isZero = false := by
  cases hz : l.isZero
  · rfl
  · have hN : l.isNaN = false := F32.isNaN_false_of (F32.isZero_finite hz)
    have : F32.eq l (F32.zero false) = true := by
      simp [F32.eq, hN, hz, F32.isNaN_zero, F32.isZero_zero]
    rw [F32.scalar_eq, F32.scalar_zero, this] at h
    exact absurd h (by decide)

theorem Int32.toInt_ne_zero_of_ne_zero {l : Int32}
    (h : Scalar.eq l (Scalar.zero : Int32) = false) : l.toInt ≠ 0 := by
  intro h0
  have : Scalar.eq l (Scalar.zero : Int32) = true := by
    show decide (l.toInt = (Int32.wrap 0).toInt) = true
    rw [h0]; rfl
  rw [this] at h
  exact absurd h (by decide)

theorem Vector.opDivAssign_elements {N : Nat} [Scalar T] (left : Vector T N) (right : T)
    (j : Fin N) : (Vector.opDivAssign left right).elements j = left.elements j / right := by
  unfold Vector.opDivAssign
  rw [Vector.foldl_set_elements (fun _ x => x / right) _ _ j (List.nodup_finRange N)]
  simp

/-- The generic `normalize`: when the assertion `length(v) != 0` holds, every
element is divided by the length. -/
theorem Vector.normalize_elements {N : Nat} [Scalar T] (v : Vector T N)
    (h : Scalar.ne (Vector.length v) Scalar.zero = true) :
    ∃ w, Vector.normalize v = some w ∧
      ∀ i : Fin N, w.elements i = v.elements i / Vector.length v := by
  refine ⟨Vector.opDiv v (Vector.length v), ?_, fun i => ?_⟩
  · simp [Vector.normalize, h]
  · simp [Vector.opDiv, Vector.opDivAssign_elements]

theorem isqrtAux_spec (k : Nat) : ∀ n acc : Nat, acc * acc ≤ n →
    n < (acc + 2 ^ k) * (acc + 2 ^ k) →
    isqrtAux k n acc * isqrtAux k n acc ≤ n ∧
      n < (isqrtAux k n acc + 1) * (isqrtAux k n acc + 1) := by
  induction k with
  | zero =>
    intro n acc h1 h2
    simpa [isqrtAux] using And.intro h1 h2
  | succ k ih =>
    intro n acc h1 h2
    simp only [isqrtAux]
    by_cases hc : (acc + 2 ^ k) * (acc + 2 ^ k) ≤ n
    · simp only [hc, if_true]
      apply ih _ _ hc
      have : acc + 2 ^ k + 2 ^ k = acc + 2 ^ (k + 1) := by rw [pow_succ]; omega
      rw [this]; exact h2
    · simp only [hc, if_false]
      exact ih _ _ h1 (by omega)

/-- The `int32_t` square root of a non-negative value is the integer part of
its square root. -/
theorem Int32.sqrt_spec (a : Int32) (h : 0 ≤ a.toInt) :
    0 ≤ (Scalar.sqrt a).toInt ∧ (Scalar.sqrt a).toInt * (Scalar.sqrt a).toInt ≤ a.toInt ∧
      a.toInt < ((Scalar.sqrt a).toInt + 1) * ((Scalar.sqrt a).toInt + 1) := by
  have hhi := a.hi
  obtain ⟨n, hn⟩ := Int.eq_ofNat_of_zero_le h
  have hn' : n < 2147483648 := by omega
  have hspec := isqrtAux_spec 16 n 0 (by omega) (by norm_num; omega)
  set r := isqrtAux 16 n 0 with hr
  have hr16 : r < 65536 := by
    by_contra hge
    have : 65536 * 65536 ≤ r * r := Nat.mul_le_mul (by omega) (by omega)
    omega
  have hs : (Scalar.sqrt a).toInt = (r : Int) := by
    show (Int32.sqrt a).toInt = _
    simp only [Int32.sqrt, h, if_true, hn, Int.toNat_ofNat]
    show ((r : Int) + 2147483648) % 4294967296 - 2147483648 = r
    omega
  rw [hs, hn]
  refine ⟨by omega, ?_, ?_⟩
  · exact_mod_cast hspec.1
  · exact_mod_cast hspec.2

/-- C11: for N = 2, 3, 4 and every element type, when `length(v) == T(0)` holds
`safeNormalize(v)` is the zero vector (and the assertion of `normalize` fails);
otherwise `safeNormalize(v)` is `v / length(v)`, each component divided by the
length, the assertion `length(v) != 0` of `normalize` holds and `normalize(v)`
returns the same vector. The generic `normalize` divides every element by the
length when its assertion holds. The division is reached only with a length that
is not zero: not `±0.0f` on floats, not `0` on `int32_t`. -/
theorem safeNormalize_normalize_cases :
    (∀ (T : Type) [Scalar T] (v : Vector2 T),
      (Scalar.eq (Vector2.length v) Scalar.zero = true →
        Vector2.safeNormalize v = Vector2.ofValue Scalar.zero ∧ Vector2.normalize v = none) ∧
      (Scalar.eq (Vector2.length v) Scalar.zero = false →
        Vector2.safeNormalize v = ⟨v.x / Vector2.length v, v.y / Vector2.length v⟩ ∧
        Scalar.ne (Vector2.length v) Scalar.zero = true ∧
        Vector2.normalize v = some (Vector2.safeNormalize v))) ∧
    (∀ (T : Type) [Scalar T] (v : Vector3 T),
      (Scalar.eq (Vector3.length v) Scalar.zero = true →
        Vector3.safeNormalize v = Vector3.ofValue Scalar.zero ∧ Vector3.normalize v = none) ∧
      (Scalar.eq (Vector3.length v) Scalar.zero = false →
        Vector3.safeNormalize v
          = ⟨v.x / Vector3.length v, v.y / Vector3.length v, v.z / Vector3.length v⟩ ∧
        Scalar.ne (Vector3.length v) Scalar.zero = true ∧
        Vector3.normalize v = some (Vector3.safeNormalize v))) ∧
    (∀ (T : Type) [Scalar T] (v : Vector4 T),
      (Scalar.eq (Vector4.length v) Scalar.zero = true →
        Vector4.safeNormalize v = Vector4.ofValue Scalar.zero ∧ Vector4.normalize v = none) ∧
      (Scalar.eq (Vector4.length v) Scalar.zero = false →
        Vector4.safeNormalize v
          = ⟨v.x / Vector4.length v, v.y / Vector4.length v, v.z / Vector4.length v,
              v.w / Vector4.length v⟩ ∧
        Scalar.ne (Vector4.length v) Scalar.zero = true ∧
        Vector4.normalize v = some (Vector4.safeNormalize v))) ∧
    (∀ (T : Type) [Scalar T] (N : Nat) (v : Vector T N),
      (Scalar.ne (Vector.length v) Scalar.zero = false → Vector.normalize v = none) ∧
      (Scalar.ne (Vector.length v) Scalar.zero = true →
        ∃ w, Vector.normalize v = some w ∧
          ∀ i : Fin N, w.elements i = v.elements i / Vector.length v)) ∧
    (∀ l : F32, Scalar.eq l (Scalar.zero : F32) = false → l.isZero = false) ∧
    (∀ l : Int32, Scalar.eq l (Scalar.zero : Int32) = false → l.toInt ≠ 0) := by
  refine ⟨fun T _ v => ⟨fun h => ?_, fun h => ?_⟩, fun T _ v => ⟨fun h => ?_, fun h => ?_⟩,
    fun T _ v => ⟨fun h => ?_, fun h => ?_⟩,
    fun T _ N v => ⟨fun h => by simp [Vector.normalize, h], Vector.normalize_elements v⟩,
    fun l h => F32.isZero_false_of_ne_zero h, fun l h => Int32.toInt_ne_zero_of_ne_zero h⟩
  · simp [Vector2.safeNormalize, Vector2.normalize, Scalar.ne, h]
  · simp [Vector2.safeNormalize, Vector2.normalize, Scalar.ne, h, Vector2.opDiv,
      Vector2.opDivAssign]
  · simp [Vector3.safeNormalize, Vector3.normalize, Scalar.ne, h]
  · simp [Vector3.safeNormalize, Vector3.normalize, Scalar.ne, h, Vector3.opDiv,
      Vector3.opDivAssign]
  · simp [Vector4.safeNormalize, Vector4.normalize, Scalar.ne, h]
  · simp [Vector4.safeNormalize, Vector4.normalize, Scalar.ne, h, Vector4.opDiv,
      Vector4.opDivAssign]

/-- The hypotheses of the two cases at float vectors: `(0, 0, 0)` has length
`0.0f` and is returned as the zero vector; `(3, 0, 4)` has length `5.0f` and is
divided by it. -/
theorem safeNormalize_normalize_witness :
    (Vector3.safeNormalize (Vector3.ofValue (F32.zero false)) = Vector3.ofValue Scalar.zero ∧
      Vector3.normalize (Vector3.ofValue (F32.zero false)) = none) ∧
    Vector3.normalize (Vector3.mk (F32.ofInt 3) (F32.ofInt 0) (F32.ofInt 4))
      = some (Vector3.mk (F32.ofDecimal 6 1) (F32.ofInt 0) (F32.ofDecimal 8 1)) :=
  ⟨(safeNormalize_normalize_cases.2.1 F32 (Vector3.ofValue (F32.zero false))).1 (by decide!),
   by
    have h := ((safeNormalize_normalize_cases.2.1 F32
      (Vector3.mk (F32.ofInt 3) (F32.ofInt 0) (F32.ofInt 4))).2 (by decide!)).2.2
    rw [h]
    decide!⟩

/-- C12: the generic `==` is true exactly when `a[i] == b[i]` holds at every
index `i < N`, `!=` is the negation of `==`, and the 2/3/4-wide `==` return what
the generic loop returns on the same elements. -/
theorem vector_eq_iff_elements :
    (∀ (T : Type) [Scalar T] (N : Nat) (a b : Vector T N),
      (Vector.opEq a b = true
        ↔ ∀ i : Fin N, Scalar.eq (a.elements i) (b.elements i) = true) ∧
      Vector.opNe a b = !(Vector.opEq a b)) ∧
    (∀ (T : Type) [Scalar T] (a b : Vector2 T),
      Vector2.opEq a b = Vector.opEq a.toVector b.toVector ∧
      (Vector2.opEq a b = true ↔ ∀ i : Fin 2, Scalar.eq (a.get i) (b.get i) = true) ∧
      Vector2.opNe a b = !(Vector2.opEq a b)) ∧
    (∀ (T : Type) [Scalar T] (a b : Vector3 T),
      Vector3.opEq a b = Vector.opEq a.toVector b.toVector ∧
      (Vector3.opEq a b = true ↔ ∀ i : Fin 3, Scalar.eq (a.get i) (b.get i) = true) ∧
      Vector3.opNe a b = !(Vector3.opEq a b)) ∧
    (∀ (T : Type) [Scalar T] (a b : Vector4 T),
      Vector4.opEq a b = Vector.opEq a.toVector b.toVector ∧
      (Vector4.opEq a b = true ↔ ∀ i : Fin 4, Scalar.eq (a.get i) (b.get i) = true) ∧
      Vector4.opNe a b = !(Vector4.opEq a b)) := by
  refine ⟨fun T _ N a b => ⟨Vector.opEq_iff a b, rfl⟩, fun T _ a b => ?_, fun T _ a b => ?_,
    fun T _ a b => ?_⟩
  · have h : Vector2.opEq a b = true ↔ ∀ i : Fin 2, Scalar.eq (a.get i) (b.get i) = true := by
      simp [Vector2.opEq, Fin.forall_fin_two, Vector2.get]
    refine ⟨?_, h, rfl⟩
    rw [Bool.eq_iff_iff, h, Vector.opEq_iff]
    rfl
  · have h : Vector3.opEq a b = true ↔ ∀ i : Fin 3, Scalar.eq (a.get i) (b.get i) = true := by
      simp [Vector3.opEq, Fin.forall_fin_succ, Vector3.get, and_assoc]
    refine ⟨?_, h, rfl⟩
    rw [Bool.eq_iff_iff, h, Vector.opEq_iff]
    rfl
  · have h : Vector4.opEq a b = true ↔ ∀ i : Fin 4, Scalar.eq (a.get i) (b.get i) = true := by
      simp only [Vector4.opEq, Bool.and_eq_true]
      constructor
      · rintro ⟨⟨⟨hx, hy⟩, hz⟩, hw⟩ i
        fin_cases i
        · exact hx
        · exact hy
        · exact hz
        · exact hw
      · intro h
        exact ⟨⟨⟨h 0, h 1⟩, h 2⟩, h 3⟩
    refine ⟨?_, h, rfl⟩
    rw [Bool.eq_iff_iff, h, Vector.opEq_iff]
    rfl

/-- C20: for N = 2, 3, 4 and the generic vector, over every element type,
`squaredLength(v)` is `dot(v,v)`, the sum of the squares of the components added
left to right (from `T(0)` in the generic loop), and `length(v)` is
`T(sqrt(squaredLength(v)))`. The comparison `squaredLength(v) == dot(v,v)` holds
on `int32_t` and on floats unless the value is NaN; the `int32_t` square root of
a non-negative value is the integer part of the root. -/
theorem squaredLength_length_spec :
    (∀ (T : Type) [Scalar T] (v : Vector2 T),
      Vector2.squaredLength v = Vector2.dot v v ∧
      Vector2.squaredLength v = v.x * v.x + v.y * v.y ∧
      Vector2.length v = Scalar.sqrt (Vector2.squaredLength v)) ∧
    (∀ (T : Type) [Scalar T] (v : Vector3 T),
      Vector3.squaredLength v = Vector3.dot v v ∧
      Vector3.squaredLength v = v.x * v.x + v.y * v.y + v.z * v.z ∧
      Vector3.length v = Scalar.sqrt (Vector3.squaredLength v)) ∧
    (∀ (T : Type) [Scalar T] (v : Vector4 T),
      Vector4.squaredLength v = Vector4.dot v v ∧
      Vector4.squaredLength v = v.x * v.x + v.y * v.y + v.z * v.z + v.w * v.w ∧
      Vector4.length v = Scalar.sqrt (Vector4.squaredLength v)) ∧
    (∀ (T : Type) [Scalar T] (N : Nat) (v : Vector T N),
      Vector.squaredLength v = Vector.dot v v ∧
      Vector.squaredLength v
        = (List.finRange N).foldl (fun s i => s + v.elements i * v.elements i) Scalar.zero ∧
      Vector.length v = Scalar.sqrt (Vector.squaredLength v)) ∧
    (∀ v : Vector3 Int32,
      Scalar.eq (Vector3.squaredLength v) (Vector3.dot v v) = true) ∧
    (∀ v : Vector3 F32, (Vector3.dot v v).isNaN = false →
      Scalar.eq (Vector3.squaredLength v) (Vector3.dot v v) = true) ∧
    (∀ a : Int32, 0 ≤ a.toInt →
      0 ≤ (Scalar.sqrt a).toInt ∧ (Scalar.sqrt a).toInt * (Scalar.sqrt a).toInt ≤ a.toInt ∧
        a.toInt < ((Scalar.sqrt a).toInt + 1) * ((Scalar.sqrt a).toInt + 1)) := by
  refine ⟨fun T _ v => ⟨rfl, rfl, rfl⟩, fun T _ v => ⟨rfl, rfl, rfl⟩,
    fun T _ v => ⟨rfl, rfl, rfl⟩, fun T _ N v => ⟨rfl, rfl, rfl⟩, fun v => ?_,
    fun v h => ?_, Int32.sqrt_spec⟩
  · exact (Int32.scalar_eq_iff _ _).2 rfl
  · exact F32.eq_self _ h

/-- The parts with a hypothesis at `v = (1, 2, 2)`: the float comparison holds,
and the `int32_t` length `sqrt(9)` is 3. -/
theorem squaredLength_length_witness :
    Scalar.eq (Vector3.squaredLength (Vector3.mk (F32.ofInt 1) (F32.ofInt 2) (F32.ofInt 2)))
      (Vector3.dot (Vector3.mk (F32.ofInt 1) (F32.ofInt 2) (F32.ofInt 2))
        (Vector3.mk (F32.ofInt 1) (F32.ofInt 2) (F32.ofInt 2))) = true ∧
    (0 ≤ (Scalar.sqrt (Int32.wrap 9)).toInt ∧
      (Scalar.sqrt (Int32.wrap 9)).toInt * (Scalar.sqrt (Int32.wrap 9)).toInt
        ≤ (Int32.wrap 9).toInt ∧
      (Int32.wrap 9).toInt
        < ((Scalar.sqrt (Int32.wrap 9)).toInt + 1) * ((Scalar.sqrt (Int32.wrap 9)).toInt + 1)) :=
  ⟨squaredLength_length_spec.2.2.2.2.2.1 _ (by decide!),
   squaredLength_length_spec.2.2.2.2.2.2 (Int32.wrap 9) (by decide)⟩

/-- C14: `sgn(x)` is -1 for `x < 0`, 0 for `x == 0` and 1 for `x > 0`, so
`sgn(-3) == -1`, `sgn(0) == 0`, `sgn(3) == 1`, and the `vec2i`, `vec3i`, `vec4i`
overloads apply it to every component. -/
theorem sgn_int32_spec :
    (∀ x : Int32,
      (x.toInt < 0 → (sgn_int32 x).toInt = -1) ∧
      (x.toInt = 0 → (sgn_int32 x).toInt = 0) ∧
      (0 < x.toInt → (sgn_int32 x).toInt = 1)) ∧
    Scalar.eq (sgn_int32 (Int32.wrap (-3))) (Int32.wrap (-1)) = true ∧
    Scalar.eq (sgn_int32 (Int32.wrap 0)) (Int32.wrap 0) = true ∧
    Scalar.eq (sgn_int32 (Int32.wrap 3)) (Int32.wrap 1) = true ∧
    (∀ v : Vector2 Int32, sgn_vec2i v = ⟨sgn_int32 v.x, sgn_int32 v.y⟩) ∧
    (∀ v : Vector3 Int32, sgn_vec3i v = ⟨sgn_int32 v.x, sgn_int32 v.y, sgn_int32 v.z⟩) ∧
    (∀ v : Vector4 Int32,
      sgn_vec4i v = ⟨sgn_int32 v.x, sgn_int32 v.y, sgn_int32 v.z, sgn_int32 v.w⟩) := by
  refine ⟨fun x => ⟨fun h => ?_, fun h => ?_, fun h => ?_⟩, by decide, by decide, by decide,
    fun v => rfl, fun v => rfl, fun v => rfl⟩
  · have h1 : ¬ (0 < x.toInt) := by omega
    simp only [sgn_int32, h, h1, if_true, if_false]
    rfl
  · have h1 : ¬ (0 < x.toInt) := by omega
    have h2 : ¬ (x.toInt < 0) := by omega
    simp only [sgn_int32, h1, h2, if_false]
    rfl
  · have h2 : ¬ (x.toInt < 0) := by omega
    simp only [sgn_int32, h, h2, if_true, if_false]
    rfl

/-- The three cases at `x = -3`, `x = 0` and `x = 3`. -/
theorem sgn_int32_witness :
    (sgn_int32 (Int32.wrap (-3))).toInt = -1 ∧ (sgn_int32 (Int32.wrap 0)).toInt = 0 ∧
      (sgn_int32 (Int32.wrap 3)).toInt = 1 :=
  ⟨(sgn_int32_spec.1 (Int32.wrap (-3))).1 (by decide),
   (sgn_int32_spec.1 (Int32.wrap 0)).2.1 (by decide),
   (sgn_int32_spec.1 (Int32.wrap 3)).2.2 (by decide)⟩

/-! ## Bit patterns: sgn and abs on floats -/

theorem and_sign_mask (n : Nat) (h : n < 0x100000000) :
    n &&& 0x80000000 = if 0x80000000 ≤ n then 0x80000000 else 0 := by
  have h31 : (0x80000000 : Nat) = 2 ^ 31 := by norm_num
  apply Nat.eq_of_testBit_eq
  intro i
  rw [Nat.testBit_and, h31, Nat.testBit_two_pow]
  by_cases hn : 2 ^ 31 ≤ n
  · simp only [hn, if_true, Nat.testBit_two_pow]
    by_cases hi : 31 = i
    · subst hi
      have : n.testBit 31 = true := by
        rw [Nat.testBit_to_div_mod]
        simp only [decide_eq_true_eq]
        omega
      simp [this]
    · simp [hi]
  · simp only [hn, if_false, Nat.zero_testBit]
    by_cases hi : 31 = i
    · subst hi
      have : n.testBit 31 = false := Nat.testBit_lt_two_pow (by omega)
      simp [this]
    · simp [hi]

theorem and_low_mask (n : Nat) : 0x7FFFFFFF &&& n = n % 0x80000000 := by
  rw [Nat.and_comm]
  exact Nat.and_pow_two_sub_one_eq_mod n 31

/-- The function `sgn(float)` returns `-1.0f` on a set sign bit, `1.0f` otherwise. -/
theorem sgn_float_eq (x : F32) :
    sgn_float x = if x.sign then F32.ofInt (-1) else F32.ofInt 1 := by
  have hm : (F32.neg (F32.zero false)).bits = 0x80000000 := by decide
  have ho : (F32.ofInt 1).bits = 0x3F800000 := by decide!
  simp only [sgn_float, hm, ho, and_sign_mask x.bits x.isLt]
  by_cases hs : 0x80000000 ≤ x.bits
  · have : x.sign = true := (F32.sign_eq_true_iff x).2 hs
    simp only [hs, this, if_true]
    decide!
  · have : x.sign = false := (F32.sign_eq_false_iff x).2 (by omega)
    simp only [hs, this, if_false, Nat.zero_or, Bool.false_eq_true]
    decide!

/-- C15: `sgn(x)` has the bit pattern `0xBF800000` of `-1.0f` when the sign bit
of `x` is set (`-0.0f` included) and the bit pattern `0x3F800000` of `1.0f`
otherwise; the result is never a zero, and `sgn(0.0f) == 1.0f`,
`sgn(-3.5f) == -1.0f`, `sgn(3.5f) == 1.0f`. -/
theorem sgn_float_spec :
    (∀ x : F32,
      (x.sign = true → (sgn_float x).bits = 0xBF800000 ∧ sgn_float x = F32.ofInt (-1)) ∧
      (x.sign = false → (sgn_float x).bits = 0x3F800000 ∧ sgn_float x = F32.ofInt 1) ∧
      (sgn_float x).isZero = false) ∧
    (sgn_float (F32.zero true)).bits = 0xBF800000 ∧
    F32.eq (sgn_float (F32.zero false)) (F32.ofInt 1) = true ∧
    F32.eq (sgn_float (F32.ofDecimal (-35) 1)) (F32.ofInt (-1)) = true ∧
    F32.eq (sgn_float (F32.ofDecimal 35 1)) (F32.ofInt 1) = true := by
  refine ⟨fun x => ⟨fun h => ?_, fun h => ?_, ?_⟩, by decide!, by decide!, by decide!,
    by decide!⟩
  · rw [sgn_float_eq, h]
    exact ⟨by decide!, rfl⟩
  · rw [sgn_float_eq, h]
    exact ⟨by decide!, rfl⟩
  · rw [sgn_float_eq]
    cases x.sign <;> decide!

/-- The two cases at `-3.5f` (sign bit set) and `3.5f` (sign bit clear). -/
theorem sgn_float_witness :
    ((sgn_float (F32.ofDecimal (-35) 1)).bits = 0xBF800000 ∧
      sgn_float (F32.ofDecimal (-35) 1) = F32.ofInt (-1)) ∧
    ((sgn_float (F32.ofDecimal 35 1)).bits = 0x3F800000 ∧
      sgn_float (F32.ofDecimal 35 1) = F32.ofInt 1) :=
  ⟨(sgn_float_spec.1 (F32.ofDecimal (-35) 1)).1 (by decide!),
   (sgn_float_spec.1 (F32.ofDecimal 35 1)).2.1 (by decide!)⟩

theorem fabsf_bits (a : F32) : (fabsf a).bits = a.bits % 0x80000000 := by
  have := a.isLt
  exact F32.ofBits_bits _ (by omega)

/-- Clearing the sign bit keeps the exponent and fraction fields. -/
theorem fabsf_fields (a : F32) :
    (fabsf a).bits = a.bits &&& 0x7FFFFFFF ∧ (fabsf a).sign = false ∧
      (fabsf a).expField = a.expField ∧ (fabsf a).fracField = a.fracField := by
  have hb := fabsf_bits a
  have := a.isLt
  refine ⟨?_, ?_, ?_, ?_⟩
  · rw [hb, Nat.and_comm, and_low_mask]
  · rw [F32.sign_eq_false_iff, hb]; omega
  · simp only [F32.expField, hb]; omega
  · simp only [F32.fracField, hb]; omega

theorem andnot_sign_lane (a : F32) :
    F32.ofBits (((F32.neg (F32.zero false)).bits ^^^ 0xFFFFFFFF) &&& a.bits) = fabsf a := by
  have hm : ((F32.neg (F32.zero false)).bits ^^^ 0xFFFFFFFF) = 0x7FFFFFFF := by decide
  rw [hm, and_low_mask]
  rfl

/-- Both builds of `abs(vec4)` clear the sign bit of every lane. -/
theorem abs_vec4_eq (cfg : Bool) (v : Vector4 F32) :
    abs_vec4 cfg v = ⟨fabsf v.x, fabsf v.y, fabsf v.z, fabsf v.w⟩ := by
  cases cfg
  · simp only [abs_vec4, Bool.false_eq_true, if_false, _mm_store_ps, _mm_andnot_ps,
      _mm_load_ps, _mm_set1_ps, andnot_sign_lane]
  · simp [abs_vec4, abs_float]

/-- C16: in both builds (SSE and scalar) `abs(vec4)` returns in each lane the
bits of the input lane AND `0x7FFFFFFF`: the sign bit is cleared, the exponent
and fraction fields are unchanged, so a NaN stays a NaN with its payload. -/
theorem abs_vec4_clears_sign_bit :
    ∀ (SFZ_CUDA_DEVICE_CODE : Bool) (v : Vector4 F32),
      ((abs_vec4 SFZ_CUDA_DEVICE_CODE v).x.bits = v.x.bits &&& 0x7FFFFFFF ∧
        (abs_vec4 SFZ_CUDA_DEVICE_CODE v).x.sign = false ∧
        (abs_vec4 SFZ_CUDA_DEVICE_CODE v).x.expField = v.x.expField ∧
        (abs_vec4 SFZ_CUDA_DEVICE_CODE v).x.fracField = v.x.fracField) ∧
      ((abs_vec4 SFZ_CUDA_DEVICE_CODE v).y.bits = v.y.bits &&& 0x7FFFFFFF ∧
        (abs_vec4 SFZ_CUDA_DEVICE_CODE v).y.sign = false ∧
        (abs_vec4 SFZ_CUDA_DEVICE_CODE v).y.expField = v.y.expField ∧
        (abs_vec4 SFZ_CUDA_DEVICE_CODE v).y.fracField = v.y.fracField) ∧
      ((abs_vec4 SFZ_CUDA_DEVICE_CODE v).z.bits = v.z.bits &&& 0x7FFFFFFF ∧
        (abs_vec4 SFZ_CUDA_DEVICE_CODE v).z.sign = false ∧
        (abs_vec4 SFZ_CUDA_DEVICE_CODE v).z.expField = v.z.expField ∧
        (abs_vec4 SFZ_CUDA_DEVICE_CODE v).z.fracField = v.z.fracField) ∧
      ((abs_vec4 SFZ_CUDA_DEVICE_CODE v).w.bits = v.w.bits &&& 0x7FFFFFFF ∧
        (abs_vec4 SFZ_CUDA_DEVICE_CODE v).w.sign = false ∧
        (abs_vec4 SFZ_CUDA_DEVICE_CODE v).w.expField = v.w.expField ∧
        (abs_vec4 SFZ_CUDA_DEVICE_CODE v).w.fracField = v.w.fracField) ∧
      (abs_vec4 SFZ_CUDA_DEVICE_CODE v).x.isNaN = v.x.isNaN ∧
      (abs_vec4 SFZ_CUDA_DEVICE_CODE v).y.isNaN = v.y.isNaN ∧
      (abs_vec4 SFZ_CUDA_DEVICE_CODE v).z.isNaN = v.z.isNaN ∧
      (abs_vec4 SFZ_CUDA_DEVICE_CODE v).w.isNaN = v.w.isNaN := by
  intro cfg v
  rw [abs_vec4_eq]
  have hx := fabsf_fields v.x
  have hy := fabsf_fields v.y
  have hz := fabsf_fields v.z
  have hw := fabsf_fields v.w
  refine ⟨hx, hy, hz, hw, ?_, ?_, ?_, ?_⟩
  · simp only [F32.isNaN, hx.2.2.1, hx.2.2.2]
  · simp only [F32.isNaN, hy.2.2.1, hy.2.2.2]
  · simp only [F32.isNaN, hz.2.2.1, hz.2.2.2]
  · simp only [F32.isNaN, hw.2.2.1, hw.2.2.2]

/-- C18: the SSE build of `sgn(vec4)` returns bit for bit the vector of the
scalar build, which applies `sgn(float)` to `x`, `y`, `z` and `w`. -/
theorem sgn_vec4_paths_agree :
    ∀ v : Vector4 F32,
      sgn_vec4 false v = sgn_vec4 true v ∧
      sgn_vec4 true v = ⟨sgn_float v.x, sgn_float v.y, sgn_float v.z, sgn_float v.w⟩ ∧
      (sgn_vec4 false v).x.bits = (sgn_float v.x).bits ∧
      (sgn_vec4 false v).y.bits = (sgn_float v.y).bits ∧
      (sgn_vec4 false v).z.bits = (sgn_float v.z).bits ∧
      (sgn_vec4 false v).w.bits = (sgn_float v.w).bits := by
  intro v
  have h : sgn_vec4 false v = sgn_vec4 true v := by
    simp only [sgn_vec4, Bool.false_eq_true, if_false, if_true, _mm_store_ps, _mm_or_ps,
      _mm_and_ps, _mm_load_ps, _mm_set1_ps, sgn_float]
    rw [Nat.or_comm _ (_ &&& v.x.bits), Nat.or_comm _ (_ &&& v.y.bits),
      Nat.or_comm _ (_ &&& v.z.bits), Nat.or_comm _ (_ &&& v.w.bits),
      Nat.and_comm _ v.x.bits, Nat.and_comm _ v.y.bits, Nat.and_comm _ v.z.bits,
      Nat.and_comm _ v.w.bits]
  refine ⟨h, rfl, ?_, ?_, ?_, ?_⟩ <;> rw [h] <;> rfl

/-! ## approxEqual -/

theorem Vector.approxEqualLoop_iff {N : Nat} [OrdScalar T] (lhs rhs : Vector T N) (epsilon : T)
    (is : List (Fin N)) :
    Vector.approxEqualLoop lhs rhs epsilon is = true
      ↔ ∀ i ∈ is, sfz.approxEqual (lhs.elements i) (rhs.elements i) epsilon = true := by
  induction is with
  | nil => simp [Vector.approxEqualLoop]
  | cons i is ih =>
    simp only [Vector.approxEqualLoop, List.mem_cons, forall_eq_or_imp]
    by_cases h : sfz.approxEqual (lhs.elements i) (rhs.elements i) epsilon = true
    · simp [h, ih]
    · simp [h]

/-- The vector `approxEqual` holds exactly when every component passes the
scalar `approxEqual`. -/
theorem Vector.approxEqual_iff {N : Nat} [OrdScalar T] (lhs rhs : Vector T N) (epsilon : T) :
    Vector.approxEqual lhs rhs epsilon = true
      ↔ ∀ i : Fin N, sfz.approxEqual (lhs.elements i) (rhs.elements i) epsilon = true := by
  unfold Vector.approxEqual
  rw [Vector.approxEqualLoop_iff]
  simp

theorem approxEqual_iff_le [OrdScalar T] (lhs rhs epsilon : T) :
    approxEqual lhs rhs epsilon = true
      ↔ (OrdScalar.le lhs (rhs + epsilon) = true ∧ OrdScalar.le (rhs - epsilon) lhs = true) := by
  simp [approxEqual, OrdScalar.ge]

/-- On `int32_t`, when `rhs + epsilon` and `rhs - epsilon` do not overflow, the
scalar test is `|lhs - rhs| ≤ epsilon`. -/
theorem Int32.approxEqual_iff_abs_int (lhs rhs epsilon : Int32)
    (h1 : rhs.toInt + epsilon.toInt < 2147483648) (h2 : -2147483648 ≤ rhs.toInt + epsilon.toInt)
    (h3 : rhs.toInt - epsilon.toInt < 2147483648)
    (h4 : -2147483648 ≤ rhs.toInt - epsilon.toInt) :
    approxEqual lhs rhs epsilon = true ↔ |lhs.toInt - rhs.toInt| ≤ epsilon.toInt := by
  rw [approxEqual_iff_le]
  have ha : (rhs + epsilon).toInt = rhs.toInt + epsilon.toInt := by
    show (rhs.toInt + epsilon.toInt + 2147483648) % 4294967296 - 2147483648 = _
    omega
  have hs : (rhs - epsilon).toInt = rhs.toInt - epsilon.toInt := by
    show (rhs.toInt - epsilon.toInt + 2147483648) % 4294967296 - 2147483648 = _
    omega
  show (decide (lhs.toInt ≤ (rhs + epsilon).toInt) = true
    ∧ decide ((rhs - epsilon).toInt ≤ lhs.toInt) = true) ↔ _
  rw [ha, hs, abs_le]
  simp only [decide_eq_true_eq]
  constructor
  · rintro ⟨h, h'⟩; exact ⟨by omega, by omega⟩
  · rintro ⟨h, h'⟩; exact ⟨by omega, by omega⟩

theorem F32.ext_of_finite {a : F32} (h : a.isFinite = true) : a.ext = a.sval := by
  simp only [F32.isFinite, bne_iff_ne, ne_eq] at h
  simp [F32.ext, F32.isInf_false_of h]

theorem F32.le_iff_of_finite {a b : F32} (ha : a.isFinite = true) (hb : b.isFinite = true) :
    F32.le a b = true ↔ a.sval ≤ b.sval := by
  have ha' := ha
  have hb' := hb
  simp only [F32.isFinite, bne_iff_ne, ne_eq] at ha' hb'
  simp [F32.le, F32.ext_of_finite ha, F32.ext_of_finite hb, F32.isNaN_false_of ha',
    F32.isNaN_false_of hb']

/-- On floats, for a finite `lhs` and when `rhs + epsilon` and `rhs - epsilon`
are finite and free of rounding error, the scalar test is
`|lhs - rhs| ≤ epsilon` on the exact values. -/
theorem F32.approxEqual_iff_abs_float (lhs rhs epsilon : F32) (hl : lhs.isFinite = true)
    (h1 : F32.addExact rhs epsilon = true) (h2 : F32.addExact rhs (F32.neg epsilon) = true) :
    approxEqual lhs rhs epsilon = true ↔ |lhs.sval - rhs.sval| ≤ epsilon.sval := by
  rw [approxEqual_iff_le]
  simp only [F32.addExact, Bool.and_eq_true, decide_eq_true_eq] at h1 h2
  obtain ⟨⟨⟨-, -⟩, hf1⟩, hx1⟩ := h1
  obtain ⟨⟨⟨-, -⟩, hf2⟩, hx2⟩ := h2
  rw [F32.sval_neg] at hx2
  show (F32.le lhs (F32.add rhs epsilon) = true
    ∧ F32.le (F32.add rhs (F32.neg epsilon)) lhs = true) ↔ _
  rw [F32.le_iff_of_finite hl hf1, F32.le_iff_of_finite hf2 hl, hx1, hx2, abs_le]
  constructor
  · rintro ⟨h, h'⟩; exact ⟨by omega, by omega⟩
  · rintro ⟨h, h'⟩; exact ⟨by omega, by omega⟩

/-- C13, as stated, fails for floats: with `a = (16777220, ...)`,
`b = (16777216, ...)` and `epsilon = 3` the sum `b[i] + epsilon = 16777219`
rounds to `16777220`, so every component passes `a[i] <= b[i] + epsilon` and
`a[i] >= b[i] - epsilon` and `approxEqual` is true, while `|a[i] - b[i]| = 4`
exceeds `epsilon`, on the exact values and as the float `abs(a[i] - b[i])`. -/
theorem approxEqual_counterexample :
    Vector3.approxEqual (Vector3.ofValue (F32.ofInt 16777220))
      (Vector3.ofValue (F32.ofInt 16777216)) (F32.ofInt 3) = true ∧
    ¬ (|(F32.ofInt 16777220).sval - (F32.ofInt 16777216).sval| ≤ (F32.ofInt 3).sval) ∧
    F32.le (abs_float false (F32.ofInt 16777220 - F32.ofInt 16777216)) (F32.ofInt 3)
      = false := by
  refine ⟨by decide!, by decide!, by decide!⟩

/-- C13, amended: `approxEqual(a, b, epsilon)` is true exactly when every
component passes `a[i] <= b[i] + epsilon && a[i] >= b[i] - epsilon`, evaluated
in the arithmetic of the element type. That test is `|a[i] - b[i]| ≤ epsilon`
on `int32_t` when `b[i] ± epsilon` do not overflow, and on floats when `a[i]` is
finite and `b[i] ± epsilon` are finite and free of rounding error.
`approxEqual((1,1,1), (1.0001,1.0001,1.0001), 0.001)` is true and with
`epsilon = 0.00001` it is false. -/
theorem approxEqual_spec :
    (∀ (T : Type) [OrdScalar T] (N : Nat) (a b : Vector T N) (epsilon : T),
      Vector.approxEqual a b epsilon = true
        ↔ ∀ i : Fin N, (OrdScalar.le (a.elements i) (b.elements i + epsilon) = true ∧
            OrdScalar.ge (a.elements i) (b.elements i - epsilon) = true)) ∧
    (∀ (T : Type) [OrdScalar T] (a b : Vector3 T) (epsilon : T),
      Vector3.approxEqual a b epsilon = true
        ↔ ∀ i : Fin 3, (OrdScalar.le (a.get i) (b.get i + epsilon) = true ∧
            OrdScalar.ge (a.get i) (b.get i - epsilon) = true)) ∧
    (∀ lhs rhs epsilon : Int32,
      rhs.toInt + epsilon.toInt < 2147483648 → -2147483648 ≤ rhs.toInt + epsilon.toInt →
      rhs.toInt - epsilon.toInt < 2147483648 → -2147483648 ≤ rhs.toInt - epsilon.toInt →
      (approxEqual lhs rhs epsilon = true ↔ |lhs.toInt - rhs.toInt| ≤ epsilon.toInt)) ∧
    (∀ lhs rhs epsilon : F32, lhs.isFinite = true →
      F32.addExact rhs epsilon = true → F32.addExact rhs (F32.neg epsilon) = true →
      (approxEqual lhs rhs epsilon = true ↔ |lhs.sval - rhs.sval| ≤ epsilon.sval)) ∧
    Vector3.approxEqual (Vector3.mk (F32.ofInt 1) (F32.ofInt 1) (F32.ofInt 1))
      (Vector3.mk (F32.ofDecimal 10001 4) (F32.ofDecimal 10001 4) (F32.ofDecimal 10001 4))
      (F32.ofDecimal 1 3) = true ∧
    Vector3.approxEqual (Vector3.mk (F32.ofInt 1) (F32.ofInt 1) (F32.ofInt 1))
      (Vector3.mk (F32.ofDecimal 10001 4) (F32.ofDecimal 10001 4) (F32.ofDecimal 10001 4))
      (F32.ofDecimal 1 5) = false := by
  refine ⟨fun T _ N a b epsilon => ?_, fun T _ a b epsilon => ?_, Int32.approxEqual_iff_abs_int,
    F32.approxEqual_iff_abs_float, by decide!, by decide!⟩
  · rw [Vector.approxEqual_iff]
    simp only [approxEqual_iff_le, OrdScalar.ge]
  · unfold Vector3.approxEqual
    rw [Vector.approxEqual_iff]
    simp only [approxEqual_iff_le, OrdScalar.ge]
    rfl

/-- The parts with hypotheses at `lhs = 5`, `rhs = 7`, `epsilon = 2`, as
`int32_t` and as floats: the test holds and `|5 - 7| ≤ 2`. -/
theorem approxEqual_witness :
    (approxEqual (Int32.wrap 5) (Int32.wrap 7) (Int32.wrap 2) = true
      ↔ |(Int32.wrap 5).toInt - (Int32.wrap 7).toInt| ≤ (Int32.wrap 2).toInt) ∧
    (approxEqual (F32.ofInt 5) (F32.ofInt 7) (F32.ofInt 2) = true
      ↔ |(F32.ofInt 5).sval - (F32.ofInt 7).sval| ≤ (F32.ofInt 2).sval) :=
  ⟨approxEqual_spec.2.2.1 (Int32.wrap 5) (Int32.wrap 7) (Int32.wrap 2) (by decide) (by decide)
     (by decide) (by decide),
   approxEqual_spec.2.2.2.1 (F32.ofInt 5) (F32.ofInt 7) (F32.ofInt 2) (by decide!) (by decide!)
     (by decide!)⟩

/-! ## abs on `int32_t` -/

theorem abs_int32_device (fuel : Nat) (x : Int32) : abs_int32 true fuel x = none := by
  induction fuel with
  | zero => rfl
  | succ n ih => simpa [abs_int32] using ih

theorem abs_int32_host (fuel : Nat) (x : Int32) :
    abs_int32 false (fuel + 1) x = some (std_abs x) := by
  simp [abs_int32]

theorem std_abs_neg (x : Int32) : std_abs (Int32.wrap (-x.toInt)) = std_abs x := by
  have h1 := x.lo
  have h2 := x.hi
  apply Int32.ext_toInt
  show ((if (Int32.wrap (-x.toInt)).toInt < 0 then -(Int32.wrap (-x.toInt)).toInt
      else (Int32.wrap (-x.toInt)).toInt) + 2147483648) % 4294967296 - 2147483648
    = ((if x.toInt < 0 then -x.toInt else x.toInt) + 2147483648) % 4294967296 - 2147483648
  have hw : (Int32.wrap (-x.toInt)).toInt
      = (-x.toInt + 2147483648) % 4294967296 - 2147483648 := rfl
  rw [hw]
  split <;> split <;> omega

theorem mul_negOne_int (x : Int32) : x * (Scalar.negOne : Int32) = Int32.wrap (-x.toInt) := by
  show Int32.wrap (x.toInt * (Int32.wrap (-1)).toInt) = _
  have : (Int32.wrap (-1)).toInt = -1 := by decide
  rw [this]
  congr 1
  omega

theorem pabsdLane_toBits (a : Int32) : Int32.ofBits (pabsdLane a.toBits) = std_abs a := by
  have h1 := a.lo
  have h2 := a.hi
  apply Int32.ext_toInt
  show (((pabsdLane a.toBits : Nat) : Int) + 2147483648) % 4294967296 - 2147483648
    = ((if a.toInt < 0 then -a.toInt else a.toInt) + 2147483648) % 4294967296 - 2147483648
  by_cases hneg : a.toInt < 0
  · have hb : ((a.toBits : Nat) : Int) = a.toInt + 4294967296 := by
      simp only [Int32.toBits]; omega
    have hge : 0x80000000 ≤ a.toBits := by omega
    simp only [pabsdLane, hge, if_true, hneg]
    omega
  · have hb : ((a.toBits : Nat) : Int) = a.toInt := by
      simp only [Int32.toBits]; omega
    have hlt : ¬ 0x80000000 ≤ a.toBits := by omega
    simp only [pabsdLane, hlt, if_false, hneg]
    omega

/-- C17: in the host build `abs(x)` and `abs(-x)` return the same value for
every `int32_t` (`INT32_MIN` is its own negation and absolute value), and so do
`abs(v)` and `abs(-v)` for `vec2i`, `vec3i`, `vec4i`; under
`SFZ_CUDA_DEVICE_CODE` the function `abs(int32_t)` calls itself and no amount of
fuel makes it, or the vector overloads, return. -/
theorem abs_int32_neg_spec :
    (∀ (fuel : Nat) (x : Int32),
      abs_int32 false (fuel + 1) x = some (std_abs x) ∧
      abs_int32 false (fuel + 1) (Int32.wrap (-x.toInt)) = abs_int32 false (fuel + 1) x) ∧
    (∀ (fuel : Nat) (v : Vector2 Int32),
      abs_vec2i false (fuel + 1) v = some ⟨std_abs v.x, std_abs v.y⟩ ∧
      abs_vec2i false (fuel + 1) (Vector2.opNeg v) = abs_vec2i false (fuel + 1) v) ∧
    (∀ (fuel : Nat) (v : Vector3 Int32),
      abs_vec3i false (fuel + 1) v = some ⟨std_abs v.x, std_abs v.y, std_abs v.z⟩ ∧
      abs_vec3i false (fuel + 1) (Vector3.opNeg v) = abs_vec3i false (fuel + 1) v) ∧
    (∀ (fuel : Nat) (v : Vector4 Int32),
      abs_vec4i false fuel v = some ⟨std_abs v.x, std_abs v.y, std_abs v.z, std_abs v.w⟩ ∧
      abs_vec4i false fuel (Vector4.opNeg v) = abs_vec4i false fuel v) ∧
    (∀ (fuel : Nat) (x : Int32), abs_int32 true fuel x = none) ∧
    (∀ (fuel : Nat) (v : Vector2 Int32), abs_vec2i true fuel v = none) ∧
    (∀ (fuel : Nat) (v : Vector3 Int32), abs_vec3i true fuel v = none) ∧
    (∀ (fuel : Nat) (v : Vector4 Int32), abs_vec4i true fuel v = none) := by
  have h4 : ∀ (fuel : Nat) (v : Vector4 Int32),
      abs_vec4i false fuel v = some ⟨std_abs v.x, std_abs v.y, std_abs v.z, std_abs v.w⟩ := by
    intro fuel v
    simp only [abs_vec4i, Bool.false_eq_true, if_false, _mm_store_si128, _mm_abs_epi32,
      _mm_load_si128, pabsdLane_toBits]
  refine ⟨fun fuel x => ⟨abs_int32_host fuel x, ?_⟩, fun fuel v => ?_, fun fuel v => ?_,
    fun fuel v => ⟨h4 fuel v, ?_⟩, abs_int32_device, fun fuel v => ?_, fun fuel v => ?_,
    fun fuel v => ?_⟩
  · rw [abs_int32_host, abs_int32_host, std_abs_neg]
  · simp [abs_vec2i, abs_int32_host, Vector2.opNeg, Vector2.opMulAssign, mul_negOne_int,
      std_abs_neg]
  · simp [abs_vec3i, abs_int32_host, Vector3.opNeg, Vector3.opMulAssign, mul_negOne_int,
      std_abs_neg]
  · rw [h4, h4]
    simp [Vector4.opNeg, Vector4.opMulAssign, mul_negOne_int, std_abs_neg]
  · simp [abs_vec2i, abs_int32_device]
  · simp [abs_vec3i, abs_int32_device]
  · simp [abs_vec4i, abs_int32_device]

/-- C19: the SSE build of `abs(vec4i)` returns the absolute value of each lane,
`std::abs` of `x`, `y`, `z` and `w`; the scalar build, compiled under
`SFZ_CUDA_DEVICE_CODE`, applies `sfz::abs(int32_t)` to `x` first, which there
calls itself, and never returns: for `v = (1, -2, 3, -4)` the SSE build gives
`(1, 2, 3, 4)` and the scalar build gives nothing, whatever the fuel. -/
theorem abs_vec4i_paths :
    (∀ (fuel : Nat) (v : Vector4 Int32),
      abs_vec4i false fuel v = some ⟨std_abs v.x, std_abs v.y, std_abs v.z, std_abs v.w⟩) ∧
    (∀ (fuel : Nat) (v : Vector4 Int32), abs_vec4i true fuel v = none) ∧
    abs_vec4i false 0 ⟨Int32.wrap 1, Int32.wrap (-2), Int32.wrap 3, Int32.wrap (-4)⟩
      = some ⟨Int32.wrap 1, Int32.wrap 2, Int32.wrap 3, Int32.wrap 4⟩ ∧
    (∀ fuel : Nat,
      abs_vec4i true fuel ⟨Int32.wrap 1, Int32.wrap (-2), Int32.wrap 3, Int32.wrap (-4)⟩
        = none) := by
  have hd : ∀ (fuel : Nat) (v : Vector4 Int32), abs_vec4i true fuel v = none := by
    intro fuel v
    simp [abs_vec4i, abs_int32_device]
  refine ⟨fun fuel v => ?_, hd, by decide, fun fuel => hd fuel _⟩
  simp only [abs_vec4i, Bool.false_eq_true, if_false, _mm_store_si128, _mm_abs_epi32,
    _mm_load_si128, pabsdLane_toBits]

/-! ## Scalar by vector division, elementSum and the composing constructors -/

/-- C21: for N = 2, 3, 4 and every element type, `s / v` is the broadcast
vector `Vector(s)` divided element-wise by `v` with `/=`, and its `i`-th
component is `s / v[i]` for every index `i`. -/
theorem scalar_div_vector_components :
    (∀ (T : Type) [Scalar T] (s : T) (v : Vector2 T),
      Vector2.opDivScalarVec s v = Vector2.opDivAssignVec (Vector2.ofValue s) v ∧
      (∀ i : Fin 2, (Vector2.ofValue s).get i = s) ∧
      (∀ i : Fin 2, (Vector2.opDivScalarVec s v).get i = s / v.get i)) ∧
    (∀ (T : Type) [Scalar T] (s : T) (v : Vector3 T),
      Vector3.opDivScalarVec s v = Vector3.opDivAssignVec (Vector3.ofValue s) v ∧
      (∀ i : Fin 3, (Vector3.ofValue s).get i = s) ∧
      (∀ i : Fin 3, (Vector3.opDivScalarVec s v).get i = s / v.get i)) ∧
    (∀ (T : Type) [Scalar T] (s : T) (v : Vector4 T),
      Vector4.opDivScalarVec s v = Vector4.opDivAssignVec (Vector4.ofValue s) v ∧
      (∀ i : Fin 4, (Vector4.ofValue s).get i = s) ∧
      (∀ i : Fin 4, (Vector4.opDivScalarVec s v).get i = s / v.get i)) := by
  refine ⟨fun T _ s v => ⟨rfl, fun i => ?_, fun i => ?_⟩,
    fun T _ s v => ⟨rfl, fun i => ?_, fun i => ?_⟩,
    fun T _ s v => ⟨rfl, fun i => ?_, fun i => ?_⟩⟩ <;> fin_cases i <;> rfl

theorem Vector.elementSum_two [Scalar T] (v : Vector T 2) :
    v.elementSum = Scalar.zero + v.elements 0 + v.elements 1 := rfl

theorem Vector.elementSum_three [Scalar T] (v : Vector T 3) :
    v.elementSum = Scalar.zero + v.elements 0 + v.elements 1 + v.elements 2 := rfl

theorem Vector.elementSum_four [Scalar T] (v : Vector T 4) :
    v.elementSum = Scalar.zero + v.elements 0 + v.elements 1 + v.elements 2 + v.elements 3 :=
  rfl

/-- C22: for N = 2, 3, 4 the unrolled `elementSum` (`x + y [+ z [+ w]]`, added
left to right) returns the value of the generic loop `elementSum` (accumulator
started at `T(0)`, adding `v[i]` for `i = 0 .. N-1`): the very same `int32_t`
for integer vectors, and for float vectors the same value (both NaN, or equal
under `==`; the loop turns a `-0.0f` result into `+0.0f`). -/
theorem elementSum_unrolled_eq_loop :
    (∀ v : Vector2 Int32, Vector2.elementSum v = Vector.elementSum v.toVector) ∧
    (∀ v : Vector3 Int32, Vector3.elementSum v = Vector.elementSum v.toVector) ∧
    (∀ v : Vector4 Int32, Vector4.elementSum v = Vector.elementSum v.toVector) ∧
    (∀ v : Vector2 F32,
      F32.sameValue (Vector2.elementSum v) (Vector.elementSum v.toVector) = true) ∧
    (∀ v : Vector3 F32,
      F32.sameValue (Vector3.elementSum v) (Vector.elementSum v.toVector) = true) ∧
    (∀ v : Vector4 F32,
      F32.sameValue (Vector4.elementSum v) (Vector.elementSum v.toVector) = true) ∧
    (∀ (T : Type) [Scalar T] (v : Vector4 T),
      Vector4.elementSum v = v.get 0 + v.get 1 + v.get 2 + v.get 3 ∧
      Vector.elementSum v.toVector = Scalar.zero + v.get 0 + v.get 1 + v.get 2 + v.get 3) := by
  refine ⟨fun v => ?_, fun v => ?_, fun v => ?_, fun v => ?_, fun v => ?_, fun v => ?_,
    fun T _ v => ⟨rfl, rfl⟩⟩
  · rw [Vector.elementSum_two]
    show _ = Scalar.zero + v.x + v.y
    rw [Int32.zero_add_int]; rfl
  · rw [Vector.elementSum_three]
    show _ = Scalar.zero + v.x + v.y + v.z
    rw [Int32.zero_add_int]; rfl
  · rw [Vector.elementSum_four]
    show _ = Scalar.zero + v.x + v.y + v.z + v.w
    rw [Int32.zero_add_int]; rfl
  · rw [Vector.elementSum_two]
    apply F32.sameValue_symm
    exact F32.add_congr_left _ (F32.zero_add _)
  · rw [Vector.elementSum_three]
    apply F32.sameValue_symm
    exact F32.add_congr_left _ (F32.add_congr_left _ (F32.zero_add _))
  · rw [Vector.elementSum_four]
    apply F32.sameValue_symm
    exact F32.add_congr_left _ (F32.add_congr_left _ (F32.add_congr_left _ (F32.zero_add _)))

/-- The one difference between the two float sums: on `v = (-0.0f, -0.0f)` the
unrolled form returns `-0.0f` (`0x80000000`) and the loop, which starts from
`+0.0f`, returns `+0.0f`. -/
theorem elementSum_negative_zero_example :
    (Vector2.elementSum (Vector2.mk (F32.zero true) (F32.zero true))).bits = 0x80000000 ∧
    (Vector.elementSum (Vector2.toVector (Vector2.mk (F32.zero true) (F32.zero true)))).bits
      = 0 := by
  decide!

/-- C23: the named fields are read in index order (`v[0]` is `x`, `v[1]` is
`y`, `v[2]` is `z`, `v[3]` is `w`), and each composing constructor of the 3-wide
and 4-wide vector builds the vector of its arguments' components in the order
they are written. -/
theorem ctor_concatenates :
    ∀ (T : Type),
    (∀ x y z w : T,
      (Vector4.mk x y z w).get 0 = x ∧ (Vector4.mk x y z w).get 1 = y ∧
      (Vector4.mk x y z w).get 2 = z ∧ (Vector4.mk x y z w).get 3 = w) ∧
    (∀ x y z : T,
      (Vector3.mk x y z).get 0 = x ∧ (Vector3.mk x y z).get 1 = y ∧
      (Vector3.mk x y z).get 2 = z) ∧
    (∀ x y : T, (Vector2.mk x y).get 0 = x ∧ (Vector2.mk x y).get 1 = y) ∧
    (∀ (xy : Vector2 T) (z : T), Vector3.ofXyZ xy z = Vector3.mk (xy.get 0) (xy.get 1) z) ∧
    (∀ (x : T) (yz : Vector2 T), Vector3.ofXYz x yz = Vector3.mk x (yz.get 0) (yz.get 1)) ∧
    (∀ (xyz : Vector3 T) (w : T),
      Vector4.ofXyzW xyz w = Vector4.mk (xyz.get 0) (xyz.get 1) (xyz.get 2) w) ∧
    (∀ (x : T) (yzw : Vector3 T),
      Vector4.ofXYzw x yzw = Vector4.mk x (yzw.get 0) (yzw.get 1) (yzw.get 2)) ∧
    (∀ xy zw : Vector2 T,
      Vector4.ofXyZw xy zw = Vector4.mk (xy.get 0) (xy.get 1) (zw.get 0) (zw.get 1)) ∧
    (∀ (xy : Vector2 T) (z w : T),
      Vector4.ofXyZW xy z w = Vector4.mk (xy.get 0) (xy.get 1) z w) ∧
    (∀ (x : T) (yz : Vector2 T) (w : T),
      Vector4.ofXYzW x yz w = Vector4.mk x (yz.get 0) (yz.get 1) w) ∧
    (∀ (x y : T) (zw : Vector2 T),
      Vector4.ofXYZw x y zw = Vector4.mk x y (zw.get 0) (zw.get 1)) := by
  intro T
  refine ⟨fun x y z w => ⟨rfl, rfl, rfl, rfl⟩, fun x y z => ⟨rfl, rfl, rfl⟩,
    fun x y => ⟨rfl, rfl⟩, fun _ _ => rfl, fun _ _ => rfl, fun _ _ => rfl, fun _ _ => rfl,
    fun _ _ => rfl, fun _ _ _ => rfl, fun _ _ _ => rfl, fun _ _ _ => rfl⟩

/-! ## Cross product of integer vectors, and sgn times abs -/

/-- C28: for 3-wide `int32_t` vectors, with wrap-around arithmetic,
`dot(cross(a,b), a) == 0` and `dot(cross(a,b), b) == 0`. -/
theorem cross_orthogonal_int :
    ∀ a b : Vector3 Int32,
      Scalar.eq (Vector3.dot (Vector3.cross a b) a) (Int32.wrap 0) = true ∧
      Scalar.eq (Vector3.dot (Vector3.cross a b) b) (Int32.wrap 0) = true := by
  intro a b
  have h0 : Int32.wrap 0 = (Scalar.zero : Int32) := rfl
  rw [h0, Int32.scalar_eq_iff, Int32.scalar_eq_iff]
  constructor <;>
  · apply Int32.eq_of_cast_eq
    simp only [Vector3.dot, Vector3.cross, Int32.cast_add, Int32.cast_sub, Int32.cast_mul,
      Int32.cast_zero]
    ring

/-- The product `sgn(x) * abs(x)`, with the absolute value of the library. -/
theorem sgn_mul_std_abs (x : Int32) : sgn_int32 x * std_abs x = x := by
  have h1 := x.lo
  have h2 := x.hi
  apply Int32.ext_toInt
  show ((sgn_int32 x).toInt * (std_abs x).toInt + 2147483648) % 4294967296 - 2147483648
    = x.toInt
  rcases lt_trichotomy x.toInt 0 with h | h | h
  · have hs : (sgn_int32 x).toInt = -1 := by
      have h3 : ¬ (0 < x.toInt) := by omega
      simp only [sgn_int32, h, h3, if_true, if_false]
      rfl
    have ha : (std_abs x).toInt = (-x.toInt + 2147483648) % 4294967296 - 2147483648 := by
      simp only [std_abs, h, if_true]
      rfl
    rw [hs, ha]
    omega
  · have hs : (sgn_int32 x).toInt = 0 := by
      have h3 : ¬ (0 < x.toInt) := by omega
      have h4 : ¬ (x.toInt < 0) := by omega
      simp only [sgn_int32, h3, h4, if_false]
      rfl
    rw [hs]
    omega
  · have hs : (sgn_int32 x).toInt = 1 := by
      have h4 : ¬ (x.toInt < 0) := by omega
      simp only [sgn_int32, h, h4, if_true, if_false]
      rfl
    have ha : (std_abs x).toInt = (x.toInt + 2147483648) % 4294967296 - 2147483648 := by
      have h4 : ¬ (x.toInt < 0) := by omega
      simp only [std_abs, h4, if_false]
      rfl
    rw [hs, ha]
    omega

/-- C29: in the host build `abs(x)` returns and `sgn(x) * abs(x) == x` for
every `int32_t` (with wrap-around, `INT32_MIN` included), and for every `x`
other than `-2^31`, `abs(x) >= 0` and `abs(x)` is `x` or `-x`; under
`SFZ_CUDA_DEVICE_CODE` the function `abs(int32_t)` calls itself and returns for
no amount of fuel, so there the product has no value. -/
theorem sgn_mul_abs_int32 :
    (∀ (fuel : Nat) (x : Int32),
      ∃ a : Int32, abs_int32 false (fuel + 1) x = some a ∧
        Scalar.eq (sgn_int32 x * a) x = true ∧
        (x.toInt ≠ -2147483648 →
          0 ≤ a.toInt ∧ (a.toInt = x.toInt ∨ a.toInt = -x.toInt))) ∧
    (∀ (fuel : Nat) (x : Int32), abs_int32 true fuel x = none) ∧
    (∀ fuel : Nat, abs_int32 true fuel (Int32.wrap (-5)) = none) ∧
    abs_int32 false 1 (Int32.wrap (-5)) = some (Int32.wrap 5) := by
  refine ⟨fun fuel x => ⟨std_abs x, abs_int32_host fuel x, ?_, fun hx => ?_⟩,
    abs_int32_device, fun fuel => abs_int32_device fuel _, by decide⟩
  · rw [Int32.scalar_eq_iff]
    exact sgn_mul_std_abs x
  · have h1 := x.lo
    have h2 := x.hi
    have ha : (std_abs x).toInt
        = ((if x.toInt < 0 then -x.toInt else x.toInt) + 2147483648) % 4294967296
          - 2147483648 := rfl
    rw [ha]
    split <;> omega

/-! ## Quaternion conjugate -/

/-- C26: `conjugate(q)` of `q = (x,y,z,w)` is `(-x,-y,-z,w)`: each imaginary
component has its sign flipped and the real part is kept, bit for bit, so no
normalisation takes place (`conjugate(1,2,3,4)` is `(-1,-2,-3,4)`), and the
conjugate of the conjugate is `q` again. When no imaginary component is NaN the
imaginary part is the vector `-v`. -/
theorem conjugate_spec :
    (∀ q : Quaternion,
      Quaternion.conjugate q
        = Quaternion.ofXYZW (F32.neg q.x) (F32.neg q.y) (F32.neg q.z) q.w ∧
      (Quaternion.conjugate q).w = q.w ∧
      Quaternion.conjugate (Quaternion.conjugate q) = q ∧
      (q.x.isNaN = false → q.y.isNaN = false → q.z.isNaN = false →
        Quaternion.conjugate q = Quaternion.ofVW (Vector3.opNeg q.v) q.w)) ∧
    Quaternion.conjugate
        (Quaternion.ofXYZW (F32.ofInt 1) (F32.ofInt 2) (F32.ofInt 3) (F32.ofInt 4))
      = Quaternion.ofXYZW (F32.ofInt (-1)) (F32.ofInt (-2)) (F32.ofInt (-3)) (F32.ofInt 4) := by
  refine ⟨fun q => ⟨rfl, rfl, ?_, fun hx hy hz => ?_⟩, by decide!⟩
  · obtain ⟨⟨x, y, z, w⟩⟩ := q
    simp only [Quaternion.conjugate, Quaternion.ofXYZW, Quaternion.x, Quaternion.y,
      Quaternion.z, Quaternion.w, F32.neg_neg]
  · obtain ⟨⟨x, y, z, w⟩⟩ := q
    simp only [Quaternion.x, Quaternion.y, Quaternion.z] at hx hy hz
    simp only [Quaternion.conjugate, Quaternion.ofXYZW, Quaternion.ofVW, Vector4.ofXyzW,
      Quaternion.x, Quaternion.y, Quaternion.z, Quaternion.w, Quaternion.v, Vector3.opNeg,
      Vector3.opMulAssign, F32.mul_def, F32.scalar_negOne, F32.mul_negOne _ hx,
      F32.mul_negOne _ hy, F32.mul_negOne _ hz]

/-- The conjugate of `(1, 2, 3, 4)`, whose imaginary part is `-(1, 2, 3)`. -/
theorem conjugate_witness :
    Quaternion.conjugate
        (Quaternion.ofXYZW (F32.ofInt 1) (F32.ofInt 2) (F32.ofInt 3) (F32.ofInt 4))
      = Quaternion.ofVW
        (Vector3.opNeg (Vector3.mk (F32.ofInt 1) (F32.ofInt 2) (F32.ofInt 3))) (F32.ofInt 4) :=
  (conjugate_spec.1
    (Quaternion.ofXYZW (F32.ofInt 1) (F32.ofInt 2) (F32.ofInt 3) (F32.ofInt 4))).2.2.2
    (by decide!) (by decide!) (by decide!)

/-! ## clamp -/

theorem Int32.totalOrder : TotalOrder Int32 where
  lt_irrefl a := by
    show decide (a.toInt < a.toInt) = false
    simp
  lt_trans a b c := by
    show decide (a.toInt < b.toInt) = true → decide (b.toInt < c.toInt) = true →
      decide (a.toInt < c.toInt) = true
    simp only [decide_eq_true_eq]
    omega
  lt_total a b := by
    show decide (a.toInt < b.toInt) = true ∨ a = b ∨ decide (b.toInt < a.toInt) = true
    simp only [decide_eq_true_eq]
    rcases lt_trichotomy a.toInt b.toInt with h | h | h
    · exact Or.inl h
    · exact Or.inr (Or.inl (Int32.ext_toInt h))
    · exact Or.inr (Or.inr h)
  le_iff a b := by
    show decide (a.toInt ≤ b.toInt) = true ↔ decide (b.toInt < a.toInt) = false
    simp only [decide_eq_true_eq, decide_eq_false_iff_not]
    omega

/-- C30: over a totally ordered element type, for `minValue <= maxValue`,
`clamp(value, minValue, maxValue)` is `max(minValue, min(value, maxValue))`, lies
in `[minValue, maxValue]`, is `value` when `minValue <= value <= maxValue`, is
`minValue` when `value < minValue` and `maxValue` when `value > maxValue`, and
clamping the result again returns it unchanged. -/
theorem clamp_spec (T : Type) [OrdScalar T] (hT : TotalOrder T)
    (value minValue maxValue : T) (h : OrdScalar.le minValue maxValue = true) :
    clamp value minValue maxValue = std_max minValue (std_min value maxValue) ∧
    OrdScalar.le minValue (clamp value minValue maxValue) = true ∧
    OrdScalar.le (clamp value minValue maxValue) maxValue = true ∧
    (OrdScalar.le minValue value = true → OrdScalar.le value maxValue = true →
      clamp value minValue maxValue = value) ∧
    (OrdScalar.lt value minValue = true → clamp value minValue maxValue = minValue) ∧
    (OrdScalar.lt maxValue value = true → clamp value minValue maxValue = maxValue) ∧
    clamp (clamp value minValue maxValue) minValue maxValue
      = clamp value minValue maxValue := by
  have hasym : ∀ a b : T, OrdScalar.lt a b = true → OrdScalar.lt b a = false := by
    intro a b hab
    cases hba : OrdScalar.lt b a
    · rfl
    · have := hT.lt_trans a b a hab hba
      rw [hT.lt_irrefl] at this
      exact absurd this (by decide)
  rw [hT.le_iff] at h
  simp only [hT.le_iff]
  have key : ∀ v : T,
      (OrdScalar.lt v minValue = true → clamp v minValue maxValue = minValue) ∧
      (OrdScalar.lt maxValue v = true → clamp v minValue maxValue = maxValue) ∧
      (OrdScalar.lt v minValue = false → OrdScalar.lt maxValue v = false →
        clamp v minValue maxValue = v) := by
    intro v
    refine ⟨fun h1 => ?_, fun h1 => ?_, fun h1 h2 => ?_⟩
    · have h2 : OrdScalar.lt maxValue v = false := by
        cases h2 : OrdScalar.lt maxValue v
        · rfl
        · have := hT.lt_trans maxValue v minValue h2 h1
          rw [h] at this
          exact absurd this (by decide)
      simp [clamp, std_min, std_max, h2, hasym _ _ h1]
    · simp [clamp, std_min, std_max, h1, h]
      intro h3
      rcases hT.lt_total minValue maxValue with h4 | h4 | h4
      · rw [h4] at h3; exact absurd h3 (by decide)
      · exact h4
      · rw [h4] at h; exact absurd h (by decide)
    · simp [clamp, std_min, std_max, h2]
      intro h3
      rcases hT.lt_total minValue v with h4 | h4 | h4
      · rw [h4] at h3; exact absurd h3 (by decide)
      · exact h4
      · rw [h4] at h1; exact absurd h1 (by decide)
  obtain ⟨k1, k2, k3⟩ := key value
  have hlo : OrdScalar.lt (clamp value minValue maxValue) minValue = false := by
    cases h1 : OrdScalar.lt value minValue
    · cases h2 : OrdScalar.lt maxValue value
      · rw [k3 h1 h2]; exact h1
      · rw [k2 h2]
        cases h3 : OrdScalar.lt maxValue minValue
        · rfl
        · exact absurd (hasym _ _ h3) (by
            intro h4
            rcases hT.lt_total minValue maxValue with h5 | h5 | h5
            · rw [h5] at h4; exact absurd h4 (by decide)
            · rw [h5, hT.lt_irrefl] at h3; exact absurd h3 (by decide)
            · rw [h5] at h; exact absurd h (by decide))
    · rw [k1 h1]; exact hT.lt_irrefl _
  have hhi : OrdScalar.lt maxValue (clamp value minValue maxValue) = false := by
    cases h1 : OrdScalar.lt value minValue
    · cases h2 : OrdScalar.lt maxValue value
      · rw [k3 h1 h2]; exact h2
      · rw [k2 h2]; exact hT.lt_irrefl _
    · rw [k1 h1]; exact h
  refine ⟨rfl, hlo, hhi, fun h1 h2 => k3 h1 h2, k1, k2, ?_⟩
  exact (key (clamp value minValue maxValue)).2.2 hlo hhi

/-- The clamp of 5, of -7 and of 2 into `[0, 3]`. -/
theorem clamp_spec_witness :
    clamp (Int32.wrap 5) (Int32.wrap 0) (Int32.wrap 3) = Int32.wrap 3 ∧
    clamp (Int32.wrap (-7)) (Int32.wrap 0) (Int32.wrap 3) = Int32.wrap 0 ∧
    clamp (Int32.wrap 2) (Int32.wrap 0) (Int32.wrap 3) = Int32.wrap 2 :=
  ⟨(clamp_spec Int32 Int32.totalOrder (Int32.wrap 5) (Int32.wrap 0) (Int32.wrap 3)
      (by decide)).2.2.2.2.2.1 (by decide),
   (clamp_spec Int32 Int32.totalOrder (Int32.wrap (-7)) (Int32.wrap 0) (Int32.wrap 3)
      (by decide)).2.2.2.2.1 (by decide),
   (clamp_spec Int32 Int32.totalOrder (Int32.wrap 2) (Int32.wrap 0) (Int32.wrap 3)
      (by decide)).2.2.2.1 (by decide) (by decide)⟩

/-- On floats a NaN `value` is not ordered with the bounds:
`clamp(NaN, 0.0f, 1.0f)` is `0.0f`, the lower bound. -/
theorem clamp_nan_example :
    clamp F32.nan (F32.ofInt 0) (F32.ofInt 1) = F32.ofInt 0 := by
  decide!

/-! ## The file name printed by `StandardLogger::log` -/

theorem strrchrAux_append (c : Char) (l1 l2 : List Char) :
    ∀ (i : Nat) (last : Option Nat),
      strrchrAux c (l1 ++ l2) i last = strrchrAux c l2 (i + l1.length) (strrchrAux c l1 i last) := by
  induction l1 with
  | nil => intro i last; rfl
  | cons d ds ih =>
    intro i last
    show strrchrAux c (ds ++ l2) (i + 1) _ = _
    rw [ih]
    have : i + 1 + ds.length = i + (d :: ds).length := by simp; omega
    rw [this]
    rfl

theorem strrchrAux_not_mem (c : Char) (l : List Char) (h : c ∉ l) :
    ∀ (i : Nat) (last : Option Nat), strrchrAux c l i last = last := by
  induction l with
  | nil => intro i last; rfl
  | cons d ds ih =>
    intro i last
    have hd : d ≠ c := fun e => h (by simp [e])
    have hds : c ∉ ds := fun e => h (by simp [e])
    show strrchrAux c ds (i + 1) (if d = c then some i else last) = last
    rw [ih hds, if_neg hd]

/-- The result of `strrchr` on a string with `c` in it: the position of the last `c`. -/
theorem strrchr_last (c : Char) (dir name : List Char) (h : c ∉ name) :
    strrchr (dir ++ c :: name) c = CharPtr.intoFile dir.length := by
  have : strrchrAux c (dir ++ c :: name) 0 none = some dir.length := by
    rw [strrchrAux_append]
    show strrchrAux c name _ (if c = c then some (0 + dir.length) else _) = _
    rw [strrchrAux_not_mem c name h, if_pos rfl, Nat.zero_add]
  simp only [strrchr, this]

/-- The result of `strrchr` on a string without `c`: `nullptr`. -/
theorem strrchr_none (c : Char) (file : List Char) (h : c ∉ file) :
    strrchr file c = CharPtr.null := by
  simp only [strrchr, strrchrAux_not_mem c file h]

/-- C27: with `sep` the path separator of the build (backslash under `_WIN32`,
slash otherwise), for a `file` with a separator in it `StandardLogger::log`
prints the part after the last separator; for a `file` without one,
`strrchr` returns `nullptr`, the `+ 1` is applied before the test against
`nullptr`, so the fallback `strippedFile = file` is not taken and `printf` is
handed the pointer `nullptr + 1` instead of `file`: on `"main.cpp"` no header
can be printed, on `"src/sfz/main.cpp"` the header names `main.cpp`. -/
theorem log_strippedFile (_WIN32 : Bool) :
    (∀ dir name : List Char, (if _WIN32 then '\\' else '/') ∉ name →
      strippedFile _WIN32 (dir ++ (if _WIN32 then '\\' else '/') :: name)
        = CharPtr.intoFile (dir.length + 1) ∧
      readCString (dir ++ (if _WIN32 then '\\' else '/') :: name)
        (strippedFile _WIN32 (dir ++ (if _WIN32 then '\\' else '/') :: name)) = some name) ∧
    (∀ file : List Char, (if _WIN32 then '\\' else '/') ∉ file →
      strippedFile _WIN32 file = CharPtr.nullPlusOne ∧
      strippedFile _WIN32 file ≠ CharPtr.intoFile 0 ∧
      readCString file (strippedFile _WIN32 file) = none ∧
      ∀ (line : Int) (level : LogLevel) (tag : List Char),
        logHeader _WIN32 file line level tag = none) ∧
    readCString "main.cpp".toList (strippedFile _WIN32 "main.cpp".toList) = none ∧
    logHeader false "src/sfz/main.cpp".toList 42 LogLevel.INFO "sfz".toList
      = some "[INFO] -- [sfz] -- [main.cpp:42]: ".toList := by
  refine ⟨fun dir name h => ?_, fun file h => ?_, by cases _WIN32 <;> decide, by decide⟩
  · have hs : strippedFile _WIN32 (dir ++ (if _WIN32 then '\\' else '/') :: name)
        = CharPtr.intoFile (dir.length + 1) := by
      simp only [strippedFile, strrchr_last _ dir name h, CharPtr.succ]
      rfl
    refine ⟨hs, ?_⟩
    rw [hs]
    simp [readCString]
  · have hs : strippedFile _WIN32 file = CharPtr.nullPlusOne := by
      simp only [strippedFile, strrchr_none _ file h, CharPtr.succ]
      rfl
    refine ⟨hs, ?_, ?_, fun line level tag => ?_⟩
    · rw [hs]; decide
    · rw [hs]; rfl
    · simp only [logHeader, hs, readCString]

/-- The two cases on `"src/sfz/main.cpp"` and on `"main.cpp"`, non-Windows build. -/
theorem log_strippedFile_witness :
    readCString "src/sfz/main.cpp".toList (strippedFile false "src/sfz/main.cpp".toList)
      = some "main.cpp".toList ∧
    strippedFile false "main.cpp".toList = CharPtr.nullPlusOne :=
  ⟨((log_strippedFile false).1 "src/sfz".toList "main.cpp".toList (by decide)).2,
   ((log_strippedFile false).2.1 "main.cpp".toList (by decide)).1⟩

/-! ## Quaternion identity and the Hamilton product -/

namespace F32

theorem fix_one : (ofInt 1).fix = 2 ^ 149 := by decide!

/-- Multiplication of a finite float by `1.0f` is exact. -/
theorem mul_one_fin (r : F32) (hfin : r.expField ≠ 255) : mul r (ofInt 1) = r := by
  have h1 : (ofInt 1).isNaN = false := by decide!
  have h2 : (ofInt 1).isInf = false := by decide!
  have h4 : (ofInt 1).sign = false := by decide!
  have hbne : (r.sign != false) = r.sign := by cases r.sign <;> rfl
  simp only [mul, isNaN_false_of hfin, isInf_false_of hfin, h1, h2, h4, hbne, Bool.or_false,
    Bool.false_eq_true, if_false]
  rw [fix_one]
  have h := round_fix r hfin r.sign 149
  simp only [Nat.cast_ofNat] at h
  have he : (-149 : Int) - 149 = -298 := by decide
  rw [he] at h
  rw [h]
  have h' := round_fix r hfin r.sign 0
  simp only [pow_zero, mul_one, Nat.cast_zero, sub_zero] at h'
  rw [← h', round_fix_self r hfin]

theorem one_mul_fin (r : F32) (hfin : r.expField ≠ 255) : mul (ofInt 1) r = r := by
  rw [mul_comm, mul_one_fin r hfin]

/-- The product of a finite float and `0.0f` is a zero. -/
theorem mul_zero_fin (r : F32) (hfin : r.expField ≠ 255) :
    (mul r (ofInt 0)).expField ≠ 255 ∧ (mul r (ofInt 0)).sval = 0 := by
  have h0 : ofInt 0 = zero false := by decide!
  have hz : (mul r (ofInt 0)).isZero = true := by
    rw [h0]
    have hf : (zero false).fix = 0 := (fix_eq_zero_iff _).2 (isZero_zero false)
    simp only [mul, isNaN_false_of hfin, isInf_false_of hfin, isNaN_zero, isInf_zero,
      Bool.or_false, Bool.false_eq_true, if_false, hf, Nat.mul_zero, round, if_true,
      isZero_zero]
  exact ⟨isZero_finite hz, sval_of_isZero hz⟩

theorem zero_mul_fin (r : F32) (hfin : r.expField ≠ 255) :
    (mul (ofInt 0) r).expField ≠ 255 ∧ (mul (ofInt 0) r).sval = 0 := by
  rw [mul_comm]; exact mul_zero_fin r hfin

/-- Adding a zero to a finite float keeps it finite and keeps its value. -/
theorem add_zero_fin {a z : F32} (v : Int) (ha : a.expField ≠ 255 ∧ a.sval = v)
    (hz : z.expField ≠ 255 ∧ z.sval = 0) :
    (add a z).expField ≠ 255 ∧ (add a z).sval = v := by
  obtain ⟨haf, hav⟩ := ha
  obtain ⟨hzf, hz0⟩ := hz
  rw [add_finite a z haf hzf, hz0, Int.add_zero]
  by_cases h0 : a.sval = 0
  · simp only [h0, if_true]
    exact ⟨by rw [expField_zero]; decide,
      by rw [sval_of_isZero (isZero_zero _), ← hav, h0]⟩
  · simp only [h0, if_false]
    rw [round_sval a haf h0]
    exact ⟨haf, hav⟩

theorem zero_add_fin {a z : F32} (v : Int) (hz : z.expField ≠ 255 ∧ z.sval = 0)
    (ha : a.expField ≠ 255 ∧ a.sval = v) :
    (add z a).expField ≠ 255 ∧ (add z a).sval = v := by
  rw [add_comm]; exact add_zero_fin v ha hz

theorem sub_zero_fin {a z : F32} (v : Int) (ha : a.expField ≠ 255 ∧ a.sval = v)
    (hz : z.expField ≠ 255 ∧ z.sval = 0) :
    (sub a z).expField ≠ 255 ∧ (sub a z).sval = v := by
  unfold sub
  apply add_zero_fin v ha
  rw [expField_neg, sval_neg, hz.2]
  exact ⟨hz.1, rfl⟩

/-- Two finite floats of the same value compare equal. -/
theorem eq_of_sval_eq {a b : F32} (ha : a.expField ≠ 255 ∧ a.sval = b.sval)
    (hb : b.expField ≠ 255) : F32.eq a b = true := by
  obtain ⟨haf, hab⟩ := ha
  by_cases h0 : b.sval = 0
  · have hbz : b.isZero = true := (fix_eq_zero_iff b).1 ((sval_eq_zero_iff b).1 h0)
    have haz : a.isZero = true :=
      (fix_eq_zero_iff a).1 ((sval_eq_zero_iff a).1 (by rw [hab, h0]))
    simp [F32.eq, isNaN_false_of haf, isNaN_false_of hb, haz, hbz]
  · have h1 := round_sval a haf (by rw [hab]; exact h0)
    have h2 := round_sval b hb h0
    rw [hab, h2] at h1
    rw [← h1]
    exact eq_self b (isNaN_false_of hb)

end F32

/-- C25, as stated, fails on floats: for `q = (NaN, 0, 0, 1)` neither product
equals `q` (nothing compares equal to NaN), and for `q = (inf, 0, 0, 1)` the
products hold `0 * inf = NaN`. -/
theorem quaternion_identity_counterexample :
    Quaternion.opEq
      (Quaternion.opMul Quaternion.identity
        (Quaternion.ofXYZW F32.nan (F32.ofInt 0) (F32.ofInt 0) (F32.ofInt 1)))
      (Quaternion.ofXYZW F32.nan (F32.ofInt 0) (F32.ofInt 0) (F32.ofInt 1)) = false ∧
    Quaternion.opEq
      (Quaternion.opMul
        (Quaternion.ofXYZW F32.nan (F32.ofInt 0) (F32.ofInt 0) (F32.ofInt 1))
        Quaternion.identity)
      (Quaternion.ofXYZW F32.nan (F32.ofInt 0) (F32.ofInt 0) (F32.ofInt 1)) = false ∧
    Quaternion.opEq
      (Quaternion.opMul Quaternion.identity
        (Quaternion.ofXYZW (F32.inf false) (F32.ofInt 0) (F32.ofInt 0) (F32.ofInt 1)))
      (Quaternion.ofXYZW (F32.inf false) (F32.ofInt 0) (F32.ofInt 0) (F32.ofInt 1)) = false ∧
    Quaternion.opEq
      (Quaternion.opMul
        (Quaternion.ofXYZW (F32.inf false) (F32.ofInt 0) (F32.ofInt 0) (F32.ofInt 1))
        Quaternion.identity)
      (Quaternion.ofXYZW (F32.inf false) (F32.ofInt 0) (F32.ofInt 0) (F32.ofInt 1)) = false := by
  decide!

/-- C25, amended: `Quaternion::identity()` is `(0,0,0,1)`, and for every
quaternion `q` whose four components are finite (neither NaN nor an infinity),
`identity() * q == q` and `q * identity() == q`. -/
theorem quaternion_identity_law (q : Quaternion)
    (hx : q.x.isFinite = true) (hy : q.y.isFinite = true)
    (hz : q.z.isFinite = true) (hw : q.w.isFinite = true) :
    Quaternion.identity
      = Quaternion.ofXYZW (F32.ofInt 0) (F32.ofInt 0) (F32.ofInt 0) (F32.ofInt 1) ∧
    Quaternion.opEq (Quaternion.opMul Quaternion.identity q) q = true ∧
    Quaternion.opEq (Quaternion.opMul q Quaternion.identity) q = true := by
  obtain ⟨⟨x, y, z, w⟩⟩ := q
  simp only [Quaternion.x, Quaternion.y, Quaternion.z, Quaternion.w, F32.isFinite,
    bne_iff_ne, ne_eq] at hx hy hz hw
  refine ⟨rfl, ?_, ?_⟩
  · simp only [Quaternion.opEq, Quaternion.opMul, Quaternion.identity, Quaternion.ofXYZW,
      Quaternion.x, Quaternion.y, Quaternion.z, Quaternion.w, Vector4.opEq, F32.scalar_eq,
      F32.add_def, F32.sub_def, F32.mul_def, Bool.and_eq_true]
    refine ⟨⟨⟨?_, ?_⟩, ?_⟩, ?_⟩
    · refine F32.eq_of_sval_eq ?_ hx
      refine F32.sub_zero_fin _ (F32.add_zero_fin _ (F32.add_zero_fin _ ?_ ?_) ?_) ?_
      · rw [F32.one_mul_fin x hx]; exact ⟨hx, rfl⟩
      · exact F32.zero_mul_fin w hw
      · exact F32.zero_mul_fin z hz
      · exact F32.zero_mul_fin y hy
    · refine F32.eq_of_sval_eq ?_ hy
      refine F32.add_zero_fin _ (F32.add_zero_fin _ (F32.sub_zero_fin _ ?_ ?_) ?_) ?_
      · rw [F32.one_mul_fin y hy]; exact ⟨hy, rfl⟩
      · exact F32.zero_mul_fin z hz
      · exact F32.zero_mul_fin w hw
      · exact F32.zero_mul_fin x hx
    · refine F32.eq_of_sval_eq ?_ hz
      refine F32.add_zero_fin _ (F32.sub_zero_fin _ (F32.add_zero_fin _ ?_ ?_) ?_) ?_
      · rw [F32.one_mul_fin z hz]; exact ⟨hz, rfl⟩
      · exact F32.zero_mul_fin y hy
      · exact F32.zero_mul_fin x hx
      · exact F32.zero_mul_fin w hw
    · refine F32.eq_of_sval_eq ?_ hw
      refine F32.sub_zero_fin _ (F32.sub_zero_fin _ (F32.sub_zero_fin _ ?_ ?_) ?_) ?_
      · rw [F32.one_mul_fin w hw]; exact ⟨hw, rfl⟩
      · exact F32.zero_mul_fin x hx
      · exact F32.zero_mul_fin y hy
      · exact F32.zero_mul_fin z hz
  · simp only [Quaternion.opEq, Quaternion.opMul, Quaternion.identity, Quaternion.ofXYZW,
      Quaternion.x, Quaternion.y, Quaternion.z, Quaternion.w, Vector4.opEq, F32.scalar_eq,
      F32.add_def, F32.sub_def, F32.mul_def, Bool.and_eq_true]
    refine ⟨⟨⟨?_, ?_⟩, ?_⟩, ?_⟩
    · refine F32.eq_of_sval_eq ?_ hx
      refine F32.sub_zero_fin _ (F32.add_zero_fin _ (F32.zero_add_fin _ ?_ ?_) ?_) ?_
      · exact F32.mul_zero_fin w hw
      · rw [F32.mul_one_fin x hx]; exact ⟨hx, rfl⟩
      · exact F32.mul_zero_fin y hy
      · exact F32.mul_zero_fin z hz
    · refine F32.eq_of_sval_eq ?_ hy
      refine F32.add_zero_fin _ (F32.zero_add_fin _ (F32.sub_zero_fin _ ?_ ?_) ?_) ?_
      · exact F32.mul_zero_fin w hw
      · exact F32.mul_zero_fin x hx
      · rw [F32.mul_one_fin y hy]; exact ⟨hy, rfl⟩
      · exact F32.mul_zero_fin z hz
    · refine F32.eq_of_sval_eq ?_ hz
      refine F32.zero_add_fin _ (F32.sub_zero_fin _ (F32.add_zero_fin _ ?_ ?_) ?_) ?_
      · exact F32.mul_zero_fin w hw
      · exact F32.mul_zero_fin x hx
      · exact F32.mul_zero_fin y hy
      · rw [F32.mul_one_fin z hz]; exact ⟨hz, rfl⟩
    · refine F32.eq_of_sval_eq ?_ hw
      refine F32.sub_zero_fin _ (F32.sub_zero_fin _ (F32.sub_zero_fin _ ?_ ?_) ?_) ?_
      · rw [F32.mul_one_fin w hw]; exact ⟨hw, rfl⟩
      · exact F32.mul_zero_fin x hx
      · exact F32.mul_zero_fin y hy
      · exact F32.mul_zero_fin z hz

/-- The identity law at `q = (1, -2, 3, 4)`. -/
theorem quaternion_identity_witness :
    Quaternion.opEq
      (Quaternion.opMul Quaternion.identity
        (Quaternion.ofXYZW (F32.ofInt 1) (F32.ofInt (-2)) (F32.ofInt 3) (F32.ofInt 4)))
      (Quaternion.ofXYZW (F32.ofInt 1) (F32.ofInt (-2)) (F32.ofInt 3) (F32.ofInt 4)) = true ∧
    Quaternion.opEq
      (Quaternion.opMul
        (Quaternion.ofXYZW (F32.ofInt 1) (F32.ofInt (-2)) (F32.ofInt 3) (F32.ofInt 4))
        Quaternion.identity)
      (Quaternion.ofXYZW (F32.ofInt 1) (F32.ofInt (-2)) (F32.ofInt 3) (F32.ofInt 4)) = true :=
  (quaternion_identity_law
    (Quaternion.ofXYZW (F32.ofInt 1) (F32.ofInt (-2)) (F32.ofInt 3) (F32.ofInt 4))
    (by decide!) (by decide!) (by decide!) (by decide!)).2

/-! ## Rounding error of one float operation -/

namespace F32

theorem ilog2_spec (m : Nat) (hm : m ≠ 0) : 2 ^ ilog2 m ≤ m ∧ m < 2 ^ (ilog2 m + 1) := by
  rw [ilog2_eq_log m hm]
  exact ⟨Nat.pow_log_le_self 2 hm, Nat.lt_pow_succ_log_self (by decide) m⟩

/-- The rounded quotient is within half a unit of `m / 2^k`. -/
theorem roundNE_error (m k : Nat) :
    roundNE m k * 2 ^ k * 2 ≤ 2 * m + 2 ^ k ∧ 2 * m ≤ roundNE m k * 2 ^ k * 2 + 2 ^ k := by
  have hP : 0 < 2 ^ k := Nat.two_pow_pos k
  have hdm := Nat.div_add_mod m (2 ^ k)
  have hr := Nat.mod_lt m hP
  unfold roundNE
  simp only
  generalize 2 ^ k = P at *
  generalize m / P = q at *
  generalize m % P = r at *
  have hqP : P * q = q * P := Nat.mul_comm _ _
  split
  · rw [Nat.add_mul]; omega
  · split
    · split
      · rw [Nat.add_mul]; omega
      · omega
    · omega

theorem roundNE_range (m k : Nat) (h1 : 2 ^ (k + 23) ≤ m) (h2 : m < 2 ^ (k + 24)) :
    2 ^ 23 ≤ roundNE m k ∧ roundNE m k ≤ 2 ^ 24 := by
  have hP : 0 < 2 ^ k := Nat.two_pow_pos k
  have hq1 : 2 ^ 23 ≤ m / 2 ^ k := by
    rw [Nat.le_div_iff_mul_le hP, ← pow_add, Nat.add_comm]; exact h1
  have hq2 : m / 2 ^ k < 2 ^ 24 := by
    rw [Nat.div_lt_iff_lt_mul hP, ← pow_add, Nat.add_comm]; exact h2
  unfold roundNE
  simp only
  split
  · omega
  · split
    · split <;> omega
    · omega

/-- Reading back the fields `t * 2^23 + m1` written by `round`. -/
theorem decode_enc (s : Bool) (t m1 : Nat) (h1 : 2 ^ 23 ≤ m1) (h2 : m1 ≤ 2 ^ 24)
    (ht : t * 0x800000 + m1 < 0x7F800000) :
    (ofBits (signBit s + (t * 0x800000 + m1))).expField ≠ 255 ∧
    (ofBits (signBit s + (t * 0x800000 + m1))).sign = s ∧
    (ofBits (signBit s + (t * 0x800000 + m1))).fix = m1 * 2 ^ t := by
  have h1 : 8388608 ≤ m1 := by simpa using h1
  have h2 : m1 ≤ 16777216 := by simpa using h2
  have hn : t * 0x800000 + m1 < 0x80000000 := by omega
  have hE := expField_ofBits_signBit s _ hn
  have hF := fracField_ofBits_signBit s _ hn
  refine ⟨by rw [hE]; omega, sign_ofBits_signBit s _ hn, ?_⟩
  unfold fix
  rw [hE, hF]
  by_cases hc : m1 = 16777216
  · subst hc
    have e1 : (t * 0x800000 + 16777216) / 0x800000 = t + 2 := by omega
    have e2 : (t * 0x800000 + 16777216) % 0x800000 = 0 := by omega
    rw [e1, e2]
    simp only [Nat.add_eq_zero, OfNat.ofNat_ne_zero, and_false, if_false, Nat.add_zero]
    have : t + 2 - 1 = t + 1 := by omega
    rw [this, pow_succ]
    omega
  · have e1 : (t * 0x800000 + m1) / 0x800000 = t + 1 := by omega
    have e2 : (t * 0x800000 + m1) % 0x800000 = m1 - 8388608 := by omega
    rw [e1, e2]
    simp only [Nat.add_eq_zero, one_ne_zero, and_false, if_false]
    have : t + 1 - 1 = t := by omega
    rw [this]
    have h3 : 8388608 + (m1 - 8388608) = m1 := by omega
    rw [h3]

/-- Fields and error of rounding `m * 2^-j` when the value is at least
`2^-126`: the fields are `t * 2^23 + m1` with `m1` the significand rounded to 24
bits, and `m1 * 2^t`, in units of `2^-149`, is within a relative `2^-24` of the
value. -/
theorem round_normal_core (m j : Nat) (h23 : 2 ^ 23 ≤ m) (hlo : 2 ^ j ≤ m * 2 ^ 126) :
    ∃ t m1, roundEnc m (-(j : Int)) = t * 0x800000 + m1 ∧ 2 ^ 23 ≤ m1 ∧ m1 ≤ 2 ^ 24 ∧
      (m < 2 ^ (j + 127) → t ≤ 252) ∧
      m1 * 2 ^ t * 2 ^ j * 16777216 ≤ m * 2 ^ 149 * 16777217 ∧
      m * 2 ^ 149 * 16777215 ≤ m1 * 2 ^ t * 2 ^ j * 16777216 := by
  have hm : m ≠ 0 := by
    have : 0 < 2 ^ 23 := by decide
    omega
  obtain ⟨hL1, hL2⟩ := ilog2_spec m hm
  generalize hL : ilog2 m = L at *
  have hL23 : 23 ≤ L := by
    by_contra hcon
    have : 2 ^ (L + 1) ≤ 2 ^ 23 := Nat.pow_le_pow_right (by decide) (by omega)
    omega
  have hLj : j ≤ L + 126 := by
    by_contra hcon
    have h3 : m * 2 ^ 126 < 2 ^ (L + 1) * 2 ^ 126 :=
      Nat.mul_lt_mul_of_pos_right hL2 (Nat.two_pow_pos _)
    rw [← pow_add] at h3
    have : 2 ^ (L + 1 + 126) ≤ 2 ^ j := Nat.pow_le_pow_right (by decide) (by omega)
    omega
  obtain ⟨k, hk⟩ : ∃ k, L = k + 23 := ⟨L - 23, by omega⟩
  obtain ⟨t, ht⟩ : ∃ t, L + 126 = j + t := ⟨L + 126 - j, by omega⟩
  have hq : max ((L : Int) + -(j : Int) - 23) (-149) = (t : Int) - 149 := by omega
  have hm1 : (if (t : Int) - 149 ≤ -(j : Int)
      then m * 2 ^ (-(j : Int) - ((t : Int) - 149)).toNat
      else roundNE m ((t : Int) - 149 - -(j : Int)).toNat) = roundNE m k := by
    split
    · next h =>
      have hk0 : k = 0 := by omega
      have : (-(j : Int) - ((t : Int) - 149)).toNat = 0 := by omega
      rw [this, hk0]
      simp [roundNE, Nat.mod_one]
    · next h =>
      have : ((t : Int) - 149 - -(j : Int)).toNat = k := by omega
      rw [this]
  have henc : roundEnc m (-(j : Int)) = t * 0x800000 + roundNE m k := by
    simp only [roundEnc, hL, hq, hm1]
    congr 2
    omega
  obtain ⟨hr1, hr2⟩ := roundNE_range m k (by rw [← hk]; exact hL1)
    (by rw [show k + 24 = L + 1 by omega]; exact hL2)
  refine ⟨t, roundNE m k, henc, hr1, hr2, ?_, ?_⟩
  · intro hhi
    by_contra hcon
    have : 2 ^ (j + 127) ≤ 2 ^ L := Nat.pow_le_pow_right (by decide) (by omega)
    omega
  obtain ⟨e1, e2⟩ := roundNE_error m k
  have hkey : roundNE m k * 2 ^ t * 2 ^ j = roundNE m k * 2 ^ k * 2 ^ 149 := by
    rw [Nat.mul_assoc, Nat.mul_assoc, ← pow_add, ← pow_add]
    congr 2
    omega
  rw [hkey]
  have hP : 2 ^ k * 8388608 ≤ m := by
    have : 2 ^ (k + 23) = 2 ^ k * 8388608 := by rw [pow_add]; norm_num
    rw [← this, ← hk]; exact hL1
  generalize roundNE m k * 2 ^ k = V at *
  generalize 2 ^ k = P at *
  have a1 : V * 16777216 ≤ m * 16777217 := by omega
  have a2 : m * 16777215 ≤ V * 16777216 := by omega
  constructor
  · calc V * 2 ^ 149 * 16777216 = V * 16777216 * 2 ^ 149 := by ring
      _ ≤ m * 16777217 * 2 ^ 149 := Nat.mul_le_mul_right _ a1
      _ = m * 2 ^ 149 * 16777217 := by ring
  · calc m * 2 ^ 149 * 16777215 = m * 16777215 * 2 ^ 149 := by ring
      _ ≤ V * 16777216 * 2 ^ 149 := Nat.mul_le_mul_right _ a2
      _ = V * 2 ^ 149 * 16777216 := by ring

theorem expField_inf (s : Bool) : (inf s).expField = 255 := by
  cases s <;> rfl

/-- Rounding `m * 2^-j`, a value of at least `2^-126`, to a finite float: the
relative error is at most `2^-24`. -/
theorem round_normal_of_finite (s : Bool) (m j : Nat) (h23 : 2 ^ 23 ≤ m)
    (hlo : 2 ^ j ≤ m * 2 ^ 126) (hfin : (round s m (-(j : Int))).expField ≠ 255) :
    (round s m (-(j : Int))).fix * 2 ^ j * 16777216 ≤ m * 2 ^ 149 * 16777217 ∧
    m * 2 ^ 149 * 16777215 ≤ (round s m (-(j : Int))).fix * 2 ^ j * 16777216 := by
  have hm : m ≠ 0 := by
    have : 0 < 2 ^ 23 := by decide
    omega
  obtain ⟨t, m1, henc, hr1, hr2, -, e1, e2⟩ := round_normal_core m j h23 hlo
  by_cases hov : 0x7F800000 ≤ t * 0x800000 + m1
  · have hround : round s m (-(j : Int)) = inf s := by
      simp only [round, hm, if_false, henc, hov, if_true]
    rw [hround, expField_inf] at hfin
    exact absurd rfl hfin
  · have hround : round s m (-(j : Int)) = ofBits (signBit s + (t * 0x800000 + m1)) := by
      simp only [round, hm, if_false, henc, hov]
    obtain ⟨-, -, d3⟩ := decode_enc s t m1 hr1 hr2 (by omega)
    rw [hround, d3]
    exact ⟨e1, e2⟩

/-- Rounding `m * 2^-j`, a value in `[2^-126, 2^127)`: the result is finite and
its relative error is at most `2^-24`. -/
theorem round_normal (s : Bool) (m j : Nat) (h23 : 2 ^ 23 ≤ m) (hlo : 2 ^ j ≤ m * 2 ^ 126)
    (hhi : m < 2 ^ (j + 127)) :
    (round s m (-(j : Int))).expField ≠ 255 ∧
    (round s m (-(j : Int))).fix * 2 ^ j * 16777216 ≤ m * 2 ^ 149 * 16777217 ∧
    m * 2 ^ 149 * 16777215 ≤ (round s m (-(j : Int))).fix * 2 ^ j * 16777216 := by
  have hm : m ≠ 0 := by
    have : 0 < 2 ^ 23 := by decide
    omega
  obtain ⟨t, m1, henc, hr1, hr2, ht, -, -⟩ := round_normal_core m j h23 hlo
  have ht252 := ht hhi
  have hnov : ¬ (0x7F800000 ≤ t * 0x800000 + m1) := by
    have : m1 ≤ 16777216 := by simpa using hr2
    omega
  have hround : round s m (-(j : Int)) = ofBits (signBit s + (t * 0x800000 + m1)) := by
    simp only [round, hm, if_false, henc, hnov]
  have hfin : (round s m (-(j : Int))).expField ≠ 255 := by
    rw [hround]
    exact (decode_enc s t m1 hr1 hr2 (by omega)).1
  exact ⟨hfin, round_normal_of_finite s m j h23 hlo hfin⟩

theorem roundNE_le (m k : Nat) : roundNE m k ≤ m / 2 ^ k + 1 := by
  unfold roundNE
  simp only
  split
  · exact le_rfl
  · split
    · split <;> omega
    · omega

/-- Rounding `m * 2^-j`, a value below `2^-126`: the result is finite, a
multiple of `2^-149` that is within `2^-150` of the value. -/
theorem round_subnormal (s : Bool) (m j : Nat) (hj : 149 ≤ j) (hlo : m * 2 ^ 126 < 2 ^ j) :
    (round s m (-(j : Int))).expField ≠ 255 ∧
    (round s m (-(j : Int))).fix * 2 ^ (j - 149) * 2 ≤ 2 * m + 2 ^ (j - 149) ∧
    2 * m ≤ (round s m (-(j : Int))).fix * 2 ^ (j - 149) * 2 + 2 ^ (j - 149) := by
  by_cases hm : m = 0
  · subst hm
    have hr : round s 0 (-(j : Int)) = zero s := by simp [round]
    have hf : (zero s).fix = 0 := (fix_eq_zero_iff _).2 (isZero_zero s)
    rw [hr, hf]
    have hP : 0 < 2 ^ (j - 149) := Nat.two_pow_pos _
    exact ⟨by rw [expField_zero]; decide, by omega, by omega⟩
  · obtain ⟨hL1, hL2⟩ := ilog2_spec m hm
    generalize hL : ilog2 m = L at *
    have hLj : L + 126 < j := by
      by_contra hcon
      have h3 : 2 ^ L * 2 ^ 126 ≤ m * 2 ^ 126 := Nat.mul_le_mul_right _ hL1
      rw [← pow_add] at h3
      have : 2 ^ j ≤ 2 ^ (L + 126) := Nat.pow_le_pow_right (by decide) (by omega)
      omega
    obtain ⟨k, hk⟩ : ∃ k, j = k + 149 := ⟨j - 149, by omega⟩
    have hk2 : j - 149 = k := by omega
    rw [hk2]
    have hq : max ((L : Int) + -(j : Int) - 23) (-149) = -149 := by omega
    have hm1 : (if (-149 : Int) ≤ -(j : Int) then m * 2 ^ (-(j : Int) - (-149)).toNat
        else roundNE m (-149 - -(j : Int)).toNat) = roundNE m k := by
      split
      · next h =>
        have hk0 : k = 0 := by omega
        have : (-(j : Int) - (-149)).toNat = 0 := by omega
        rw [this, hk0]
        simp [roundNE, Nat.mod_one]
      · next h =>
        have : (-149 - -(j : Int)).toNat = k := by omega
        rw [this]
    have henc : roundEnc m (-(j : Int)) = roundNE m k := by
      simp only [roundEnc, hL, hq, hm1]
      simp
    have hP : 0 < 2 ^ k := Nat.two_pow_pos k
    have hmlt : m < 2 ^ k * 8388608 := by
      have h1 : m * 2 ^ 126 < 2 ^ (k + 23) * 2 ^ 126 := by
        rw [← pow_add]
        have : k + 23 + 126 = j := by omega
        rw [this]; exact hlo
      have h2 := Nat.lt_of_mul_lt_mul_right h1
      have h3 : 2 ^ (k + 23) = 2 ^ k * 8388608 := by rw [pow_add]; norm_num
      omega
    have hq2 : m / 2 ^ k < 8388608 := by
      rw [Nat.div_lt_iff_lt_mul hP, Nat.mul_comm]; exact hmlt
    have hr := roundNE_le m k
    have hr2 : roundNE m k ≤ 8388608 := by omega
    have hround : round s m (-(j : Int)) = ofBits (signBit s + roundNE m k) := by
      have : ¬ (0x7F800000 ≤ roundNE m k) := by omega
      simp only [round, hm, if_false, henc, this]
    have hn : roundNE m k < 0x80000000 := by omega
    have hE := expField_ofBits_signBit s _ hn
    have hF := fracField_ofBits_signBit s _ hn
    have hfix : (ofBits (signBit s + roundNE m k)).fix = roundNE m k := by
      unfold fix
      rw [hE, hF]
      by_cases hc : roundNE m k = 8388608
      · rw [hc]; rfl
      · have e1 : roundNE m k / 0x800000 = 0 := by omega
        have e2 : roundNE m k % 0x800000 = roundNE m k := by omega
        rw [e1, e2]
        simp
    rw [hround, hfix]
    exact ⟨by rw [hE]; omega, roundNE_error m k⟩

end F32
/-! ## Accumulated rounding error -/

theorem rho_pos : 0 < rho := by norm_num [rho]

theorem one_le_rho : 1 ≤ rho := by norm_num [rho]

theorem one_le_rho_pow (k : Nat) : 1 ≤ rho ^ k := one_le_pow₀ one_le_rho

/-- Up to 400 roundings change a value by less than a thousandth. -/
theorem rho_pow_le (k : Nat) (hk : k ≤ 400) : rho ^ k ≤ 1001 / 1000 := by
  calc rho ^ k ≤ rho ^ 400 := pow_le_pow_right₀ one_le_rho hk
    _ ≤ 1001 / 1000 := by norm_num [rho]

theorem rho_pow_le_two (k : Nat) (hk : k ≤ 400) : rho ^ k ≤ 2 :=
  (rho_pow_le k hk).trans (by norm_num)

/-- Bernoulli's inequality for `rho`. -/
theorem add_mul_le_rho_pow (n : Nat) : 1 + (n : ℚ) * (rho - 1) ≤ rho ^ n := by
  have h := one_add_mul_le_pow (show (-2 : ℚ) ≤ rho - 1 by norm_num [rho]) n
  simpa using h

namespace Within

theorem refl {a : ℚ} (k : Nat) (h : 0 ≤ a) : Within k a a :=
  ⟨h, h, le_mul_of_one_le_right h (one_le_rho_pow k), le_mul_of_one_le_right h (one_le_rho_pow k)⟩

theorem symm {k : Nat} {a X : ℚ} (h : Within k a X) : Within k X a :=
  ⟨h.2.1, h.1, h.2.2.2, h.2.2.1⟩

theorem mono {k n : Nat} {a X : ℚ} (h : Within k a X) (hkn : k ≤ n) : Within n a X := by
  obtain ⟨h1, h2, h3, h4⟩ := h
  have hp : rho ^ k ≤ rho ^ n := pow_le_pow_right₀ one_le_rho hkn
  exact ⟨h1, h2, h3.trans (mul_le_mul_of_nonneg_left hp h1),
    h4.trans (mul_le_mul_of_nonneg_left hp h2)⟩

theorem trans {i j : Nat} {a b c : ℚ} (h1 : Within i a b) (h2 : Within j b c) :
    Within (i + j) a c := by
  obtain ⟨a0, b0, ab, ba⟩ := h1
  obtain ⟨-, c0, bc, cb⟩ := h2
  have hi : 0 ≤ rho ^ i := pow_nonneg rho_pos.le i
  have hj : 0 ≤ rho ^ j := pow_nonneg rho_pos.le j
  refine ⟨a0, c0, ?_, ?_⟩
  · calc c ≤ b * rho ^ j := bc
      _ ≤ a * rho ^ i * rho ^ j := mul_le_mul_of_nonneg_right ab hj
      _ = a * rho ^ (i + j) := by rw [pow_add, mul_assoc]
  · calc a ≤ b * rho ^ i := ba
      _ ≤ c * rho ^ j * rho ^ i := mul_le_mul_of_nonneg_right cb hi
      _ = c * rho ^ (i + j) := by rw [pow_add]; ring

theorem mul {i j : Nat} {a b X Z : ℚ} (h1 : Within i a X) (h2 : Within j b Z) :
    Within (i + j) (a * b) (X * Z) := by
  obtain ⟨a0, x0, xa, ax⟩ := h1
  obtain ⟨b0, z0, zb, bz⟩ := h2
  have hi : 0 ≤ rho ^ i := pow_nonneg rho_pos.le i
  have hj : 0 ≤ rho ^ j := pow_nonneg rho_pos.le j
  refine ⟨mul_nonneg a0 b0, mul_nonneg x0 z0, ?_, ?_⟩
  · calc X * Z ≤ (a * rho ^ i) * (b * rho ^ j) :=
        mul_le_mul xa zb z0 (mul_nonneg a0 hi)
      _ = a * b * rho ^ (i + j) := by rw [pow_add]; ring
  · calc a * b ≤ (X * rho ^ i) * (Z * rho ^ j) :=
        mul_le_mul ax bz b0 (mul_nonneg x0 hi)
      _ = X * Z * rho ^ (i + j) := by rw [pow_add]; ring

theorem sq {k : Nat} {a X : ℚ} (h : Within k a X) : Within (k + k) (a * a) (X * X) :=
  mul h h

theorem eq_zero_left {k : Nat} {a : ℚ} (h : Within k a 0) : a = 0 := by
  obtain ⟨a0, -, -, h4⟩ := h
  rw [zero_mul] at h4
  exact le_antisymm h4 a0

theorem eq_zero_right {k : Nat} {X : ℚ} (h : Within k 0 X) : X = 0 :=
  eq_zero_left h.symm

theorem div {i j : Nat} {a b X Z : ℚ} (h1 : Within i a X) (h2 : Within j b Z) :
    Within (i + j) (a / b) (X / Z) := by
  have key : ∀ {a b X Z : ℚ}, Within i a X → Within j b Z → 0 < b →
      X / Z ≤ a / b * rho ^ (i + j) := by
    intro a b X Z h1 h2 hb
    obtain ⟨a0, x0, xa, ax⟩ := h1
    obtain ⟨b0, z0, zb, bz⟩ := h2
    have hj : 0 < rho ^ j := pow_pos rho_pos j
    have hi : 0 ≤ rho ^ i := pow_nonneg rho_pos.le i
    have hz : 0 < Z := by
      by_contra hcon
      have : Z = 0 := le_antisymm (not_lt.1 hcon) z0
      rw [this, zero_mul] at bz
      exact absurd (lt_of_lt_of_le hb bz) (lt_irrefl _)
    rw [div_mul_eq_mul_div, div_le_div_iff₀ hz hb]
    calc X * b ≤ (a * rho ^ i) * (Z * rho ^ j) :=
        mul_le_mul xa bz b0 (mul_nonneg a0 hi)
      _ = a * rho ^ (i + j) * Z := by rw [pow_add]; ring
  by_cases hb : b = 0
  · have hZ : Z = 0 := by rw [hb] at h2; exact eq_zero_right h2
    rw [hb, hZ, div_zero, div_zero]
    exact refl _ le_rfl
  · have hb0 : 0 < b := lt_of_le_of_ne h2.1 (Ne.symm hb)
    have hZ0 : 0 < Z := by
      rcases eq_or_lt_of_le h2.2.1 with h | h
      · rw [← h] at h2; exact absurd (eq_zero_left h2) hb
      · exact h
    exact ⟨div_nonneg h1.1 h2.1, div_nonneg h1.2.1 h2.2.1, key h1 h2 hb0,
      key h1.symm h2.symm hZ0⟩

end Within

namespace Near

theorem of_within {k : Nat} {A a X : ℚ} (h : Within k a X) (hA : 0 ≤ A) : Near k A a X := by
  obtain ⟨a0, x0, xa, ax⟩ := h
  have hk : 0 ≤ rho ^ k := pow_nonneg rho_pos.le k
  refine ⟨a0, x0, ?_, by linarith⟩
  calc a ≤ X * rho ^ k := ax
    _ ≤ (X + A) * rho ^ k := mul_le_mul_of_nonneg_right (by linarith) hk

theorem widen {k n : Nat} {A B a X : ℚ} (h : Near k A a X) (hkn : k ≤ n) (hA : 0 ≤ A)
    (hAB : A ≤ B) : Near n B a X := by
  obtain ⟨a0, x0, ax, xa⟩ := h
  have hp : rho ^ k ≤ rho ^ n := pow_le_pow_right₀ one_le_rho hkn
  have hn : 0 ≤ rho ^ n := pow_nonneg rho_pos.le n
  refine ⟨a0, x0, ?_, ?_⟩
  · calc a ≤ (X + A) * rho ^ k := ax
      _ ≤ (X + A) * rho ^ n := mul_le_mul_of_nonneg_left hp (by linarith)
      _ ≤ (X + B) * rho ^ n := mul_le_mul_of_nonneg_right (by linarith) hn
  · calc X ≤ a * rho ^ k + A := xa
      _ ≤ a * rho ^ n + B := by
        have := mul_le_mul_of_nonneg_left hp a0
        linarith

theorem plus {k : Nat} {A B a b X Z : ℚ} (h1 : Near k A a X) (h2 : Near k B b Z) :
    Near k (A + B) (a + b) (X + Z) := by
  obtain ⟨a0, x0, ax, xa⟩ := h1
  obtain ⟨b0, z0, bz, zb⟩ := h2
  refine ⟨by linarith, by linarith, ?_, ?_⟩
  · have e : (X + Z + (A + B)) * rho ^ k = (X + A) * rho ^ k + (Z + B) * rho ^ k := by ring
    rw [e]; linarith
  · rw [add_mul]; linarith

/-- One more rounding, without absolute error, of a value `y` that is near `X`. -/
theorem rounded {k : Nat} {A r y X : ℚ} (hr : Within 1 r y) (h : Near k A y X) :
    Near (k + 1) A r X := by
  obtain ⟨r0, -, yr, ry⟩ := hr
  obtain ⟨y0, x0, yx, xy⟩ := h
  rw [pow_one] at yr ry
  have hk : 0 ≤ rho ^ k := pow_nonneg rho_pos.le k
  refine ⟨r0, x0, ?_, ?_⟩
  · calc r ≤ y * rho := ry
      _ ≤ (X + A) * rho ^ k * rho := mul_le_mul_of_nonneg_right yx rho_pos.le
      _ = (X + A) * rho ^ (k + 1) := by rw [pow_succ, mul_assoc]
  · calc X ≤ y * rho ^ k + A := xy
      _ ≤ r * rho * rho ^ k + A := by
        have := mul_le_mul_of_nonneg_right yr hk
        linarith
      _ = r * rho ^ (k + 1) + A := by rw [pow_succ]; ring

theorem chain {i j : Nat} {A B a b c : ℚ} (h1 : Near i A a b) (h2 : Near j B b c)
    (hj : j ≤ 400) (hA : 0 ≤ A) : Near (i + j) (2 * A + B) a c := by
  obtain ⟨a0, b0, ab, ba⟩ := h1
  obtain ⟨-, c0, bc, cb⟩ := h2
  have hi : 0 ≤ rho ^ i := pow_nonneg rho_pos.le i
  have hj1 : 1 ≤ rho ^ j := one_le_rho_pow j
  have hj2 : rho ^ j ≤ 2 := rho_pow_le_two j hj
  refine ⟨a0, c0, ?_, ?_⟩
  · have h3 : b + A ≤ (c + (2 * A + B)) * rho ^ j := by
      have : A ≤ A * rho ^ j := le_mul_of_one_le_right hA hj1
      have e : (c + (2 * A + B)) * rho ^ j = (c + B) * rho ^ j + 2 * (A * rho ^ j) := by ring
      rw [e]; linarith
    calc a ≤ (b + A) * rho ^ i := ab
      _ ≤ (c + (2 * A + B)) * rho ^ j * rho ^ i := mul_le_mul_of_nonneg_right h3 hi
      _ = (c + (2 * A + B)) * rho ^ (i + j) := by rw [pow_add]; ring
  · have h3 : b * rho ^ j ≤ (a * rho ^ i + A) * rho ^ j :=
      mul_le_mul_of_nonneg_right ba (by linarith)
    have h4 : A * rho ^ j ≤ A * 2 := mul_le_mul_of_nonneg_left hj2 hA
    have e : (a * rho ^ i + A) * rho ^ j = a * rho ^ (i + j) + A * rho ^ j := by
      rw [pow_add]; ring
    linarith

/-- The square of a value near a number of at most 2. -/
theorem square {k : Nat} {A a X : ℚ} (h : Near k A a X) (hk : k ≤ 400) (hX : X ≤ 2)
    (hA0 : 0 ≤ A) (hA1 : A ≤ 1) : Near (k + k) (25 * A) (a * a) (X * X) := by
  obtain ⟨a0, x0, ax, xa⟩ := h
  have hr1 : 1 ≤ rho ^ k := one_le_rho_pow k
  have hr2 : rho ^ k ≤ 2 := rho_pow_le_two k hk
  have hr0 : 0 ≤ rho ^ k := by linarith
  have ha6 : a ≤ 6 := by
    calc a ≤ (X + A) * rho ^ k := ax
      _ ≤ 3 * 2 := mul_le_mul (by linarith) hr2 hr0 (by norm_num)
      _ = 6 := by norm_num
  have e : rho ^ (k + k) = rho ^ k * rho ^ k := pow_add _ _ _
  refine ⟨mul_nonneg a0 a0, mul_nonneg x0 x0, ?_, ?_⟩
  · have h1 : a * a ≤ (X + A) * rho ^ k * ((X + A) * rho ^ k) :=
      mul_le_mul ax ax a0 (le_trans a0 ax)
    have h2 : (X + A) * (X + A) ≤ X * X + 25 * A := by nlinarith
    have h3 : 0 ≤ rho ^ k * rho ^ k := mul_nonneg hr0 hr0
    calc a * a ≤ (X + A) * rho ^ k * ((X + A) * rho ^ k) := h1
      _ = (X + A) * (X + A) * (rho ^ k * rho ^ k) := by ring
      _ ≤ (X * X + 25 * A) * (rho ^ k * rho ^ k) := mul_le_mul_of_nonneg_right h2 h3
      _ = (X * X + 25 * A) * rho ^ (k + k) := by rw [e]
  · have h0 : 0 ≤ a * rho ^ k := mul_nonneg a0 hr0
    have h1 : X * X ≤ (a * rho ^ k + A) * (a * rho ^ k + A) :=
      mul_le_mul xa xa x0 (by linarith)
    have h2 : a * rho ^ k ≤ 12 := by
      calc a * rho ^ k ≤ 6 * 2 := mul_le_mul ha6 hr2 hr0 (by norm_num)
        _ = 12 := by norm_num
    have h3 : (a * rho ^ k + A) * (a * rho ^ k + A)
        ≤ a * rho ^ k * (a * rho ^ k) + 25 * A := by nlinarith
    calc X * X ≤ (a * rho ^ k + A) * (a * rho ^ k + A) := h1
      _ ≤ a * rho ^ k * (a * rho ^ k) + 25 * A := h3
      _ = a * a * rho ^ (k + k) + 25 * A := by rw [e]; ring

/-- An absolute slack of at most `c * 2^-24` times the value costs `c + 1`
roundings. -/
theorem to_within {k c : Nat} {A a X : ℚ} (h : Near k A a X) (hk : k ≤ 400) (hc : c ≤ 400)
    (hA0 : 0 ≤ A) (hA : A * 2 ^ 24 ≤ c * a) : Within (k + (c + 1)) a X := by
  obtain ⟨a0, x0, ax, xa⟩ := h
  have hr1 : 1 ≤ rho ^ k := one_le_rho_pow k
  have hr2 : rho ^ k ≤ 1001 / 1000 := rho_pow_le k hk
  have hr0 : 0 ≤ rho ^ k := by linarith
  have hb := add_mul_le_rho_pow (c + 1)
  have hrho : rho - 1 = 1 / 16777215 := by norm_num [rho]
  rw [hrho] at hb
  push_cast at hb
  have e : rho ^ (k + (c + 1)) = rho ^ k * rho ^ (c + 1) := pow_add _ _ _
  have hc0 : (0 : ℚ) ≤ c := Nat.cast_nonneg c
  have hc4 : (c : ℚ) ≤ 400 := by exact_mod_cast hc
  have hA2 : A ≤ (c : ℚ) / 16777216 * a := by
    have : A * 2 ^ 24 = A * 16777216 := by norm_num
    rw [this] at hA
    linarith
  have hT0 : (0 : ℚ) ≤ (c : ℚ) / 16777216 := div_nonneg hc0 (by norm_num)
  refine ⟨a0, x0, ?_, ?_⟩
  · have h1 : (c : ℚ) / 16777216 * a ≤ (c : ℚ) / 16777216 * (a * rho ^ k) :=
      mul_le_mul_of_nonneg_left (le_mul_of_one_le_right a0 hr1) hT0
    have h2 : a * rho ^ k * (1 + ((c : ℚ) + 1) * (1 / 16777215)) ≤ a * rho ^ k * rho ^ (c + 1) :=
      mul_le_mul_of_nonneg_left hb (mul_nonneg a0 hr0)
    have h3 : (c : ℚ) / 16777216 * (a * rho ^ k)
        ≤ ((c : ℚ) + 1) * (1 / 16777215) * (a * rho ^ k) :=
      mul_le_mul_of_nonneg_right (by linarith) (mul_nonneg a0 hr0)
    rw [e, ← mul_assoc]
    linarith
  · have hXA : 0 ≤ X + A := by linarith
    have s1 : a ≤ (X + A) * (1001 / 1000) :=
      ax.trans (mul_le_mul_of_nonneg_left hr2 hXA)
    have s2 : A ≤ (c : ℚ) / 16777216 * ((X + A) * (1001 / 1000)) :=
      hA2.trans (mul_le_mul_of_nonneg_left s1 hT0)
    have s3 : (c : ℚ) / 16777216 * (A * (1001 / 1000)) ≤ 400 / 16777216 * (A * (1001 / 1000)) :=
      mul_le_mul_of_nonneg_right (by linarith) (mul_nonneg hA0 (by norm_num))
    have s4 : A * (39999 / 40000) ≤ (c : ℚ) / 16777216 * (1001 / 1000) * X := by
      have e2 : (c : ℚ) / 16777216 * ((X + A) * (1001 / 1000))
          = (c : ℚ) / 16777216 * (1001 / 1000) * X
            + (c : ℚ) / 16777216 * (A * (1001 / 1000)) := by ring
      rw [e2] at s2
      linarith
    have s5 : (c : ℚ) / 16777216 * (1001 / 1000) * X
        ≤ (39999 / 40000) * (((c : ℚ) + 1) * (1 / 16777215)) * X :=
      mul_le_mul_of_nonneg_right (by linarith) x0
    have s6 : A ≤ ((c : ℚ) + 1) * (1 / 16777215) * X := by
      have e3 : (39999 / 40000 : ℚ) * (((c : ℚ) + 1) * (1 / 16777215)) * X
          = (((c : ℚ) + 1) * (1 / 16777215) * X) * (39999 / 40000) := by ring
      rw [e3] at s5
      have s7 := s4.trans s5
      exact le_of_mul_le_mul_right s7 (by norm_num)
    have h2 : X + A ≤ X * (1 + ((c : ℚ) + 1) * (1 / 16777215)) := by linarith
    have h3 : X * (1 + ((c : ℚ) + 1) * (1 / 16777215)) ≤ X * rho ^ (c + 1) :=
      mul_le_mul_of_nonneg_left hb x0
    calc a ≤ (X + A) * rho ^ k := ax
      _ ≤ X * rho ^ (c + 1) * rho ^ k := mul_le_mul_of_nonneg_right (h2.trans h3) hr0
      _ = X * rho ^ (k + (c + 1)) := by rw [e]; ring

/-- A tiny absolute slack besides a number of at least one half costs one
rounding. -/
theorem to_within_tiny {k : Nat} {A a X : ℚ} (h : Near k A a X) (hA : A ≤ 1 / 2 ^ 100)
    (hX : 1 / 2 ≤ X) : Within (k + 1) a X := by
  obtain ⟨a0, x0, ax, xa⟩ := h
  have hr0 : 0 ≤ rho ^ k := pow_nonneg rho_pos.le k
  have hrho : rho = 1 + 1 / 16777215 := by norm_num [rho]
  have hA2 : A ≤ 1 / 4 * (1 / 16777215) := hA.trans (by norm_num)
  have e : rho ^ (k + 1) = rho ^ k * rho := pow_succ _ _
  refine ⟨a0, x0, ?_, ?_⟩
  · have h1 : 1 / 4 ≤ a * rho ^ k := by linarith
    rw [e, ← mul_assoc]
    generalize a * rho ^ k = R at *
    rw [hrho]
    linarith
  · have h1 : X + A ≤ X * rho := by rw [hrho]; linarith
    calc a ≤ (X + A) * rho ^ k := ax
      _ ≤ X * rho * rho ^ k := mul_le_mul_of_nonneg_right h1 hr0
      _ = X * rho ^ (k + 1) := by rw [e]; ring

end Near

/-- A non-negative number whose square is within 334 roundings of 1 is within
`1e-5` of 1. -/
theorem near_one_of_within {l : ℚ} (h : Within 334 (l * l) 1) (h0 : 0 ≤ l) :
    |l - 1| ≤ 1 / 100000 := by
  obtain ⟨-, -, h1, h2⟩ := h
  have e : rho ^ 334 = rho ^ 167 * rho ^ 167 := by rw [← pow_add]
  have hr : 0 < rho ^ 167 := pow_pos rho_pos 167
  have hr9 : rho ^ 167 ≤ 1 + 1 / 100000 := by norm_num [rho]
  rw [e] at h1 h2
  have hup : l ≤ rho ^ 167 := by
    by_contra hcon
    have := mul_self_lt_mul_self hr.le (not_le.1 hcon)
    linarith
  have hlow : 1 ≤ l * rho ^ 167 := by
    by_contra hcon
    have h3 := mul_self_lt_mul_self (mul_nonneg h0 hr.le) (not_le.1 hcon)
    have h4 : l * rho ^ 167 * (l * rho ^ 167) = l * l * (rho ^ 167 * rho ^ 167) := by ring
    linarith
  rw [abs_le]
  constructor
  · have h5 : l * rho ^ 167 ≤ l * (1 + 1 / 100000) := mul_le_mul_of_nonneg_left hr9 h0
    linarith
  · linarith
/-! ## Rounding error of the float operations, as rationals -/

namespace F32

theorem mag_nonneg (a : F32) : 0 ≤ a.mag := by
  unfold mag; positivity

theorem mag_eq_zero_iff (a : F32) : a.mag = 0 ↔ a.fix = 0 := by
  unfold mag
  rw [div_eq_zero_iff]
  constructor
  · rintro (h | h)
    · exact_mod_cast h
    · exact absurd h (by positivity)
  · intro h; left; exact_mod_cast h

theorem mag_zero (s : Bool) : (zero s).mag = 0 :=
  (mag_eq_zero_iff _).2 ((fix_eq_zero_iff _).2 (isZero_zero s))

theorem sign_round (s : Bool) (m : Nat) (e : Int) : (round s m e).sign = s := by
  unfold round
  split
  · exact sign_zero s
  · split
    · cases s <;> rfl
    · next h1 h2 => exact sign_ofBits_signBit s _ (by omega)

theorem isFinite_iff (a : F32) : a.isFinite = true ↔ a.expField ≠ 255 := by
  simp [isFinite]

theorem sval_of_sign_false {a : F32} (h : a.sign = false) : a.sval = (a.fix : Int) := by
  simp [sval, h]

theorem toRat_of_sign_false {a : F32} (h : a.sign = false) : a.toRat = a.mag := by
  unfold toRat mag
  rw [sval_of_sign_false h]
  push_cast
  rfl

/-- From the integer bounds of a rounding in the normal range to `Within 1`. -/
theorem within_of_bounds (F m j : Nat) (hm : m ≠ 0)
    (h1 : F * 2 ^ j * 16777216 ≤ m * 2 ^ 149 * 16777217)
    (h2 : m * 2 ^ 149 * 16777215 ≤ F * 2 ^ j * 16777216) :
    Within 1 ((F : ℚ) / 2 ^ 149) ((m : ℚ) / 2 ^ j) := by
  have hJ : (0 : ℚ) < 2 ^ j := by positivity
  have hm0 : (0 : ℚ) < m := by exact_mod_cast Nat.pos_of_ne_zero hm
  have h1q : (F : ℚ) * 2 ^ j * 16777216 ≤ (m : ℚ) * 2 ^ 149 * 16777217 := by exact_mod_cast h1
  have h2q : (m : ℚ) * 2 ^ 149 * 16777215 ≤ (F : ℚ) * 2 ^ j * 16777216 := by exact_mod_cast h2
  have hpos : (0 : ℚ) ≤ (m : ℚ) * 2 ^ 149 := by positivity
  refine ⟨by positivity, (div_pos hm0 hJ).le, ?_, ?_⟩
  · unfold rho
    rw [pow_one, div_mul_div_comm, div_le_div_iff₀ hJ (by positivity)]
    linarith
  · unfold rho
    rw [pow_one, div_mul_div_comm, div_le_div_iff₀ (by positivity) (by positivity)]
    linarith

theorem two_pow_23_le (m j : Nat) (hj : 149 ≤ j) (hlo : 2 ^ j ≤ m * 2 ^ 126) : 2 ^ 23 ≤ m := by
  by_contra hcon
  have h5 : m * 2 ^ 126 < 2 ^ 23 * 2 ^ 126 :=
    Nat.mul_lt_mul_of_pos_right (by omega) (Nat.two_pow_pos _)
  rw [← pow_add] at h5
  have h6 : 2 ^ (23 + 126) ≤ 2 ^ j := Nat.pow_le_pow_right (by decide) (by omega)
  omega

/-- A rounding to a finite float: the result is within a relative `2^-24` of the
value, or, below the normal range, within `2^-150` of it. -/
theorem round_near (s : Bool) (m j : Nat) (hj : 149 ≤ j)
    (hfin : (round s m (-(j : Int))).expField ≠ 255) :
    Near 1 (1 / 2 ^ 150) (round s m (-(j : Int))).mag ((m : ℚ) / 2 ^ j) := by
  by_cases hsub : m * 2 ^ 126 < 2 ^ j
  · obtain ⟨-, s1, s2⟩ := round_subnormal s m j hj hsub
    obtain ⟨k, hk⟩ : ∃ k, j = k + 149 := ⟨j - 149, by omega⟩
    have hk2 : j - 149 = k := by omega
    rw [hk2] at s1 s2
    unfold mag
    generalize (round s m (-(j : Int))).fix = F at *
    have s1q : (F : ℚ) * 2 ^ k * 2 ≤ 2 * m + 2 ^ k := by
      have h : ((F * 2 ^ k * 2 : Nat) : ℚ) ≤ ((2 * m + 2 ^ k : Nat) : ℚ) := Nat.cast_le.2 s1
      push_cast at h
      exact h
    have s2q : 2 * (m : ℚ) ≤ F * 2 ^ k * 2 + 2 ^ k := by
      have h : ((2 * m : Nat) : ℚ) ≤ ((F * 2 ^ k * 2 + 2 ^ k : Nat) : ℚ) := Nat.cast_le.2 s2
      push_cast at h
      exact h
    have hK : (0 : ℚ) < 2 ^ k := by positivity
    have hY : (m : ℚ) / 2 ^ j = m / 2 ^ k / 2 ^ 149 := by
      rw [hk, pow_add, div_div]
    have h149 : (0 : ℚ) < 2 ^ 149 := pow_pos (by norm_num) 149
    have h150 : (0 : ℚ) < 2 ^ 150 := pow_pos (by norm_num) 150
    have hY0 : (0 : ℚ) ≤ (m : ℚ) / 2 ^ k / 2 ^ 149 :=
      div_nonneg (div_nonneg (Nat.cast_nonneg m) hK.le) h149.le
    have hF0 : (0 : ℚ) ≤ (F : ℚ) / 2 ^ 149 := div_nonneg (Nat.cast_nonneg F) h149.le
    have hmk : (m : ℚ) / 2 ^ k ≤ F + 1 / 2 := by
      rw [div_le_iff₀ hK]; linarith
    have hFk : (F : ℚ) ≤ m / 2 ^ k + 1 / 2 := by
      have : (F : ℚ) * 2 ^ k ≤ (m / 2 ^ k + 1 / 2) * 2 ^ k := by
        rw [add_mul, div_mul_cancel₀ _ hK.ne']; linarith
      exact le_of_mul_le_mul_right this hK
    have e150 : (1 : ℚ) / 2 ^ 150 = 1 / 2 / 2 ^ 149 := by norm_num
    have hup : (F : ℚ) / 2 ^ 149 ≤ m / 2 ^ k / 2 ^ 149 + 1 / 2 ^ 150 := by
      rw [e150, ← add_div]
      exact div_le_div_of_nonneg_right hFk h149.le
    have hdn : (m : ℚ) / 2 ^ k / 2 ^ 149 ≤ F / 2 ^ 149 + 1 / 2 ^ 150 := by
      rw [e150, ← add_div]
      exact div_le_div_of_nonneg_right hmk h149.le
    unfold Near
    rw [hY, pow_one]
    refine ⟨hF0, hY0, ?_, ?_⟩
    · have : (m : ℚ) / 2 ^ k / 2 ^ 149 + 1 / 2 ^ 150
          ≤ ((m : ℚ) / 2 ^ k / 2 ^ 149 + 1 / 2 ^ 150) * rho :=
        le_mul_of_one_le_right (add_nonneg hY0 (div_nonneg zero_le_one h150.le)) one_le_rho
      linarith
    · have : (F : ℚ) / 2 ^ 149 ≤ (F : ℚ) / 2 ^ 149 * rho :=
        le_mul_of_one_le_right hF0 one_le_rho
      linarith
  · have hlo : 2 ^ j ≤ m * 2 ^ 126 := not_lt.1 hsub
    have h23 := two_pow_23_le m j hj hlo
    have hm : m ≠ 0 := by
      have : 0 < 2 ^ 23 := by decide
      omega
    obtain ⟨r1, r2⟩ := round_normal_of_finite s m j h23 hlo hfin
    exact Near.of_within (within_of_bounds _ m j hm r1 r2) (by positivity)

/-- A rounding of a value of at most `2^126` gives a finite float. -/
theorem round_finite (s : Bool) (m j : Nat) (hj : 149 ≤ j ∨ 2 ^ 23 ≤ m)
    (hY : (m : ℚ) / 2 ^ j ≤ 2 ^ 126) (hj2 : 149 ≤ j ∨ 2 ^ j ≤ m * 2 ^ 126) :
    (round s m (-(j : Int))).expField ≠ 255 := by
  have hJ : (0 : ℚ) < 2 ^ j := by positivity
  have hhi : m < 2 ^ (j + 127) := by
    rw [div_le_iff₀ hJ] at hY
    have h3 : m ≤ 2 ^ 126 * 2 ^ j := by exact_mod_cast hY
    have h4 : 2 ^ 126 * 2 ^ j < 2 ^ (j + 127) := by
      rw [← pow_add]
      exact Nat.pow_lt_pow_right (by decide) (by omega)
    omega
  by_cases hsub : m * 2 ^ 126 < 2 ^ j
  · rcases hj2 with h | h
    · exact (round_subnormal s m j h hsub).1
    · omega
  · have hlo : 2 ^ j ≤ m * 2 ^ 126 := not_lt.1 hsub
    have h23 : 2 ^ 23 ≤ m := by
      rcases hj with h | h
      · exact two_pow_23_le m j h hlo
      · exact h
    exact (round_normal s m j h23 hlo hhi).1

/-- A rounding of a multiple of `2^-149` to a finite float has no absolute
error: below the normal range the value is kept. -/
theorem round_within_units (s : Bool) (m : Nat)
    (hfin : (round s m (-((149 : Nat) : Int))).expField ≠ 255) :
    Within 1 (round s m (-((149 : Nat) : Int))).mag ((m : ℚ) / 2 ^ 149) := by
  by_cases hsub : m * 2 ^ 126 < 2 ^ 149
  · obtain ⟨-, s1, s2⟩ := round_subnormal s m 149 le_rfl hsub
    have hF : (round s m (-((149 : Nat) : Int))).fix = m := by
      simp only [Nat.sub_self, pow_zero, Nat.mul_one] at s1 s2
      omega
    unfold mag
    rw [hF]
    exact Within.refl 1 (by positivity)
  · have hlo : 2 ^ 149 ≤ m * 2 ^ 126 := not_lt.1 hsub
    have h23 := two_pow_23_le m 149 le_rfl hlo
    have hm : m ≠ 0 := by
      have : 0 < 2 ^ 23 := by decide
      omega
    obtain ⟨r1, r2⟩ := round_normal_of_finite s m 149 h23 hlo hfin
    exact within_of_bounds _ m 149 hm r1 r2

end F32
namespace F32

theorem expField_nan : nan.expField = 255 := by rfl

theorem expField_of_isInf {a : F32} (h : a.isInf = true) : a.expField = 255 := by
  simp only [isInf, Bool.and_eq_true, beq_iff_eq] at h
  exact h.1

theorem expField_of_isNaN {a : F32} (h : a.isNaN = true) : a.expField = 255 := by
  simp only [isNaN, Bool.and_eq_true, beq_iff_eq] at h
  exact h.1

/-- A finite sum has finite terms. -/
theorem finite_of_add {a b : F32} (h : (add a b).expField ≠ 255) :
    a.expField ≠ 255 ∧ b.expField ≠ 255 := by
  have key : ∀ c : F32, c.isNaN = false → c.isInf = false → c.expField ≠ 255 :=
    fun c h1 h2 => expField_ne_of h1 h2
  cases hNa : a.isNaN
  · cases hNb : b.isNaN
    · cases hIa : a.isInf
      · cases hIb : b.isInf
        · exact ⟨key a hNa hIa, key b hNb hIb⟩
        · simp only [add, hNa, hNb, hIa, hIb, Bool.or_self, Bool.false_eq_true, if_false,
            if_true] at h
          exact absurd (expField_of_isInf hIb) h
      · simp only [add, hNa, hNb, hIa, Bool.or_self, Bool.false_eq_true, if_false,
          if_true] at h
        split at h
        · exact absurd expField_nan h
        · exact absurd (expField_of_isInf hIa) h
    · simp only [add, hNa, hNb, Bool.or_true, if_true] at h
      exact absurd expField_nan h
  · simp only [add, hNa, Bool.true_or, if_true] at h
    exact absurd expField_nan h

/-- A finite square has a finite root. -/
theorem finite_of_mul_self {a : F32} (h : (mul a a).expField ≠ 255) : a.expField ≠ 255 := by
  cases hN : a.isNaN
  · cases hI : a.isInf
    · exact expField_ne_of hN hI
    · simp only [mul, hN, hI, Bool.or_self, Bool.false_eq_true, if_false, if_true] at h
      split at h
      · exact absurd expField_nan h
      · exact absurd (expField_inf _) h
  · simp only [mul, hN, Bool.or_self, if_true] at h
    exact absurd expField_nan h

theorem mul_self_eq (a : F32) (hfin : a.expField ≠ 255) :
    mul a a = round false (a.fix * a.fix) (-((298 : Nat) : Int)) := by
  simp [mul, isNaN_false_of hfin, isInf_false_of hfin]

theorem mul_self_mag (a : F32) : ((a.fix * a.fix : Nat) : ℚ) / 2 ^ 298 = a.mag * a.mag := by
  unfold mag
  rw [div_mul_div_comm, ← pow_add]
  push_cast
  rfl

theorem sign_mul_self (a : F32) (hfin : a.expField ≠ 255) : (mul a a).sign = false := by
  rw [mul_self_eq a hfin]; exact sign_round _ _ _

/-- The product `a * a`, when finite, against the square of the number `a`
stands for. -/
theorem mul_self_near (a : F32) (hfin : (mul a a).expField ≠ 255) :
    Near 1 (1 / 2 ^ 150) (mul a a).mag (a.mag * a.mag) := by
  have ha := finite_of_mul_self hfin
  rw [mul_self_eq a ha] at hfin ⊢
  rw [← mul_self_mag]
  exact round_near false _ 298 (by decide) hfin

/-- The product `a * a` of a float of magnitude at most `2^60` is finite. -/
theorem mul_self_finite (a : F32) (ha : a.expField ≠ 255) (hY : a.mag ≤ 2 ^ 60) :
    (mul a a).expField ≠ 255 := by
  rw [mul_self_eq a ha]
  apply round_finite false _ 298 (Or.inl (by decide)) _ (Or.inl (by decide))
  rw [mul_self_mag]
  calc a.mag * a.mag ≤ 2 ^ 60 * 2 ^ 60 :=
      mul_le_mul hY hY (mag_nonneg a) (by positivity)
    _ ≤ 2 ^ 126 := by norm_num

theorem add_eq_round (a b : F32) (ha : a.expField ≠ 255) (hb : b.expField ≠ 255)
    (has : a.sign = false) (hbs : b.sign = false) :
    add a b = round false (a.fix + b.fix) (-((149 : Nat) : Int)) := by
  rw [add_finite a b ha hb, sval_of_sign_false has, sval_of_sign_false hbs, has, hbs]
  by_cases h0 : a.fix + b.fix = 0
  · have h0i : (a.fix : Int) + (b.fix : Int) = 0 := by omega
    simp [h0i, h0, round]
  · have h0i : ¬ ((a.fix : Int) + (b.fix : Int) = 0) := by omega
    have hlt : ¬ ((a.fix : Int) + (b.fix : Int) < 0) := by omega
    have hna : ((a.fix : Int) + (b.fix : Int)).natAbs = a.fix + b.fix := by omega
    simp only [h0i, if_false, hlt, decide_False, hna]
    rfl

theorem add_mag (a b : F32) : ((a.fix + b.fix : Nat) : ℚ) / 2 ^ 149 = a.mag + b.mag := by
  unfold mag
  push_cast
  ring

/-- The sum of two floats of positive sign, when finite, against the sum of
the numbers they stand for: one rounding, no absolute error. -/
theorem add_within (a b : F32) (has : a.sign = false) (hbs : b.sign = false)
    (hfin : (add a b).expField ≠ 255) :
    (add a b).sign = false ∧ Within 1 (add a b).mag (a.mag + b.mag) := by
  obtain ⟨ha, hb⟩ := finite_of_add hfin
  rw [add_eq_round a b ha hb has hbs] at hfin ⊢
  rw [← add_mag]
  exact ⟨sign_round _ _ _, round_within_units false _ hfin⟩

/-- The sum of two finite floats of positive sign that stand for numbers of
sum at most `2^126` is finite. -/
theorem add_finite_of_le (a b : F32) (ha : a.expField ≠ 255) (hb : b.expField ≠ 255)
    (has : a.sign = false) (hbs : b.sign = false) (hY : a.mag + b.mag ≤ 2 ^ 126) :
    (add a b).expField ≠ 255 := by
  rw [add_eq_round a b ha hb has hbs]
  apply round_finite false _ 149 (Or.inl le_rfl) _ (Or.inl le_rfl)
  rw [add_mag]
  exact hY

theorem fix_lt (a : F32) (hfin : a.expField ≠ 255) : a.fix < 2 ^ 277 := by
  have hM := a.fracField_lt
  have hE := a.expField_lt
  unfold fix
  split
  · calc a.fracField < 0x800000 := hM
      _ ≤ 2 ^ 277 := by norm_num
  · have h1 : 2 ^ (a.expField - 1) ≤ 2 ^ 253 := Nat.pow_le_pow_right (by decide) (by omega)
    calc (8388608 + a.fracField) * 2 ^ (a.expField - 1)
        < 16777216 * 2 ^ (a.expField - 1) :=
          Nat.mul_lt_mul_of_pos_right (by omega) (Nat.two_pow_pos _)
      _ ≤ 16777216 * 2 ^ 253 := Nat.mul_le_mul_left _ h1
      _ = 2 ^ 277 := by norm_num

/-- The quotient with its sticky bit, `2 * (n / b) + (n % b ≠ 0)` for
`n = a * 2^512`, against `a * 2^513 / b`. -/
theorem div_sticky (fa fb : Nat) (hb0 : fb ≠ 0) (hb : fb < 2 ^ 277) :
    (2 * (fa * 2 ^ 512 / fb) + (if fa * 2 ^ 512 % fb = 0 then 0 else 1)) * fb * 16777216
      ≤ fa * 2 ^ 513 * 16777217 ∧
    fa * 2 ^ 513 * 16777215
      ≤ (2 * (fa * 2 ^ 512 / fb) + (if fa * 2 ^ 512 % fb = 0 then 0 else 1)) * fb * 16777216 := by
  have hdm := Nat.div_add_mod (fa * 2 ^ 512) fb
  have hr := Nat.mod_lt (fa * 2 ^ 512) (Nat.pos_of_ne_zero hb0)
  have h513 : fa * 2 ^ 513 = 2 * (fa * 2 ^ 512) := by rw [pow_succ]; ring
  rw [h513]
  have hbig : fa ≠ 0 → fb * 16777216 ≤ fa * 2 ^ 512 := by
    intro hfa
    have h1 : (2 : Nat) ^ 277 * 16777216 ≤ 2 ^ 512 := by norm_num
    have h2 : 2 ^ 512 ≤ fa * 2 ^ 512 := Nat.le_mul_of_pos_left _ (Nat.pos_of_ne_zero hfa)
    have h3 : fb * 16777216 ≤ 2 ^ 277 * 16777216 := Nat.mul_le_mul_right _ hb.le
    omega
  by_cases hfa : fa = 0
  · subst hfa
    simp only [Nat.zero_mul, Nat.zero_div, Nat.zero_mod, if_true, Nat.mul_zero, Nat.add_zero,
      le_refl, and_self]
  · have hbig := hbig hfa
    generalize fa * 2 ^ 512 = n at *
    generalize hq : n / fb = q at *
    generalize hrem : n % fb = r at *
    by_cases hr0 : r = 0
    · simp only [hr0, if_true, Nat.add_zero]
      have e : 2 * q * fb = 2 * (fb * q) := by ring
      rw [e]
      omega
    · simp only [hr0, if_false]
      have e : (2 * q + 1) * fb = 2 * (fb * q) + fb := by ring
      rw [e]
      omega

/-- The quotient of two finite floats, against the quotient of the numbers
they stand for, when that is at most `2^100`. -/
theorem div_near (a b : F32) (ha : a.expField ≠ 255) (hb : b.expField ≠ 255)
    (hb0 : b.fix ≠ 0) (hY : a.mag / b.mag ≤ 2 ^ 100) :
    (div a b).expField ≠ 255 ∧ Near 2 (2 * (1 / 2 ^ 150)) (div a b).mag (a.mag / b.mag) := by
  have hbz : b.isZero = false := by
    cases h : b.isZero
    · rfl
    · exact absurd ((fix_eq_zero_iff b).2 h) hb0
  obtain ⟨m, hm⟩ : ∃ m, m = 2 * (a.fix * 2 ^ 512 / b.fix)
      + (if a.fix * 2 ^ 512 % b.fix = 0 then 0 else 1) := ⟨_, rfl⟩
  have hdiv : div a b = round (a.sign != b.sign) m (-((513 : Nat) : Int)) := by
    rw [hm]
    simp only [div, isNaN_false_of ha, isInf_false_of ha, isNaN_false_of hb, isInf_false_of hb,
      hbz, Bool.or_self, Bool.false_eq_true, if_false]
    rfl
  obtain ⟨s1, s2⟩ := div_sticky a.fix b.fix hb0 (fix_lt b hb)
  rw [← hm] at s1 s2
  have hB : (0 : ℚ) < b.fix := by exact_mod_cast Nat.pos_of_ne_zero hb0
  have hq : a.mag / b.mag = (a.fix : ℚ) / b.fix := by
    unfold mag
    rw [div_div_div_cancel_right₀ (by positivity)]
  have hYW : Within 1 ((m : ℚ) / 2 ^ 513) (a.mag / b.mag) := by
    rw [hq]
    have hP : (0 : ℚ) < 2 ^ 513 := pow_pos (by norm_num) 513
    have hc : ((2 ^ 513 : Nat) : ℚ) = (2 : ℚ) ^ 513 := by rw [Nat.cast_pow, Nat.cast_ofNat]
    generalize (2 : Nat) ^ 513 = Pn at s1 s2 hc
    generalize (2 : ℚ) ^ 513 = P at *
    have s1q : (m : ℚ) * b.fix * 16777216 ≤ (a.fix : ℚ) * P * 16777217 := by
      rw [← hc]; exact_mod_cast s1
    have s2q : (a.fix : ℚ) * P * 16777215 ≤ (m : ℚ) * b.fix * 16777216 := by
      rw [← hc]; exact_mod_cast s2
    have hA : (0 : ℚ) ≤ (a.fix : ℚ) * P := mul_nonneg (Nat.cast_nonneg _) hP.le
    have hM : (0 : ℚ) ≤ (m : ℚ) * b.fix := mul_nonneg (Nat.cast_nonneg _) hB.le
    refine ⟨div_nonneg (Nat.cast_nonneg _) hP.le, div_nonneg (Nat.cast_nonneg _) hB.le, ?_, ?_⟩
    · unfold rho
      rw [pow_one, div_mul_div_comm, div_le_div_iff₀ hB (mul_pos hP (by norm_num))]
      linarith
    · unfold rho
      rw [pow_one, div_mul_div_comm, div_le_div_iff₀ hP (mul_pos hB (by norm_num))]
      linarith
  have hY2 : (m : ℚ) / 2 ^ 513 ≤ 2 ^ 126 := by
    obtain ⟨-, -, -, h4⟩ := hYW
    rw [pow_one] at h4
    have h5 : a.mag / b.mag * rho ≤ 2 ^ 100 * 2 :=
      mul_le_mul hY (by norm_num [rho]) rho_pos.le (by positivity)
    have h6 : (2 : ℚ) ^ 100 * 2 ≤ 2 ^ 126 := by norm_num
    linarith
  have hfin : (div a b).expField ≠ 255 := by
    rw [hdiv]
    exact round_finite _ m 513 (Or.inl (by decide)) hY2 (Or.inl (by decide))
  refine ⟨hfin, ?_⟩
  rw [hdiv] at hfin ⊢
  have h1 := round_near (a.sign != b.sign) m 513 (by decide) hfin
  have h2 := h1.chain (Near.of_within hYW le_rfl) (by decide) (by positivity)
  rw [add_zero] at h2
  exact h2

end F32
namespace F32

theorem isqrt_spec (n : Nat) (hn : n ≠ 0) :
    isqrt n * isqrt n ≤ n ∧ n < (isqrt n + 1) * (isqrt n + 1) := by
  unfold isqrt
  apply isqrtAux_spec _ n 0 (Nat.zero_le _)
  obtain ⟨-, h2⟩ := ilog2_spec n hn
  have h3 : 2 ^ (ilog2 n + 1) ≤ 2 ^ (ilog2 n / 2 + 1 + (ilog2 n / 2 + 1)) :=
    Nat.pow_le_pow_right (by decide) (by omega)
  have h4 : 2 ^ (ilog2 n / 2 + 1 + (ilog2 n / 2 + 1))
      = 2 ^ (ilog2 n / 2 + 1) * 2 ^ (ilog2 n / 2 + 1) := pow_add _ _ _
  rw [Nat.zero_add]
  omega

/-- The doubled root with its sticky bit, `m = 2 * r + (r * r ≠ n)` for
`r = isqrt n`: its size, and its square against `4 * n`. -/
theorem sqrt_sticky (n : Nat) (hn : 2 ^ 48 ≤ n) (hn2 : n < 2 ^ 203 * 2 ^ 203) :
    2 ^ 23 ≤ 2 * isqrt n + (if isqrt n * isqrt n = n then 0 else 1) ∧
    2 * isqrt n + (if isqrt n * isqrt n = n then 0 else 1) < 2 ^ 205 ∧
    (2 * isqrt n + (if isqrt n * isqrt n = n then 0 else 1))
        * (2 * isqrt n + (if isqrt n * isqrt n = n then 0 else 1)) * 16777216
      ≤ 4 * n * 16777217 ∧
    4 * n * 16777215
      ≤ (2 * isqrt n + (if isqrt n * isqrt n = n then 0 else 1))
        * (2 * isqrt n + (if isqrt n * isqrt n = n then 0 else 1)) * 16777216 := by
  have hn0 : n ≠ 0 := by
    have : 0 < 2 ^ 48 := Nat.two_pow_pos _
    omega
  obtain ⟨h1, h2⟩ := isqrt_spec n hn0
  generalize isqrt n = r at *
  have hr : 16777216 ≤ r := by
    by_contra hcon
    have h3 : (r + 1) * (r + 1) ≤ 16777216 * 16777216 := Nat.mul_le_mul (by omega) (by omega)
    have h4 : (16777216 : Nat) * 16777216 = 2 ^ 48 := by norm_num
    omega
  have hr203 : r < 2 ^ 203 := by
    by_contra hcon
    have h3 : 2 ^ 203 * 2 ^ 203 ≤ r * r := Nat.mul_le_mul (by omega) (by omega)
    omega
  have h205 : (2 : Nat) ^ 205 = 4 * 2 ^ 203 := by
    rw [show 205 = 203 + 2 by rfl, pow_add]; ring
  have hrr : 16777216 * r ≤ r * r := Nat.mul_le_mul_right _ hr
  have e1 : (r + 1) * (r + 1) = r * r + 2 * r + 1 := by ring
  rw [e1] at h2
  have h23 : (2 : Nat) ^ 23 = 8388608 := by norm_num
  rw [h23, h205]
  have hp203 : 0 < 2 ^ 203 := Nat.two_pow_pos _
  generalize (2 : Nat) ^ 203 = P at *
  by_cases hs : r * r = n
  · simp only [hs, if_true, Nat.add_zero]
    have e2 : 2 * r * (2 * r) = 4 * (r * r) := by ring
    rw [e2, hs]
    omega
  · simp only [hs, if_false]
    have e2 : (2 * r + 1) * (2 * r + 1) = 4 * (r * r) + 4 * r + 1 := by ring
    rw [e2]
    omega

/-- The square root of a finite, non-zero float of positive sign: it is finite,
not zero, and its square is within three roundings of the number the float
stands for. -/
theorem sqrt_within (a : F32) (haf : a.expField ≠ 255) (has : a.sign = false)
    (hfix : a.fix ≠ 0) :
    (sqrt a).expField ≠ 255 ∧ (sqrt a).sign = false ∧
      Within 3 ((sqrt a).mag * (sqrt a).mag) a.mag := by
  have hz : a.isZero = false := by
    cases h : a.isZero
    · rfl
    · exact absurd ((fix_eq_zero_iff a).2 h) hfix
  obtain ⟨m, hm⟩ : ∃ m, m = 2 * isqrt (a.fix * 2 ^ 129)
      + (if isqrt (a.fix * 2 ^ 129) * isqrt (a.fix * 2 ^ 129) = a.fix * 2 ^ 129 then 0
        else 1) := ⟨_, rfl⟩
  have hsq : sqrt a = round false m (-((140 : Nat) : Int)) := by
    rw [hm]
    simp only [sqrt, isNaN_false_of haf, isInf_false_of haf, hz, has, Bool.false_eq_true,
      if_false]
    rfl
  have hn48 : 2 ^ 48 ≤ a.fix * 2 ^ 129 := by
    have h1 : (2 : Nat) ^ 48 ≤ 2 ^ 129 := Nat.pow_le_pow_right (by decide) (by decide)
    have h2 : 2 ^ 129 ≤ a.fix * 2 ^ 129 := Nat.le_mul_of_pos_left _ (Nat.pos_of_ne_zero hfix)
    omega
  have hn406 : a.fix * 2 ^ 129 < 2 ^ 203 * 2 ^ 203 := by
    have h1 : a.fix * 2 ^ 129 < 2 ^ 277 * 2 ^ 129 :=
      Nat.mul_lt_mul_of_pos_right (fix_lt a haf) (Nat.two_pow_pos _)
    have h2 : (2 : Nat) ^ 277 * 2 ^ 129 = 2 ^ 203 * 2 ^ 203 := by
      rw [← pow_add, ← pow_add]
    omega
  obtain ⟨s0, s3, s1, s2⟩ := sqrt_sticky (a.fix * 2 ^ 129) hn48 hn406
  rw [← hm] at s0 s3 s1 s2
  have hmne : m ≠ 0 := by
    have : 0 < 2 ^ 23 := by decide
    omega
  have hYa : Within 1 ((m : ℚ) / 2 ^ 140 * ((m : ℚ) / 2 ^ 140)) a.mag := by
    have s1q : (m : ℚ) * m * 16777216 ≤ 4 * ((a.fix : ℚ) * 2 ^ 129) * 16777217 := by
      exact_mod_cast s1
    have s2q : 4 * ((a.fix : ℚ) * 2 ^ 129) * 16777215 ≤ (m : ℚ) * m * 16777216 := by
      exact_mod_cast s2
    have e : a.mag = 4 * ((a.fix : ℚ) * 2 ^ 129) / (2 ^ 140 * 2 ^ 140) := by
      unfold mag
      rw [div_eq_div_iff (by positivity) (by positivity)]
      ring
    have hA : (0 : ℚ) ≤ 4 * ((a.fix : ℚ) * 2 ^ 129) := by positivity
    have hM : (0 : ℚ) ≤ (m : ℚ) * m := by positivity
    rw [e, div_mul_div_comm]
    have hD : (0 : ℚ) < 2 ^ 140 * 2 ^ 140 := by positivity
    generalize (2 : ℚ) ^ 140 * 2 ^ 140 = D at *
    generalize 4 * ((a.fix : ℚ) * 2 ^ 129) = A at *
    generalize (m : ℚ) * m = M at *
    refine ⟨div_nonneg hM hD.le, div_nonneg hA hD.le, ?_, ?_⟩
    · unfold rho
      rw [pow_one, div_mul_div_comm, div_le_div_iff₀ hD (mul_pos hD (by norm_num))]
      have h3 := mul_le_mul_of_nonneg_right s2q hD.le
      have h4 := mul_nonneg hM hD.le
      linarith
    · unfold rho
      rw [pow_one, div_mul_div_comm, div_le_div_iff₀ hD (mul_pos hD (by norm_num))]
      have h3 := mul_le_mul_of_nonneg_right s1q hD.le
      have h4 := mul_nonneg hA hD.le
      linarith
  have hlo : 2 ^ 140 ≤ m * 2 ^ 126 := by
    have h1 : (2 : Nat) ^ 140 = 2 ^ 14 * 2 ^ 126 := by rw [← pow_add]
    have h2 : 2 ^ 14 * 2 ^ 126 ≤ m * 2 ^ 126 :=
      Nat.mul_le_mul_right _ (le_trans (Nat.pow_le_pow_right (by decide) (by decide)) s0)
    omega
  have hhi : m < 2 ^ (140 + 127) := by
    obtain ⟨e, he⟩ : ∃ e, e = 140 + 127 := ⟨_, rfl⟩
    rw [← he]
    exact lt_of_lt_of_le s3 (Nat.pow_le_pow_right (by decide) (by omega))
  obtain ⟨r1, r2, r3⟩ := round_normal false m 140 s0 hlo hhi
  have hW := within_of_bounds _ m 140 hmne r2 r3
  rw [hsq]
  refine ⟨r1, sign_round _ _ _, ?_⟩
  exact (hW.sq.trans hYa).mono (by decide)

/-- A float that is not zero compares unequal to `T(0)`. -/
theorem ne_zero_of_fix_ne {a : F32} (h : a.fix ≠ 0) :
    Scalar.ne a (Scalar.zero : F32) = true := by
  have hz : a.isZero = false := by
    cases hz : a.isZero
    · rfl
    · exact absurd ((fix_eq_zero_iff a).2 hz) h
  have hb : (a.bits == (zero false).bits) = false := by
    cases hb : (a.bits == (zero false).bits)
    · rfl
    · rw [beq_iff_eq] at hb
      rw [ext_bits hb, isZero_zero] at hz
      exact absurd hz (by decide)
  show (!(F32.eq a (zero false))) = true
  simp [F32.eq, hz, hb]

end F32
/-! ## Sums of squares: the loop of `dot(v, v)` -/

namespace F32

/-- Adding to `+0.0f` keeps a finite float of positive sign. -/
theorem zero_add_of_finite (s : F32) (hf : s.expField ≠ 255) (hs : s.sign = false) :
    add (zero false) s = s := by
  rw [add_finite _ _ (by rw [expField_zero]; decide) hf,
    sval_of_isZero (isZero_zero false), Int.zero_add]
  by_cases h0 : s.sval = 0
  · simp only [h0, if_true, sign_zero, Bool.false_and]
    have hz : s.isZero = true := (fix_eq_zero_iff s).1 ((sval_eq_zero_iff s).1 h0)
    simp only [isZero, Bool.and_eq_true, beq_iff_eq] at hz
    exact (ext_fields (by rw [sign_zero, hs]) (by rw [expField_zero, hz.1])
      (by rw [fracField_zero, hz.2]))
  · simp only [h0, if_false]
    exact round_sval s hf h0

/-- When the loop ends on a finite float, it started from one and every term
was finite. -/
theorem fold_finite_back (g : F32 → F32) : ∀ (xs : List F32) (acc : F32),
    (xs.foldl (fun r x => add r (mul (g x) (g x))) acc).expField ≠ 255 →
    acc.expField ≠ 255 ∧ ∀ x ∈ xs, (g x).expField ≠ 255 := by
  intro xs
  induction xs with
  | nil =>
    intro acc h
    exact ⟨h, fun x hx => absurd hx (List.not_mem_nil x)⟩
  | cons y ys ih =>
    intro acc h
    obtain ⟨h1, h2⟩ := ih _ h
    obtain ⟨h3, h4⟩ := finite_of_add h1
    refine ⟨h3, fun x hx => ?_⟩
    rcases List.mem_cons.1 hx with hxy | hxy
    · rw [hxy]; exact finite_of_mul_self h4
    · exact h2 x hxy

/-- The loop, when it ends on a finite float: one rounding more per term, and
an absolute slack of `η` per term, the slack of one square. -/
theorem fold_near (g : F32 → F32) (η : ℚ) (hη : 0 ≤ η) : ∀ (xs : List F32) (acc : F32)
    (k : Nat) (A P : ℚ),
    (∀ x ∈ xs, (mul (g x) (g x)).expField ≠ 255 →
      Near 1 η (mul (g x) (g x)).mag ((g x).mag * (g x).mag)) →
    (xs.foldl (fun r x => add r (mul (g x) (g x))) acc).expField ≠ 255 →
    acc.sign = false → 1 ≤ k → 0 ≤ A → Near k A acc.mag P →
    (xs.foldl (fun r x => add r (mul (g x) (g x))) acc).sign = false ∧
    Near (k + xs.length) (A + xs.length * η)
      (xs.foldl (fun r x => add r (mul (g x) (g x))) acc).mag
      (P + (xs.map (fun x => (g x).mag * (g x).mag)).sum) := by
  intro xs
  induction xs with
  | nil =>
    intro acc k A P _ _ hs _ hA h
    simpa using And.intro hs h
  | cons y ys ih =>
    intro acc k A P hsq hfin hs hk hA h
    have hfin1 : (ys.foldl (fun r x => add r (mul (g x) (g x)))
        (add acc (mul (g y) (g y)))).expField ≠ 255 := hfin
    have hadd := (fold_finite_back g ys _ hfin1).1
    obtain ⟨-, hsf⟩ := finite_of_add hadd
    have hgy := finite_of_mul_self hsf
    have hsn : Near k η (mul (g y) (g y)).mag ((g y).mag * (g y).mag) :=
      (hsq y (List.mem_cons_self y ys) hsf).widen hk hη le_rfl
    obtain ⟨hs1, hw⟩ := add_within acc (mul (g y) (g y)) hs (sign_mul_self _ hgy) hadd
    have hstep := Near.rounded hw (h.plus hsn)
    obtain ⟨r1, r2⟩ := ih _ (k + 1) (A + η) (P + (g y).mag * (g y).mag)
      (fun x hx => hsq x (List.mem_cons_of_mem y hx)) hfin1 hs1 (by omega) (by linarith) hstep
    refine ⟨r1, ?_⟩
    have e1 : P + ((y :: ys).map (fun x => (g x).mag * (g x).mag)).sum
        = P + (g y).mag * (g y).mag + (ys.map (fun x => (g x).mag * (g x).mag)).sum := by
      rw [List.map_cons, List.sum_cons, add_assoc]
    rw [e1]
    have hlen : ((y :: ys).length : ℚ) = (ys.length : ℚ) + 1 := by
      rw [List.length_cons]; push_cast; rfl
    have hA2 : (0 : ℚ) ≤ A + η + ys.length * η := by positivity
    refine r2.widen (by rw [List.length_cons]; omega) hA2 ?_
    rw [hlen]
    linarith

/-- The loop over finite terms of magnitude at most 4 ends on a finite float:
every turn adds at most 41 to a bound on the sum. -/
theorem fold_finite (g : F32 → F32) : ∀ (xs : List F32) (acc : F32) (B : ℚ),
    acc.expField ≠ 255 → acc.sign = false → acc.mag ≤ B →
    (∀ x ∈ xs, (g x).expField ≠ 255 ∧ (g x).mag ≤ 4) → B + 41 * xs.length ≤ 2 ^ 20 →
    (xs.foldl (fun r x => add r (mul (g x) (g x))) acc).expField ≠ 255 := by
  intro xs
  induction xs with
  | nil =>
    intro acc B h _ _ _ _
    exact h
  | cons y ys ih =>
    intro acc B hf hs hB hx hlen
    obtain ⟨hy1, hy2⟩ := hx y (List.mem_cons_self y ys)
    have hl : ((y :: ys).length : ℚ) = (ys.length : ℚ) + 1 := by
      rw [List.length_cons]; push_cast; rfl
    rw [hl] at hlen
    have hl0 : (0 : ℚ) ≤ ys.length := Nat.cast_nonneg _
    have hB0 : 0 ≤ B := le_trans (mag_nonneg acc) hB
    have hB20 : B + 40 ≤ 2 ^ 20 := by linarith
    have hsf := mul_self_finite (g y) hy1 (hy2.trans (by norm_num))
    have hss := sign_mul_self (g y) hy1
    have hsm : (mul (g y) (g y)).mag ≤ 40 := by
      obtain ⟨-, -, h3, -⟩ := mul_self_near (g y) hsf
      rw [pow_one] at h3
      have h4 : (g y).mag * (g y).mag ≤ 4 * 4 :=
        mul_le_mul hy2 hy2 (mag_nonneg _) (by norm_num)
      have h5 : ((g y).mag * (g y).mag + 1 / 2 ^ 150) * rho ≤ 17 * 2 :=
        mul_le_mul (by
          have : (1 : ℚ) / 2 ^ 150 ≤ 1 := by
            rw [div_le_one (by positivity)]
            exact one_le_pow₀ (by norm_num)
          linarith) (by norm_num [rho]) rho_pos.le (by norm_num)
      linarith
    have hadd := add_finite_of_le acc _ hf hsf hs hss (by
      have : (2 : ℚ) ^ 20 ≤ 2 ^ 126 := by norm_num
      linarith)
    obtain ⟨hs1, -, -, -, hw⟩ := add_within acc _ hs hss hadd
    rw [pow_one] at hw
    have hm : (add acc (mul (g y) (g y))).mag ≤ B + 41 := by
      have hrho : rho = 1 + 1 / 16777215 := by norm_num [rho]
      have h6 : (acc.mag + (mul (g y) (g y)).mag) * rho ≤ (B + 40) * rho :=
        mul_le_mul_of_nonneg_right (by linarith) rho_pos.le
      rw [hrho] at h6 hw
      have h7 : (B + 40) * (1 / 16777215) ≤ 2 ^ 20 * (1 / 16777215) :=
        mul_le_mul_of_nonneg_right hB20 (by norm_num)
      have h8 : (2 : ℚ) ^ 20 * (1 / 16777215) ≤ 1 := by norm_num
      linarith
    exact ih _ (B + 41) hadd hs1 hm (fun x hx2 => hx x (List.mem_cons_of_mem y hx2))
      (by linarith)

/-- Term by term nearness gives nearness of the sums. -/
theorem near_sum (u w : F32 → ℚ) (k : Nat) (A : ℚ) : ∀ xs : List F32,
    (∀ x ∈ xs, Near k A (u x) (w x)) →
    Near k (xs.length * A) (xs.map u).sum (xs.map w).sum := by
  intro xs
  induction xs with
  | nil =>
    intro _
    simp [Near]
  | cons y ys ih =>
    intro h
    have h1 := h y (List.mem_cons_self y ys)
    have h2 := ih (fun x hx => h x (List.mem_cons_of_mem y hx))
    have h3 := h1.plus h2
    rw [List.map_cons, List.map_cons, List.sum_cons, List.sum_cons]
    have e : ((y :: ys).length : ℚ) * A = A + ys.length * A := by
      rw [List.length_cons]; push_cast; ring
    rw [e]
    exact h3

theorem sum_map_div (u : F32 → ℚ) (c : ℚ) : ∀ xs : List F32,
    (xs.map (fun x => u x / c)).sum = (xs.map u).sum / c := by
  intro xs
  induction xs with
  | nil => simp
  | cons y ys ih =>
    rw [List.map_cons, List.map_cons, List.sum_cons, List.sum_cons, ih, add_div]

theorem sq_le_sum (u : F32 → ℚ) (hu : ∀ x, 0 ≤ u x) : ∀ (xs : List F32) (x : F32),
    x ∈ xs → u x ≤ (xs.map u).sum := by
  intro xs
  induction xs with
  | nil =>
    intro x hx
    exact absurd hx (List.not_mem_nil x)
  | cons y ys ih =>
    intro x hx
    have hs : 0 ≤ (ys.map u).sum := List.sum_nonneg (by
      intro z hz
      obtain ⟨t, -, rfl⟩ := List.mem_map.1 hz
      exact hu t)
    rw [List.map_cons, List.sum_cons]
    rcases List.mem_cons.1 hx with h | h
    · rw [h]; linarith
    · have := ih x h
      have := hu y
      linarith

end F32
namespace F32

/-- The computation of `length(normalize(v))` on the list `xs` of the `n`
components of `v`, both squared lengths summed by the loop from `+0.0f`: when
the squared length `d` of `v` is finite, positive and within `K` roundings of
the exact sum of squares, with `K + n + 12 ≤ 334`, the length `sqrt d` is finite
and not zero, every quotient is finite, of magnitude at most 4, and the length of
the quotients is within `1e-5` of 1. -/
theorem normalize_list_core (xs : List F32) (K : Nat) (hK : K + xs.length + 12 ≤ 334)
    (hfin : (xs.foldl (fun r x => add r (mul x x)) (zero false)).expField ≠ 255)
    (ds : (xs.foldl (fun r x => add r (mul x x)) (zero false)).sign = false)
    (hdpos : 0 < (xs.foldl (fun r x => add r (mul x x)) (zero false)).mag)
    (hdS : Within K (xs.foldl (fun r x => add r (mul x x)) (zero false)).mag
      (xs.map (fun x => x.mag * x.mag)).sum) :
    Scalar.ne (sqrt (xs.foldl (fun r x => add r (mul x x)) (zero false)))
      (Scalar.zero : F32) = true ∧
    (∀ x ∈ xs, (div x (sqrt (xs.foldl (fun r x => add r (mul x x)) (zero false)))).expField
        ≠ 255 ∧
      (div x (sqrt (xs.foldl (fun r x => add r (mul x x)) (zero false)))).mag ≤ 4) ∧
    (sqrt (xs.foldl (fun r x => add r
      (mul (div x (sqrt (xs.foldl (fun r x => add r (mul x x)) (zero false))))
        (div x (sqrt (xs.foldl (fun r x => add r (mul x x)) (zero false))))))
      (zero false))).nearOne := by
  have hη : (0 : ℚ) ≤ 1 / 2 ^ 150 := by positivity
  have h00 : Near 1 0 (zero false).mag 0 := by
    rw [mag_zero]; simp [Near]
  obtain ⟨-, hxf⟩ := fold_finite_back (fun x => x) xs (zero false) hfin
  generalize hd : xs.foldl (fun r x => add r (mul x x)) (zero false) = d at *
  generalize hS : (xs.map (fun x => x.mag * x.mag)).sum = S at *
  have h322 : xs.length ≤ 322 := by omega
  have hN322 : (xs.length : ℚ) ≤ 322 := by exact_mod_cast h322
  have hdfix : d.fix ≠ 0 := fun h0 => hdpos.ne' ((mag_eq_zero_iff d).2 h0)
  -- the length
  obtain ⟨Lf, Ls, LW⟩ := sqrt_within d hfin ds hdfix
  generalize hL : sqrt d = L at *
  have hLS : Within (K + 3) (L.mag * L.mag) S := (LW.trans hdS).mono (by omega)
  have hLL : 0 < L.mag * L.mag := by
    obtain ⟨-, -, h3, -⟩ := LW
    by_contra hcon
    have h0 : L.mag * L.mag = 0 := le_antisymm (not_lt.1 hcon) (mul_self_nonneg _)
    rw [h0, zero_mul] at h3
    linarith
  have hLpos : 0 < L.mag := by
    rcases (mag_nonneg L).lt_or_eq with h | h
    · exact h
    · rw [← h, mul_zero] at hLL; exact absurd hLL (lt_irrefl _)
  have hLfix : L.fix ≠ 0 := fun h0 => hLpos.ne' ((mag_eq_zero_iff L).2 h0)
  have hS2 : S ≤ 2 * (L.mag * L.mag) := by
    obtain ⟨-, -, h3, -⟩ := hLS
    have := mul_le_mul_of_nonneg_left (rho_pow_le_two (K + 3) (by omega)) hLL.le
    linarith
  -- the quotients
  have hq : ∀ x ∈ xs, (div x L).expField ≠ 255 ∧ (div x L).mag ≤ 4 ∧
      Near 4 (25 * (2 * (1 / 2 ^ 150))) ((div x L).mag * (div x L).mag)
        (x.mag * x.mag / (L.mag * L.mag)) := by
    intro x hx
    have hxS : x.mag * x.mag ≤ S := by
      rw [← hS]
      exact sq_le_sum (fun x => x.mag * x.mag) (fun x => mul_self_nonneg _) xs x hx
    have hQ2 : x.mag / L.mag * (x.mag / L.mag) ≤ 2 := by
      rw [div_mul_div_comm, div_le_iff₀ hLL]
      linarith
    have hQ0 : 0 ≤ x.mag / L.mag := div_nonneg (mag_nonneg x) hLpos.le
    have hQ : x.mag / L.mag ≤ 2 := by
      by_contra hcon
      have := mul_self_lt_mul_self (by norm_num : (0 : ℚ) ≤ 2) (not_le.1 hcon)
      linarith
    obtain ⟨q1, q2⟩ := div_near x L (hxf x hx) Lf hLfix (hQ.trans (by norm_num))
    have hη2 : (2 : ℚ) * (1 / 2 ^ 150) ≤ 1 / 1000 := by norm_num
    refine ⟨q1, ?_, ?_⟩
    · obtain ⟨-, -, h3, -⟩ := q2
      have h5 : (x.mag / L.mag + 2 * (1 / 2 ^ 150)) * rho ^ 2 ≤ 3 * (1001 / 1000) :=
        mul_le_mul (by linarith) (rho_pow_le 2 (by decide)) (pow_nonneg rho_pos.le 2)
          (by norm_num)
      linarith
    · have h6 := q2.square (by decide) hQ (by positivity) (by linarith)
      rw [div_mul_div_comm] at h6
      exact h6
  -- the squared length of the quotients
  have hq4 : ∀ x ∈ xs, (div x L).expField ≠ 255 ∧ (div x L).mag ≤ 4 :=
    fun x hx => ⟨(hq x hx).1, (hq x hx).2.1⟩
  have hfin2 := fold_finite (fun x => div x L) xs (zero false) 0
    (by rw [expField_zero]; decide) (sign_zero false) (by rw [mag_zero]) hq4 (by
      have : (41 : ℚ) * xs.length ≤ 41 * 322 := mul_le_mul_of_nonneg_left hN322 (by norm_num)
      have h20 : (0 : ℚ) + 41 * 322 ≤ 2 ^ 20 := by norm_num
      linarith)
  obtain ⟨es, en⟩ := fold_near (fun x => div x L) (1 / 2 ^ 150) hη xs (zero false) 1 0 0
    (fun x _ hx => mul_self_near (div x L) hx) hfin2 (sign_zero false) le_rfl le_rfl h00
  rw [AddZeroClass.zero_add, AddZeroClass.zero_add] at en
  have hsum := near_sum (fun x => (div x L).mag * (div x L).mag)
    (fun x => x.mag * x.mag / (L.mag * L.mag)) 4 (25 * (2 * (1 / 2 ^ 150))) xs
    (fun x hx => (hq x hx).2.2)
  rw [sum_map_div, hS] at hsum
  have hen := en.chain hsum (by decide) (by positivity)
  generalize he : xs.foldl (fun r x => add r (mul (div x L) (div x L))) (zero false) = e at *
  have hS1 : Within (K + 3) (S / (L.mag * L.mag)) 1 := by
    have h := hLS.symm.div (Within.refl 0 hLL.le)
    rw [div_self hLL.ne'] at h
    exact h.mono (by omega)
  have hShalf : 1 / 2 ≤ S / (L.mag * L.mag) := by
    obtain ⟨-, -, h3, -⟩ := hS1
    have := mul_le_mul_of_nonneg_left (rho_pow_le_two (K + 3) (by omega))
      (div_nonneg (hLS.2.1) hLL.le)
    linarith
  have hA : 2 * ((xs.length : ℚ) * (1 / 2 ^ 150)) + xs.length * (25 * (2 * (1 / 2 ^ 150)))
      ≤ 1 / 2 ^ 100 := by
    have e1 : 2 * ((xs.length : ℚ) * (1 / 2 ^ 150)) + xs.length * (25 * (2 * (1 / 2 ^ 150)))
        = xs.length * (52 / 2 ^ 150) := by ring
    rw [e1]
    calc (xs.length : ℚ) * (52 / 2 ^ 150) ≤ 322 * (52 / 2 ^ 150) :=
          mul_le_mul_of_nonneg_right hN322 (by positivity)
      _ ≤ 1 / 2 ^ 100 := by norm_num
  have heS : Within (1 + xs.length + 4 + 1 + (K + 3)) e.mag 1 :=
    ((hen.to_within_tiny hA hShalf).trans hS1).mono (by omega)
  have hepos : 0 < e.mag := by
    obtain ⟨-, -, h3, -⟩ := heS
    by_contra hcon
    have h0 : e.mag = 0 := le_antisymm (not_lt.1 hcon) (mag_nonneg e)
    rw [h0, zero_mul] at h3
    linarith
  have hefix : e.fix ≠ 0 := fun h0 => hepos.ne' ((mag_eq_zero_iff e).2 h0)
  obtain ⟨Mf, Ms, MW⟩ := sqrt_within e hfin2 es hefix
  refine ⟨ne_zero_of_fix_ne hLfix, hq4, (isFinite_iff _).2 Mf, ?_⟩
  rw [toRat_of_sign_false Ms]
  exact near_one_of_within ((MW.trans heS).mono (by omega)) (mag_nonneg _)

/-- A float of positive sign that is not below the normal range is at least
`2^-126`. -/
theorem mag_of_normal (a : F32) (h : 1 ≤ a.expField) : (1 : ℚ) / 2 ^ 126 ≤ a.mag := by
  have hfix : 2 ^ 23 ≤ a.fix := by
    unfold fix
    rw [if_neg (by omega)]
    calc 2 ^ 23 ≤ 0x800000 + a.fracField := by
          have : (2 : Nat) ^ 23 = 0x800000 := by decide
          omega
      _ = (0x800000 + a.fracField) * 1 := (Nat.mul_one _).symm
      _ ≤ (0x800000 + a.fracField) * 2 ^ (a.expField - 1) :=
          Nat.mul_le_mul_left _ (Nat.one_le_two_pow)
  unfold mag
  rw [div_le_div_iff₀ (by positivity) (by positivity)]
  have hc : ((2 ^ 23 : Nat) : ℚ) ≤ (a.fix : ℚ) := Nat.cast_le.2 hfix
  push_cast at hc
  have e : (1 : ℚ) * 2 ^ 149 = 2 ^ 23 * 2 ^ 126 := by norm_num
  rw [e]
  exact mul_le_mul_of_nonneg_right hc (by positivity)

theorem exactSquare_iff (a : F32) :
    a.exactSquare ↔ (mul a a).fix * 2 ^ 149 = a.fix * a.fix := by
  unfold exactSquare mag
  have h2 : (0 : ℚ) < 2 ^ 149 := by positivity
  constructor
  · intro h
    have h3 : ((mul a a).fix : ℚ) * 2 ^ 149 = (a.fix : ℚ) * (a.fix : ℚ) := by
      field_simp at h
      linarith
    exact_mod_cast h3
  · intro h
    have h3 : ((mul a a).fix : ℚ) * 2 ^ 149 = (a.fix : ℚ) * (a.fix : ℚ) := by
      exact_mod_cast h
    field_simp
    linarith

theorem mag_pos_iff (a : F32) : 0 < a.mag ↔ a.fix ≠ 0 := by
  constructor
  · intro h h0
    exact h.ne' ((mag_eq_zero_iff a).2 h0)
  · intro h
    rcases (mag_nonneg a).lt_or_eq with h1 | h1
    · exact h1
    · exact absurd ((mag_eq_zero_iff a).1 h1.symm) h

/-- A float that is not below the normal range satisfies the bound on the
squared length for every count `n` of components up to `c`. -/
theorem bound_of_normal (a : F32) (h : 1 ≤ a.expField) (n c : ℚ) (hn : 0 ≤ n) (hc : n ≤ c) :
    n / 2 ^ 126 ≤ c * a.mag := by
  have h1 := mag_of_normal a h
  have h2 : n * (1 / 2 ^ 126) ≤ c * (1 / 2 ^ 126) :=
    mul_le_mul_of_nonneg_right hc (by positivity)
  have h3 : c * (1 / 2 ^ 126) ≤ c * a.mag := mul_le_mul_of_nonneg_left h1 (hn.trans hc)
  have e : n / 2 ^ 126 = n * (1 / 2 ^ 126) := by ring
  rw [e]
  exact h2.trans h3

/-- A float of `u` units of `2^-149` against the bound on the squared length. -/
theorem bound_of_units (a : F32) (u : Nat) (h : a.fix = u) (n c : ℚ)
    (hb : n * 2 ^ 23 ≤ c * u) : n / 2 ^ 126 ≤ c * a.mag := by
  unfold mag
  rw [h, div_le_iff₀ (by positivity)]
  have e : c * ((u : ℚ) / 2 ^ 149) * 2 ^ 126 = c * u / 2 ^ 23 := by
    field_simp
    ring
  rw [e, le_div_iff₀ (by positivity)]
  exact hb

/-- The computation of `length(normalize(v))` on the list `xs` of the `n`
components of `v`, when the squared length `d` of `v` is finite and one of:
`1 ≤ n ≤ 159` and `n * 2^-126 ≤ (320 - 2 * n) * d`; `n ≤ 159` and `d` is
positive with every square exact; `n ≤ 322` and `d` is positive and within
`322 - n` roundings of the exact sum of squares. Then the assertion of
`normalize` holds and the length of the quotients is within `1e-5` of 1. In the
first case the `n + 1` roundings of the first sum, the slack of the squares
below the normal range, at most `320 - 2 * n` roundings, and the `n + 13`
roundings that follow make up 334. -/
theorem normalize_list (xs : List F32)
    (hfin : (xs.foldl (fun r x => add r (mul x x)) (zero false)).expField ≠ 255)
    (hlow : (1 ≤ xs.length ∧ xs.length ≤ 159 ∧ (xs.length : ℚ) / 2 ^ 126
        ≤ (320 - 2 * (xs.length : ℚ))
          * (xs.foldl (fun r x => add r (mul x x)) (zero false)).mag) ∨
      (xs.length ≤ 159 ∧ 0 < (xs.foldl (fun r x => add r (mul x x)) (zero false)).mag ∧
        ∀ x ∈ xs, x.exactSquare) ∨
      (xs.length ≤ 322 ∧ 0 < (xs.foldl (fun r x => add r (mul x x)) (zero false)).mag ∧
        Within (322 - xs.length) (xs.foldl (fun r x => add r (mul x x)) (zero false)).mag
          (xs.map (fun x => x.mag * x.mag)).sum)) :
    Scalar.ne (sqrt (xs.foldl (fun r x => add r (mul x x)) (zero false)))
      (Scalar.zero : F32) = true ∧
    (∀ x ∈ xs, (div x (sqrt (xs.foldl (fun r x => add r (mul x x)) (zero false)))).expField
        ≠ 255 ∧
      (div x (sqrt (xs.foldl (fun r x => add r (mul x x)) (zero false)))).mag ≤ 4) ∧
    (sqrt (xs.foldl (fun r x => add r
      (mul (div x (sqrt (xs.foldl (fun r x => add r (mul x x)) (zero false))))
        (div x (sqrt (xs.foldl (fun r x => add r (mul x x)) (zero false))))))
      (zero false))).nearOne := by
  have hη : (0 : ℚ) ≤ 1 / 2 ^ 150 := by positivity
  have h00 : Near 1 0 (zero false).mag 0 := by
    rw [mag_zero]; simp [Near]
  rcases hlow with ⟨h1, h159, hlow⟩ | ⟨h159, hpos, hex⟩ | ⟨h322, hpos, hW⟩
  · have hN1 : (1 : ℚ) ≤ xs.length := by exact_mod_cast h1
    obtain ⟨ds, dn⟩ := fold_near (fun x => x) (1 / 2 ^ 150) hη xs (zero false) 1 0 0
      (fun x _ hx => mul_self_near x hx) hfin (sign_zero false) le_rfl le_rfl h00
    rw [AddZeroClass.zero_add, AddZeroClass.zero_add] at dn
    have hc : ((320 - 2 * xs.length : Nat) : ℚ) = 320 - 2 * (xs.length : ℚ) := by
      rw [Nat.cast_sub (by omega)]
      push_cast
      rfl
    have hdpos : 0 < (xs.foldl (fun r x => add r (mul x x)) (zero false)).mag := by
      by_contra hcon
      have h0 : (xs.foldl (fun r x => add r (mul x x)) (zero false)).mag = 0 :=
        le_antisymm (not_lt.1 hcon) (mag_nonneg _)
      rw [h0, mul_zero] at hlow
      have : (0 : ℚ) < xs.length / 2 ^ 126 := by positivity
      linarith
    have hA : (xs.length : ℚ) * (1 / 2 ^ 150) * 2 ^ 24
        ≤ ((320 - 2 * xs.length : Nat) : ℚ)
          * (xs.foldl (fun r x => add r (mul x x)) (zero false)).mag := by
      have e0 : (xs.length : ℚ) * (1 / 2 ^ 150) * 2 ^ 24 = xs.length / 2 ^ 126 := by
        have e1 : (1 : ℚ) / 2 ^ 150 * 2 ^ 24 = 1 / 2 ^ 126 := by norm_num
        rw [mul_assoc, e1]; ring
      rw [e0, hc]
      exact hlow
    exact normalize_list_core xs (1 + xs.length + (320 - 2 * xs.length + 1)) (by omega)
      hfin ds hdpos (dn.to_within (by omega) (by omega) (by positivity) hA)
  · obtain ⟨ds, dn⟩ := fold_near (fun x => x) 0 le_rfl xs (zero false) 1 0 0
      (fun x hx _ => by
        have hx2 : (mul x x).mag = x.mag * x.mag := hex x hx
        rw [hx2]
        exact Near.of_within (Within.refl 1 (mul_self_nonneg _)) le_rfl)
      hfin (sign_zero false) le_rfl le_rfl h00
    rw [AddZeroClass.zero_add, AddZeroClass.zero_add, mul_zero] at dn
    have hA : (0 : ℚ) * 2 ^ 24
        ≤ ((0 : Nat) : ℚ) * (xs.foldl (fun r x => add r (mul x x)) (zero false)).mag := by
      rw [zero_mul, Nat.cast_zero, zero_mul]
    exact normalize_list_core xs (1 + xs.length + (0 + 1)) (by omega) hfin ds hpos
      (dn.to_within (by omega) (by omega) le_rfl hA)
  · obtain ⟨ds, -⟩ := fold_near (fun x => x) (1 / 2 ^ 150) hη xs (zero false) 1 0 0
      (fun x _ hx => mul_self_near x hx) hfin (sign_zero false) le_rfl le_rfl h00
    exact normalize_list_core xs (322 - xs.length) (by omega) hfin ds hpos hW

end F32

/-! ## Loops in which every turn moves the sum one float up -/

namespace F32

/-- One turn of a loop that climbs float by float: to the normal float with
fields `k * 2^23 + q0` (a unit in the last place is `2^k` units of `2^-149`)
is added a float of positive sign between half a unit and one and a half units
in the last place; the sum is the next float up. -/
theorem add_next (k q0 : Nat) (b : F32) (hk : 1 ≤ k) (hk2 : k ≤ 252) (hq : 8388608 ≤ q0)
    (hq2 : q0 + 1 < 16777216) (hb : b.expField ≠ 255) (hbs : b.sign = false)
    (hP1 : 2 ^ k < 2 * b.fix) (hP2 : 2 * b.fix < 3 * 2 ^ k) :
    add (ofBits (k * 0x800000 + q0)) b = ofBits (k * 0x800000 + q0 + 1) := by
  have hbits : (ofBits (k * 0x800000 + q0)).bits = k * 0x800000 + q0 :=
    ofBits_bits _ (by omega)
  have hexp : (ofBits (k * 0x800000 + q0)).expField = k + 1 := by
    unfold expField; rw [hbits]; omega
  have hfrac : (ofBits (k * 0x800000 + q0)).fracField = q0 - 8388608 := by
    unfold fracField; rw [hbits]; omega
  have hsign : (ofBits (k * 0x800000 + q0)).sign = false := by
    unfold sign; rw [hbits]
    exact decide_eq_false (by omega)
  have hfix : (ofBits (k * 0x800000 + q0)).fix = q0 * 2 ^ k := by
    unfold fix
    rw [hexp, hfrac, if_neg (by omega)]
    have e1 : 0x800000 + (q0 - 8388608) = q0 := by omega
    have e2 : k + 1 - 1 = k := by omega
    rw [e1, e2]
  rw [add_eq_round _ b (by rw [hexp]; omega) hb hsign hbs, hfix]
  generalize hP : b.fix = P at *
  have hpos : 0 < 2 ^ k := Nat.two_pow_pos k
  have hm : q0 * 2 ^ k + P ≠ 0 := by omega
  have hlog : ilog2 (q0 * 2 ^ k + P) = k + 23 := by
    apply ilog2_eq
    · have e23 : 2 ^ (k + 23) = 8388608 * 2 ^ k := by
        rw [show k + 23 = 23 + k by omega, pow_add]; norm_num
      rw [e23]
      exact le_trans (Nat.mul_le_mul_right _ hq) (Nat.le_add_right _ _)
    · have e24 : 2 ^ (k + 23 + 1) = 16777216 * 2 ^ k := by
        rw [show k + 23 + 1 = 24 + k by omega, pow_add]; norm_num
      rw [e24]
      calc q0 * 2 ^ k + P < q0 * 2 ^ k + 2 * 2 ^ k := by omega
        _ = (q0 + 2) * 2 ^ k := by ring
        _ ≤ 16777216 * 2 ^ k := Nat.mul_le_mul_right _ (by omega)
  have hne : roundNE (q0 * 2 ^ k + P) k = q0 + 1 := by
    unfold roundNE
    by_cases hPk : P < 2 ^ k
    · have e1 : (q0 * 2 ^ k + P) / 2 ^ k = q0 := by
        rw [Nat.add_comm, Nat.add_mul_div_right _ _ hpos, Nat.div_eq_of_lt hPk, Nat.zero_add]
      have e2 : (q0 * 2 ^ k + P) % 2 ^ k = P := by
        rw [Nat.add_comm, Nat.add_mul_mod_self_right, Nat.mod_eq_of_lt hPk]
      simp only [e1, e2]
      rw [if_pos hP1]
    · have hr : P - 2 ^ k < 2 ^ k := by omega
      have e0 : q0 * 2 ^ k + P = (P - 2 ^ k) + (q0 + 1) * 2 ^ k := by
        rw [Nat.add_mul, Nat.one_mul]; omega
      have e1 : (q0 * 2 ^ k + P) / 2 ^ k = q0 + 1 := by
        rw [e0, Nat.add_mul_div_right _ _ hpos, Nat.div_eq_of_lt hr, Nat.zero_add]
      have e2 : (q0 * 2 ^ k + P) % 2 ^ k = P - 2 ^ k := by
        rw [e0, Nat.add_mul_mod_self_right, Nat.mod_eq_of_lt hr]
      simp only [e1, e2]
      rw [if_neg (by omega), if_neg (by omega)]
  have hq1 : max (((k + 23 : Nat) : Int) + -((149 : Nat) : Int) - 23) (-149) = (k : Int) - 149 := by
    omega
  have henc : roundEnc (q0 * 2 ^ k + P) (-((149 : Nat) : Int)) = k * 0x800000 + q0 + 1 := by
    simp only [roundEnc, hlog, hq1]
    have c1 : ¬ ((k : Int) - 149 ≤ -((149 : Nat) : Int)) := by omega
    have c2 : ((k : Int) - 149 - -((149 : Nat) : Int)).toNat = k := by omega
    have c3 : ((k : Int) - 149 + 149).toNat = k := by omega
    rw [if_neg c1, c2, c3, hne]
    omega
  have hlt : ¬ (0x7F800000 ≤ k * 0x800000 + q0 + 1) := by omega
  unfold round
  rw [if_neg hm, henc, if_neg hlt]
  simp only [signBit, Bool.false_eq_true, if_false, Nat.zero_add]

/-- The loop of `n` such turns climbs `n` floats. -/
theorem iterate_add_next (k q0 : Nat) (b : F32) (hk : 1 ≤ k) (hk2 : k ≤ 252)
    (hq : 8388608 ≤ q0)
    (hb : b.expField ≠ 255) (hbs : b.sign = false)
    (hP1 : 2 ^ k < 2 * b.fix) (hP2 : 2 * b.fix < 3 * 2 ^ k) :
    ∀ n : Nat, q0 + n < 16777216 →
      (fun r => add r b)^[n] (ofBits (k * 0x800000 + q0)) = ofBits (k * 0x800000 + q0 + n) := by
  intro n
  induction n with
  | zero =>
    intro _
    rw [Function.iterate_zero, id, Nat.add_zero]
  | succ n ih =>
    intro hn
    rw [Function.iterate_succ_apply', ih (by omega)]
    have h := add_next k (q0 + n) b hk hk2 (by omega) (by omega) hb hbs hP1 hP2
    have e2 : k * 0x800000 + (q0 + n) + 1 = k * 0x800000 + q0 + (n + 1) := by omega
    have e1 : k * 0x800000 + (q0 + n) = k * 0x800000 + q0 + n := by omega
    rw [e2, e1] at h
    exact h

end F32

/-- The generic loop of `dot` on a vector whose first element is `a` and whose
other elements are all `b`, each mapped by `g`: the first square is added to
`+0.0f`, then the square of `g b` is added `n` times. -/
theorem Vector.dot_head_rest {n : Nat} (v : Vector F32 (n + 1)) (g : F32 → F32) (a b : F32)
    (h0 : v.elements 0 = a) (hs : ∀ i : Fin n, v.elements i.succ = b) :
    (List.finRange (n + 1)).foldl
        (fun product i => F32.add product (F32.mul (g (v.elements i)) (g (v.elements i))))
        (F32.zero false)
      = (fun r => F32.add r (F32.mul (g b) (g b)))^[n]
          (F32.add (F32.zero false) (F32.mul (g a) (g a))) := by
  rw [List.finRange_succ_eq_map, List.foldl_cons, List.foldl_map]
  simp only [h0, hs]
  rw [List.foldl_const, List.length_finRange]

/-- A float of positive sign that is more than `1e-5` below 1 is not near 1. -/
theorem F32.not_nearOne_of_lt (a : F32) (hs : a.sign = false)
    (h : a.fix * 100000 < 99999 * 2 ^ 149) : ¬ a.nearOne := by
  intro hn
  have h2 := (abs_le.1 hn.2).1
  rw [F32.toRat_of_sign_false hs] at h2
  unfold F32.mag at h2
  have hc : ((a.fix * 100000 : Nat) : ℚ) < ((99999 * 2 ^ 149 : Nat) : ℚ) := Nat.cast_lt.2 h
  push_cast at hc
  have h3 : (a.fix : ℚ) / 2 ^ 149 < 99999 / 100000 := by
    rw [div_lt_div_iff₀ (by positivity) (by positivity)]
    linarith
  linarith

/-- A float of positive sign that is more than `1e-5` above 1 is not near 1. -/
theorem F32.not_nearOne_of_gt (a : F32) (hs : a.sign = false)
    (h : 100001 * 2 ^ 149 < a.fix * 100000) : ¬ a.nearOne := by
  intro hn
  have h2 := (abs_le.1 hn.2).2
  rw [F32.toRat_of_sign_false hs] at h2
  unfold F32.mag at h2
  have hc : ((100001 * 2 ^ 149 : Nat) : ℚ) < ((a.fix * 100000 : Nat) : ℚ) := Nat.cast_lt.2 h
  push_cast at hc
  have h3 : (100001 : ℚ) / 100000 < (a.fix : ℚ) / 2 ^ 149 := by
    rw [div_lt_div_iff₀ (by positivity) (by positivity)]
    linarith
  linarith

/-- Both loops of `length(normalize(v))` on a vector of `n + 1` elements whose
first element is `a` and whose other elements are all `b`, when in each loop
every square added after the first moves the sum one float up: the squared
length, the result of `normalize` and its length, from single operations. -/
theorem Vector.head_rest_chain {n : Nat} (v : Vector F32 (n + 1)) (a b pb L qa qb pqb l : F32)
    (k1 q1 k2 q2 : Nat) (h0 : v.elements 0 = a) (hs : ∀ i : Fin n, v.elements i.succ = b)
    (e1 : F32.add (F32.zero false) (F32.mul a a) = F32.ofBits (k1 * 0x800000 + q1))
    (e2 : F32.mul b b = pb)
    (c1 : 1 ≤ k1) (c2 : k1 ≤ 252) (c3 : 8388608 ≤ q1) (c4 : q1 + n < 16777216)
    (c5 : pb.expField ≠ 255) (c6 : pb.sign = false)
    (c7 : 2 ^ k1 < 2 * pb.fix) (c8 : 2 * pb.fix < 3 * 2 ^ k1)
    (e3 : F32.sqrt (F32.ofBits (k1 * 0x800000 + q1 + n)) = L)
    (e4 : Scalar.ne L (Scalar.zero : F32) = true)
    (e5 : F32.div a L = qa) (e6 : F32.div b L = qb)
    (e7 : F32.add (F32.zero false) (F32.mul qa qa) = F32.ofBits (k2 * 0x800000 + q2))
    (e8 : F32.mul qb qb = pqb)
    (d1 : 1 ≤ k2) (d2 : k2 ≤ 252) (d3 : 8388608 ≤ q2) (d4 : q2 + n < 16777216)
    (d5 : pqb.expField ≠ 255) (d6 : pqb.sign = false)
    (d7 : 2 ^ k2 < 2 * pqb.fix) (d8 : 2 * pqb.fix < 3 * 2 ^ k2)
    (e9 : F32.sqrt (F32.ofBits (k2 * 0x800000 + q2 + n)) = l) :
    Vector.squaredLength v = F32.ofBits (k1 * 0x800000 + q1 + n) ∧
    Vector.normalize v = some (Vector.opDiv v L) ∧
    Vector.length (Vector.opDiv v L) = l := by
  have hd : Vector.squaredLength v = F32.ofBits (k1 * 0x800000 + q1 + n) := by
    have e := Vector.dot_head_rest v (fun x => x) a b h0 hs
    rw [e1, e2, F32.iterate_add_next k1 q1 pb c1 c2 c3 c5 c6 c7 c8 n c4] at e
    exact e
  have hL : Vector.length v = L := by
    have e : Vector.length v = F32.sqrt (Vector.squaredLength v) := rfl
    rw [e, hd, e3]
  refine ⟨hd, ?_, ?_⟩
  · have hne : Scalar.ne (Vector.length v) (Scalar.zero : F32) = true := by
      rw [hL]; exact e4
    rw [hL] at hne
    simp only [Vector.normalize, hL, hne, if_true]
  · have e : Vector.length (Vector.opDiv v L)
        = F32.sqrt ((List.finRange (n + 1)).foldl
          (fun product i => F32.add product
            (F32.mul (F32.div (v.elements i) L) (F32.div (v.elements i) L)))
          (F32.zero false)) := by
      unfold Vector.length Vector.dot Vector.opDiv
      simp only [Vector.opDivAssign_elements]
      rfl
    rw [e, Vector.dot_head_rest v (fun x => F32.div x L) a b h0 hs, e5, e6, e7, e8,
      F32.iterate_add_next k2 q2 pqb d1 d2 d3 d5 d6 d7 d8 n d4, e9]

/-- The vector of 337 elements `(1, b, b, ..., b)` with `b = 1.125 * 2^-12`: in
the loop of `dot(v, v)` every `b * b`, about 0.63 of a unit in the last place of
the sum, moves the sum one float up, to `1 + 336 * 2^-23`; in the loop over the
normalised vector the sum is below 1, the squares are about 1.27 of its smaller
unit, and each moves it one float up again; the length comes out as
`1 - 168 * 2^-24`. -/
theorem Vector.wide_example :
    Vector.squaredLength (Vector.mk (fun i => if i.val = 0 then F32.ofBits 0x3F800000
      else F32.ofBits 0x39900000) : Vector F32 337) = F32.ofBits 0x3F800150 ∧
    Vector.normalize (Vector.mk (fun i => if i.val = 0 then F32.ofBits 0x3F800000
      else F32.ofBits 0x39900000) : Vector F32 337)
      = some (Vector.opDiv (Vector.mk (fun i => if i.val = 0 then F32.ofBits 0x3F800000
          else F32.ofBits 0x39900000) : Vector F32 337) (F32.ofBits 0x3F8000A8)) ∧
    Vector.length (Vector.opDiv (Vector.mk (fun i => if i.val = 0 then F32.ofBits 0x3F800000
      else F32.ofBits 0x39900000) : Vector F32 337) (F32.ofBits 0x3F8000A8))
      = F32.ofBits 0x3F7FFF58 := by
  have hs : ∀ i : Fin 336, (Vector.mk (fun i => if i.val = 0 then F32.ofBits 0x3F800000
      else F32.ofBits 0x39900000) : Vector F32 337).elements i.succ
      = F32.ofBits 0x39900000 := by
    intro i
    show (if (i.succ : Fin 337).val = 0 then F32.ofBits 0x3F800000
      else F32.ofBits 0x39900000) = F32.ofBits 0x39900000
    rw [if_neg (by rw [Fin.val_succ]; omega)]
  exact Vector.head_rest_chain _ (F32.ofBits 0x3F800000) (F32.ofBits 0x39900000)
    (F32.ofBits 0x33A20000) (F32.ofBits 0x3F8000A8) (F32.ofBits 0x3F7FFEB0)
    (F32.ofBits 0x398FFF43) (F32.ofBits 0x33A1FE57) (F32.ofBits 0x3F7FFF58)
    126 8388608 125 16776544 rfl hs
    (by decide!) (by decide!) (by decide) (by decide) (by decide) (by decide)
    (by decide!) (by decide!) (by decide!) (by decide!) (by decide!) (by decide!)
    (by decide!) (by decide!) (by decide!) (by decide!)
    (by decide) (by decide) (by decide) (by decide)
    (by decide!) (by decide!) (by decide!) (by decide!) (by decide!)

/-! ## The length of a normalised float vector -/

namespace F32

/-- The first turn of the loop from `+0.0f`: the sum starts from the first
square, as the unrolled sums of width 2, 3 and 4 do. -/
theorem fold_cons_zero (g : F32 → F32) (y : F32) (ys : List F32)
    (h : (mul (g y) (g y)).expField ≠ 255) :
    (y :: ys).foldl (fun r x => add r (mul (g x) (g x))) (zero false)
      = ys.foldl (fun r x => add r (mul (g x) (g x))) (mul (g y) (g y)) := by
  rw [List.foldl_cons, zero_add_of_finite _ h (sign_mul_self _ (finite_of_mul_self h))]

/-- The first square of the quotients is finite. -/
theorem quotient_sq_finite {x L : F32} (h : (div x L).expField ≠ 255 ∧ (div x L).mag ≤ 4) :
    (mul (div x L) (div x L)).expField ≠ 255 :=
  mul_self_finite _ h.1 (h.2.trans (by norm_num))

end F32

/-- Width 2: when the squared length `d` is finite and either
`2 * 2^-126 ≤ 316 * d`, or `d` is positive with both squares exact, or `d` is
positive and within 320 roundings of the exact sum of squares, `normalize`
returns and the length of its result is within `1e-5` of 1. -/
theorem Vector2.normalize_near_two (v : Vector2 F32)
    (hfin : (Vector2.squaredLength v).isFinite = true)
    (hlow : (2 : ℚ) / 2 ^ 126 ≤ 316 * (Vector2.squaredLength v).mag ∨
      (0 < (Vector2.squaredLength v).mag ∧ v.x.exactSquare ∧ v.y.exactSquare) ∨
      (0 < (Vector2.squaredLength v).mag ∧
        Within 320 (Vector2.squaredLength v).mag (v.x.mag * v.x.mag + v.y.mag * v.y.mag))) :
    ∃ n, Vector2.normalize v = some n ∧ (Vector2.length n).nearOne := by
  have hd : Vector2.squaredLength v = F32.add (F32.mul v.x v.x) (F32.mul v.y v.y) := rfl
  rw [hd] at hfin hlow
  have hf := (F32.isFinite_iff _).1 hfin
  obtain ⟨hfx, -⟩ := F32.finite_of_add hf
  have e1 : [v.x, v.y].foldl (fun r x => F32.add r (F32.mul x x)) (F32.zero false)
      = F32.add (F32.mul v.x v.x) (F32.mul v.y v.y) := by
    rw [F32.fold_cons_zero (fun x => x) v.x [v.y] hfx]; rfl
  have eS : ([v.x, v.y].map (fun x => x.mag * x.mag)).sum
      = v.x.mag * v.x.mag + v.y.mag * v.y.mag := by
    simp only [List.map_cons, List.map_nil, List.sum_cons, List.sum_nil]; ring
  have eN : [v.x, v.y].length = 2 := rfl
  obtain ⟨r1, r2, r3⟩ := F32.normalize_list [v.x, v.y] (by rw [e1]; exact hf) (by
      rw [e1, eS, eN]
      rcases hlow with h | ⟨h, hx, hy⟩ | ⟨h, hW⟩
      · refine Or.inl ⟨by decide, by decide, ?_⟩
        have e2 : (320 - 2 * (((2 : Nat) : ℚ))) = 316 := by norm_num
        have e3 : (((2 : Nat) : ℚ)) = 2 := by norm_num
        rw [e2, e3]; exact h
      · refine Or.inr (Or.inl ⟨by decide, h, fun x hx2 => ?_⟩)
        simp only [List.mem_cons, List.mem_singleton, List.not_mem_nil, or_false] at hx2
        rcases hx2 with rfl | rfl
        · exact hx
        · exact hy
      · exact Or.inr (Or.inr ⟨by decide, h, hW⟩))
  rw [e1] at r1 r2 r3
  have hq := F32.quotient_sq_finite (r2 v.x (by simp))
  rw [F32.fold_cons_zero (fun x => F32.div x _) v.x [v.y] hq] at r3
  have hne : Scalar.ne (Vector2.length v) (Scalar.zero : F32) = true := r1
  refine ⟨Vector2.opDiv v (Vector2.length v), ?_, ?_⟩
  · simp only [Vector2.normalize, hne, if_true]
  · exact r3

/-- Width 3: as for width 2, with the bound `3 * 2^-126 ≤ 314 * d` and 319
roundings. -/
theorem Vector3.normalize_near_three (v : Vector3 F32)
    (hfin : (Vector3.squaredLength v).isFinite = true)
    (hlow : (3 : ℚ) / 2 ^ 126 ≤ 314 * (Vector3.squaredLength v).mag ∨
      (0 < (Vector3.squaredLength v).mag ∧ v.x.exactSquare ∧ v.y.exactSquare ∧
        v.z.exactSquare) ∨
      (0 < (Vector3.squaredLength v).mag ∧
        Within 319 (Vector3.squaredLength v).mag
          (v.x.mag * v.x.mag + v.y.mag * v.y.mag + v.z.mag * v.z.mag))) :
    ∃ n, Vector3.normalize v = some n ∧ (Vector3.length n).nearOne := by
  have hd : Vector3.squaredLength v
      = F32.add (F32.add (F32.mul v.x v.x) (F32.mul v.y v.y)) (F32.mul v.z v.z) := rfl
  rw [hd] at hfin hlow
  have hf := (F32.isFinite_iff _).1 hfin
  obtain ⟨hfxy, -⟩ := F32.finite_of_add hf
  obtain ⟨hfx, -⟩ := F32.finite_of_add hfxy
  have e1 : [v.x, v.y, v.z].foldl (fun r x => F32.add r (F32.mul x x)) (F32.zero false)
      = F32.add (F32.add (F32.mul v.x v.x) (F32.mul v.y v.y)) (F32.mul v.z v.z) := by
    rw [F32.fold_cons_zero (fun x => x) v.x [v.y, v.z] hfx]; rfl
  have eS : ([v.x, v.y, v.z].map (fun x => x.mag * x.mag)).sum
      = v.x.mag * v.x.mag + v.y.mag * v.y.mag + v.z.mag * v.z.mag := by
    simp only [List.map_cons, List.map_nil, List.sum_cons, List.sum_nil]; ring
  have eN : [v.x, v.y, v.z].length = 3 := rfl
  obtain ⟨r1, r2, r3⟩ := F32.normalize_list [v.x, v.y, v.z] (by rw [e1]; exact hf) (by
      rw [e1, eS, eN]
      rcases hlow with h | ⟨h, hx, hy, hz⟩ | ⟨h, hW⟩
      · refine Or.inl ⟨by decide, by decide, ?_⟩
        have e2 : (320 - 2 * (((3 : Nat) : ℚ))) = 314 := by norm_num
        have e3 : (((3 : Nat) : ℚ)) = 3 := by norm_num
        rw [e2, e3]; exact h
      · refine Or.inr (Or.inl ⟨by decide, h, fun x hx2 => ?_⟩)
        simp only [List.mem_cons, List.mem_singleton, List.not_mem_nil, or_false] at hx2
        rcases hx2 with rfl | rfl | rfl
        · exact hx
        · exact hy
        · exact hz
      · exact Or.inr (Or.inr ⟨by decide, h, hW⟩))
  rw [e1] at r1 r2 r3
  have hq := F32.quotient_sq_finite (r2 v.x (by simp))
  rw [F32.fold_cons_zero (fun x => F32.div x _) v.x [v.y, v.z] hq] at r3
  have hne : Scalar.ne (Vector3.length v) (Scalar.zero : F32) = true := r1
  refine ⟨Vector3.opDiv v (Vector3.length v), ?_, ?_⟩
  · simp only [Vector3.normalize, hne, if_true]
  · exact r3

/-- Width 4: as for width 2, with the bound `4 * 2^-126 ≤ 312 * d` and 318
roundings. -/
theorem Vector4.normalize_near_four (v : Vector4 F32)
    (hfin : (Vector4.squaredLength v).isFinite = true)
    (hlow : (4 : ℚ) / 2 ^ 126 ≤ 312 * (Vector4.squaredLength v).mag ∨
      (0 < (Vector4.squaredLength v).mag ∧ v.x.exactSquare ∧ v.y.exactSquare ∧
        v.z.exactSquare ∧ v.w.exactSquare) ∨
      (0 < (Vector4.squaredLength v).mag ∧
        Within 318 (Vector4.squaredLength v).mag
          (v.x.mag * v.x.mag + v.y.mag * v.y.mag + v.z.mag * v.z.mag
            + v.w.mag * v.w.mag))) :
    ∃ n, Vector4.normalize v = some n ∧ (Vector4.length n).nearOne := by
  have hd : Vector4.squaredLength v
      = F32.add (F32.add (F32.add (F32.mul v.x v.x) (F32.mul v.y v.y)) (F32.mul v.z v.z))
        (F32.mul v.w v.w) := rfl
  rw [hd] at hfin hlow
  have hf := (F32.isFinite_iff _).1 hfin
  obtain ⟨hfxyz, -⟩ := F32.finite_of_add hf
  obtain ⟨hfxy, -⟩ := F32.finite_of_add hfxyz
  obtain ⟨hfx, -⟩ := F32.finite_of_add hfxy
  have e1 : [v.x, v.y, v.z, v.w].foldl (fun r x => F32.add r (F32.mul x x)) (F32.zero false)
      = F32.add (F32.add (F32.add (F32.mul v.x v.x) (F32.mul v.y v.y)) (F32.mul v.z v.z))
        (F32.mul v.w v.w) := by
    rw [F32.fold_cons_zero (fun x => x) v.x [v.y, v.z, v.w] hfx]; rfl
  have eS : ([v.x, v.y, v.z, v.w].map (fun x => x.mag * x.mag)).sum
      = v.x.mag * v.x.mag + v.y.mag * v.y.mag + v.z.mag * v.z.mag + v.w.mag * v.w.mag := by
    simp only [List.map_cons, List.map_nil, List.sum_cons, List.sum_nil]; ring
  have eN : [v.x, v.y, v.z, v.w].length = 4 := rfl
  obtain ⟨r1, r2, r3⟩ := F32.normalize_list [v.x, v.y, v.z, v.w] (by rw [e1]; exact hf) (by
      rw [e1, eS, eN]
      rcases hlow with h | ⟨h, hx, hy, hz, hw⟩ | ⟨h, hW⟩
      · refine Or.inl ⟨by decide, by decide, ?_⟩
        have e2 : (320 - 2 * (((4 : Nat) : ℚ))) = 312 := by norm_num
        have e3 : (((4 : Nat) : ℚ)) = 4 := by norm_num
        rw [e2, e3]; exact h
      · refine Or.inr (Or.inl ⟨by decide, h, fun x hx2 => ?_⟩)
        simp only [List.mem_cons, List.mem_singleton, List.not_mem_nil, or_false] at hx2
        rcases hx2 with rfl | rfl | rfl | rfl
        · exact hx
        · exact hy
        · exact hz
        · exact hw
      · exact Or.inr (Or.inr ⟨by decide, h, hW⟩))
  rw [e1] at r1 r2 r3
  have hq := F32.quotient_sq_finite (r2 v.x (by simp))
  rw [F32.fold_cons_zero (fun x => F32.div x _) v.x [v.y, v.z, v.w] hq] at r3
  have hne : Scalar.ne (Vector4.length v) (Scalar.zero : F32) = true := r1
  refine ⟨Vector4.opDiv v (Vector4.length v), ?_, ?_⟩
  · simp only [Vector4.normalize, hne, if_true]
  · exact r3

/-- The loop of the generic `dot(v, v)` as the loop over the list of the
elements, each mapped by `g`. -/
theorem Vector.dot_self_map {N : Nat} (v : Vector F32 N) (g : F32 → F32) :
    (List.finRange N).foldl
        (fun product i => F32.add product (F32.mul (g (v.elements i)) (g (v.elements i))))
        (F32.zero false)
      = ((List.finRange N).map v.elements).foldl
        (fun r x => F32.add r (F32.mul (g x) (g x))) (F32.zero false) := by
  rw [List.foldl_map]

/-- The generic width `N`, summed by the loop: as for width 2, with
`1 ≤ N ≤ 159` and the bound `N * 2^-126 ≤ (320 - 2 * N) * d`, or `N ≤ 159` and
exact squares, or `N ≤ 322` and `322 - N` roundings. -/
theorem Vector.normalize_near_loop {N : Nat} (v : Vector F32 N)
    (hfin : (Vector.squaredLength v).isFinite = true)
    (hlow : (1 ≤ N ∧ N ≤ 159 ∧
        (N : ℚ) / 2 ^ 126 ≤ (320 - 2 * (N : ℚ)) * (Vector.squaredLength v).mag) ∨
      (N ≤ 159 ∧ 0 < (Vector.squaredLength v).mag ∧ ∀ i, (v.elements i).exactSquare) ∨
      (N ≤ 322 ∧ 0 < (Vector.squaredLength v).mag ∧
        Within (322 - N) (Vector.squaredLength v).mag
          ((List.finRange N).map
            (fun i => (v.elements i).mag * (v.elements i).mag)).sum)) :
    ∃ n, Vector.normalize v = some n ∧ (Vector.length n).nearOne := by
  have hd : Vector.squaredLength v
      = ((List.finRange N).map v.elements).foldl
        (fun r x => F32.add r (F32.mul x x)) (F32.zero false) :=
    Vector.dot_self_map v (fun x => x)
  have hlen : ((List.finRange N).map v.elements).length = N := by
    rw [List.length_map, List.length_finRange]
  have eS : (((List.finRange N).map v.elements).map (fun x => x.mag * x.mag)).sum
      = ((List.finRange N).map (fun i => (v.elements i).mag * (v.elements i).mag)).sum := by
    rw [List.map_map]; rfl
  rw [hd] at hfin hlow
  have hf := (F32.isFinite_iff _).1 hfin
  obtain ⟨r1, -, r3⟩ := F32.normalize_list ((List.finRange N).map v.elements) hf (by
      rw [hlen, eS]
      rcases hlow with h | ⟨hN, h, hx⟩ | h
      · exact Or.inl h
      · refine Or.inr (Or.inl ⟨hN, h, fun x hx2 => ?_⟩)
        obtain ⟨i, -, rfl⟩ := List.mem_map.1 hx2
        exact hx i
      · exact Or.inr (Or.inr h))
  rw [← hd] at r1 r3
  have hne : Scalar.ne (Vector.length v) (Scalar.zero : F32) = true := r1
  refine ⟨Vector.opDiv v (Vector.length v), ?_, ?_⟩
  · simp only [Vector.normalize, hne, if_true]
  · have e : Vector.length (Vector.opDiv v (Vector.length v))
        = F32.sqrt ((List.finRange N).foldl
          (fun product i => F32.add product
            (F32.mul (F32.div (v.elements i) (Vector.length v))
              (F32.div (v.elements i) (Vector.length v)))) (F32.zero false)) := by
      unfold Vector.length Vector.dot Vector.opDiv
      simp only [Vector.opDivAssign_elements]
      rfl
    rw [e, Vector.dot_self_map v (fun x => F32.div x (Vector.length v))]
    exact r3

/-- C24, as stated, fails on floats. Overflow: for `v = (2^100, 0)` the squared
length is `+inf`, `normalize(v)` is `v / inf = (0, 0)` and its length is `0.0f`.
Underflow to zero: for `v = (2^-100, 0)` the squared length is `0.0f` and the
assertion of `normalize` fails. Rounding below the normal range: for
`v = (0x1E089605, 0x1D96E9F1)`, about `(7.2e-21, 4.0e-21)`, the squared length
is the subnormal `48698 * 2^-149`, and `length(normalize(v))` is
`1 + 84 * 2^-23`, more than `1e-5` above 1. Accumulated rounding: for the
vector of 337 elements `(1, b, ..., b)` with `b = 1.125 * 2^-12`
the squared length is the normal float `1 + 336 * 2^-23`, and
`length(normalize(v))` is `1 - 168 * 2^-24`, more than `1e-5` below 1. -/
theorem normalize_length_counterexample :
    (Vector2.opNe (Vector2.mk (F32.ofBits 0x71800000) (F32.zero false))
        (Vector2.ofValue (Scalar.zero : F32)) = true ∧
      ∃ n, Vector2.normalize (Vector2.mk (F32.ofBits 0x71800000) (F32.zero false)) = some n ∧
        Vector2.length n = F32.zero false ∧ ¬ (Vector2.length n).nearOne) ∧
    (Vector2.opNe (Vector2.mk (F32.ofBits 0x0D800000) (F32.zero false))
        (Vector2.ofValue (Scalar.zero : F32)) = true ∧
      Vector2.normalize (Vector2.mk (F32.ofBits 0x0D800000) (F32.zero false)) = none) ∧
    (Vector2.opNe (Vector2.mk (F32.ofBits 0x1E089605) (F32.ofBits 0x1D96E9F1))
        (Vector2.ofValue (Scalar.zero : F32)) = true ∧
      Vector2.squaredLength (Vector2.mk (F32.ofBits 0x1E089605) (F32.ofBits 0x1D96E9F1))
        = F32.ofBits 0xBE3A ∧
      ∃ n, Vector2.normalize (Vector2.mk (F32.ofBits 0x1E089605) (F32.ofBits 0x1D96E9F1))
          = some n ∧
        Vector2.length n = F32.ofBits 0x3F800054 ∧ ¬ (Vector2.length n).nearOne) ∧
    (Vector.opNe (Vector.mk (fun i => if i.val = 0 then F32.ofBits 0x3F800000
          else F32.ofBits 0x39900000) : Vector F32 337)
        (Vector.mk (fun _ => Scalar.zero)) = true ∧
      Vector.squaredLength (Vector.mk (fun i => if i.val = 0 then F32.ofBits 0x3F800000
          else F32.ofBits 0x39900000) : Vector F32 337) = F32.ofBits 0x3F800150 ∧
      ∃ n, Vector.normalize (Vector.mk (fun i => if i.val = 0 then F32.ofBits 0x3F800000
            else F32.ofBits 0x39900000) : Vector F32 337) = some n ∧
        Vector.length n = F32.ofBits 0x3F7FFF58 ∧ ¬ (Vector.length n).nearOne) := by
  refine ⟨⟨by decide!, Vector2.mk (F32.zero false) (F32.zero false), by decide!, by decide!,
    ?_⟩, ⟨by decide!, by decide!⟩, ⟨by decide!, by decide!,
    Vector2.mk (F32.ofBits 0x3F6014D1) (F32.ofBits 0x3EF7965D), by decide!, by decide!, ?_⟩,
    ⟨by decide!, Vector.wide_example.1, _, Vector.wide_example.2.1, Vector.wide_example.2.2,
      ?_⟩⟩
  · have h : Vector2.length (Vector2.mk (F32.zero false) (F32.zero false)) = F32.zero false := by
      decide!
    rw [h]
    exact F32.not_nearOne_of_lt _ (by decide!) (by decide!)
  · have h : Vector2.length (Vector2.mk (F32.ofBits 0x3F6014D1) (F32.ofBits 0x3EF7965D))
        = F32.ofBits 0x3F800054 := by decide!
    rw [h]
    exact F32.not_nearOne_of_gt _ (by decide!) (by decide!)
  · rw [Vector.wide_example.2.2]
    exact F32.not_nearOne_of_lt _ (by decide!) (by decide!)

/-- Two non-negative numbers whose ratio, either way, is at most
`1 + k / (2^24 - 1)` are within `k` roundings of each other. -/
theorem Within.of_ratio (k : Nat) (a X : ℚ) (h0 : 0 ≤ a) (h1 : 0 ≤ X)
    (h2 : X * 16777215 ≤ a * (16777215 + k)) (h3 : a * 16777215 ≤ X * (16777215 + k)) :
    Within k a X := by
  have hb := add_mul_le_rho_pow k
  have hrho : rho - 1 = 1 / 16777215 := by norm_num [rho]
  rw [hrho] at hb
  have e : ∀ t : ℚ, t * (1 + (k : ℚ) * (1 / 16777215)) = t * (16777215 + k) / 16777215 := by
    intro t
    field_simp
  refine ⟨h0, h1, ?_, ?_⟩
  · refine le_trans ?_ (mul_le_mul_of_nonneg_left hb h0)
    rw [e, le_div_iff₀ (by norm_num)]
    exact h2
  · refine le_trans ?_ (mul_le_mul_of_nonneg_left hb h1)
    rw [e, le_div_iff₀ (by norm_num)]
    exact h3

/-- The squared length of a vector of width 2 against the exact sum of
squares, from the units of `2^-149` of the three floats. -/
theorem Vector2.within_of_fix (v : Vector2 F32) (k du xu yu : Nat)
    (hd : (Vector2.squaredLength v).fix = du) (hx : v.x.fix = xu) (hy : v.y.fix = yu)
    (h2 : (xu * xu + yu * yu) * 16777215 ≤ du * 2 ^ 149 * (16777215 + k))
    (h3 : du * 2 ^ 149 * 16777215 ≤ (xu * xu + yu * yu) * (16777215 + k)) :
    Within k (Vector2.squaredLength v).mag (v.x.mag * v.x.mag + v.y.mag * v.y.mag) := by
  unfold F32.mag
  rw [hd, hx, hy]
  have c2 : (((xu * xu + yu * yu) * 16777215 : Nat) : ℚ)
      ≤ ((du * 2 ^ 149 * (16777215 + k) : Nat) : ℚ) := Nat.cast_le.2 h2
  have c3 : ((du * 2 ^ 149 * 16777215 : Nat) : ℚ)
      ≤ (((xu * xu + yu * yu) * (16777215 + k) : Nat) : ℚ) := Nat.cast_le.2 h3
  simp only [Nat.cast_mul, Nat.cast_add, Nat.cast_pow, Nat.cast_ofNat] at c2 c3
  have hP : (0 : ℚ) < 2 ^ 149 := pow_pos (by norm_num) 149
  generalize (2 : ℚ) ^ 149 = P at *
  have hPP : 0 < P * P := mul_pos hP hP
  have eX : (xu : ℚ) / P * ((xu : ℚ) / P) + (yu : ℚ) / P * ((yu : ℚ) / P)
      = ((xu : ℚ) * xu + (yu : ℚ) * yu) / (P * P) := by
    field_simp
  rw [eX]
  apply Within.of_ratio k _ _ (div_nonneg (Nat.cast_nonneg _) hP.le)
    (div_nonneg (add_nonneg (mul_self_nonneg _) (mul_self_nonneg _)) hPP.le)
  · have e1 : ((xu : ℚ) * xu + (yu : ℚ) * yu) / (P * P) * 16777215
        = ((xu : ℚ) * xu + (yu : ℚ) * yu) * 16777215 / (P * P) := by ring
    have e2 : (du : ℚ) / P * (16777215 + (k : ℚ))
        = (du : ℚ) * P * (16777215 + k) / (P * P) := by
      field_simp
      ring
    rw [e1, e2]
    exact div_le_div_of_nonneg_right c2 hPP.le
  · have e1 : (du : ℚ) / P * 16777215 = (du : ℚ) * P * 16777215 / (P * P) := by
      field_simp
      ring
    have e2 : ((xu : ℚ) * xu + (yu : ℚ) * yu) / (P * P) * (16777215 + (k : ℚ))
        = ((xu : ℚ) * xu + (yu : ℚ) * yu) * (16777215 + k) / (P * P) := by ring
    rw [e1, e2]
    exact div_le_div_of_nonneg_right c3 hPP.le

/-- C24, amended: for every float vector `v` of `N` components, of width 2, 3
or 4 with the unrolled `dot`, or of a generic width `N` with the loop, whose
squared length `d = dot(v, v)`, as computed, is finite and one of: `1 ≤ N ≤ 159`
and `N * 2^-126 ≤ (320 - 2 * N) * d`, as every normal float `d` satisfies for
`N ≤ 106`; `N ≤ 159` and `d` is not zero with every square `v[i] * v[i]`
computed exactly; `N ≤ 322` and `d` is not zero and within a factor
`(1 - 2^-24)^-(322 - N)`, either way, of the exact sum of the squares of the
components. Then `normalize(v)` returns (its assertion `length(v) != 0` holds)
and `length(normalize(v))` is finite and within `1e-5` of 1.0. -/
theorem normalize_length_near_one :
    (∀ v : Vector2 F32, (Vector2.squaredLength v).isFinite = true →
      ((2 : ℚ) / 2 ^ 126 ≤ 316 * (Vector2.squaredLength v).mag ∨
        (0 < (Vector2.squaredLength v).mag ∧ v.x.exactSquare ∧ v.y.exactSquare) ∨
        (0 < (Vector2.squaredLength v).mag ∧
          Within 320 (Vector2.squaredLength v).mag
            (v.x.mag * v.x.mag + v.y.mag * v.y.mag))) →
      ∃ n, Vector2.normalize v = some n ∧ (Vector2.length n).nearOne) ∧
    (∀ v : Vector3 F32, (Vector3.squaredLength v).isFinite = true →
      ((3 : ℚ) / 2 ^ 126 ≤ 314 * (Vector3.squaredLength v).mag ∨
        (0 < (Vector3.squaredLength v).mag ∧ v.x.exactSquare ∧ v.y.exactSquare ∧
          v.z.exactSquare) ∨
        (0 < (Vector3.squaredLength v).mag ∧
          Within 319 (Vector3.squaredLength v).mag
            (v.x.mag * v.x.mag + v.y.mag * v.y.mag + v.z.mag * v.z.mag))) →
      ∃ n, Vector3.normalize v = some n ∧ (Vector3.length n).nearOne) ∧
    (∀ v : Vector4 F32, (Vector4.squaredLength v).isFinite = true →
      ((4 : ℚ) / 2 ^ 126 ≤ 312 * (Vector4.squaredLength v).mag ∨
        (0 < (Vector4.squaredLength v).mag ∧ v.x.exactSquare ∧ v.y.exactSquare ∧
          v.z.exactSquare ∧ v.w.exactSquare) ∨
        (0 < (Vector4.squaredLength v).mag ∧
          Within 318 (Vector4.squaredLength v).mag
            (v.x.mag * v.x.mag + v.y.mag * v.y.mag + v.z.mag * v.z.mag
              + v.w.mag * v.w.mag))) →
      ∃ n, Vector4.normalize v = some n ∧ (Vector4.length n).nearOne) ∧
    (∀ (N : Nat) (v : Vector F32 N), (Vector.squaredLength v).isFinite = true →
      ((1 ≤ N ∧ N ≤ 159 ∧
          (N : ℚ) / 2 ^ 126 ≤ (320 - 2 * (N : ℚ)) * (Vector.squaredLength v).mag) ∨
        (N ≤ 159 ∧ 0 < (Vector.squaredLength v).mag ∧
          ∀ i, (v.elements i).exactSquare) ∨
        (N ≤ 322 ∧ 0 < (Vector.squaredLength v).mag ∧
          Within (322 - N) (Vector.squaredLength v).mag
            ((List.finRange N).map
              (fun i => (v.elements i).mag * (v.elements i).mag)).sum)) →
      ∃ n, Vector.normalize v = some n ∧ (Vector.length n).nearOne) :=
  ⟨Vector2.normalize_near_two, Vector3.normalize_near_three, Vector4.normalize_near_four,
    fun _ v hfin hlow => Vector.normalize_near_loop v hfin hlow⟩

/-- The vectors `(2^63, 0)`, whose squared length `2^126` is near the top of
the range; `(1e-20, 0)`, whose squared length `71362 * 2^-149` is below the
normal range and rounded; `(2^-74, 0)`, whose squared length `2^-148` is exact;
`(7e-21, 0)`, whose squared length `34968 * 2^-149` is within 209 roundings of
the exact square; `(1, 1e-10, 0)`; `(0, 0, 0, 5)`; and, for the loop,
`(1, 2, 3, 4, 5)`. -/
theorem normalize_length_witness :
    (∃ n, Vector2.normalize (Vector2.mk (F32.ofBits 0x5F000000) (F32.zero false)) = some n ∧
      (Vector2.length n).nearOne) ∧
    (∃ n, Vector2.normalize (Vector2.mk (F32.ofBits 0x1E3CE508) (F32.zero false)) = some n ∧
      (Vector2.length n).nearOne) ∧
    (∃ n, Vector2.normalize (Vector2.mk (F32.ofBits 0x1A800000) (F32.zero false)) = some n ∧
      (Vector2.length n).nearOne) ∧
    (∃ n, Vector2.normalize (Vector2.mk (F32.ofBits 0x1E0439EC) (F32.zero false)) = some n ∧
      (Vector2.length n).nearOne) ∧
    (∃ n, Vector3.normalize
        (Vector3.mk (F32.ofInt 1) (F32.ofBits 0x2EDBE6FF) (F32.zero false)) = some n ∧
      (Vector3.length n).nearOne) ∧
    (∃ n, Vector4.normalize
        (Vector4.mk (F32.ofInt 0) (F32.ofInt 0) (F32.ofInt 0) (F32.ofInt 5)) = some n ∧
      (Vector4.length n).nearOne) ∧
    (∃ n, Vector.normalize (Vector.mk (fun i => F32.ofInt (i.val + 1)) : Vector F32 5) = some n ∧
      (Vector.length n).nearOne) :=
  ⟨normalize_length_near_one.1 _ (by decide!)
      (Or.inl (F32.bound_of_normal _ (by decide!) _ _ (by norm_num) (by norm_num))),
   normalize_length_near_one.1 _ (by decide!)
      (Or.inl (F32.bound_of_units _ 71362 (by decide!) _ _ (by norm_num))),
   normalize_length_near_one.1 _ (by decide!)
      (Or.inr (Or.inl ⟨(F32.mag_pos_iff _).2 (by decide!),
        (F32.exactSquare_iff _).2 (by decide!), (F32.exactSquare_iff _).2 (by decide!)⟩)),
   normalize_length_near_one.1 _ (by decide!)
      (Or.inr (Or.inr ⟨(F32.mag_pos_iff _).2 (by decide!),
        Vector2.within_of_fix _ 320 34968 4995366765945500509143040 0
          (by decide!) (by decide!) (by decide!) (by decide!) (by decide!)⟩)),
   normalize_length_near_one.2.1 _ (by decide!)
      (Or.inl (F32.bound_of_normal _ (by decide!) _ _ (by norm_num) (by norm_num))),
   normalize_length_near_one.2.2.1 _ (by decide!)
      (Or.inl (F32.bound_of_normal _ (by decide!) _ _ (by norm_num) (by norm_num))),
   normalize_length_near_one.2.2.2 5 _ (by decide!)
      (Or.inl ⟨by decide, by decide,
        F32.bound_of_normal _ (by decide!) _ _ (by norm_num) (by norm_num)⟩)⟩

end sfz
